import Mathlib

/-!
# kronasje: cron expressions compiled to bit fields

A shallow embedding of `parser.go` and `spec.go` (package `cron`), followed by
theorems about it.

Conventions of the embedding

* `uint8` and `uint64` values are natural numbers; every operation that can
  wrap is written with its modulus (`% 256`, `% 2 ^ 64`).
* A Go `string` is a `String`; the library functions the parser calls
  (`strings.Fields`, `strings.Split`, `strings.TrimSpace`, `strconv.ParseUint`,
  `regexp`) are modelled on lists of characters.
* A Go result pair `(uint64, error)` is a pair `Nat × Option Error`; a function
  that may panic or loop returns it inside `Except Fault`.
-/

namespace Cron

/-! ## Outcomes -/

/-- Ways in which a call fails to return a value. -/
inductive Fault where
  /-- run-time panic: a slice is indexed past its length -/
  | indexOutOfRange
  /-- the call never returns: the loop of `stepField` runs forever -/
  | nonTermination
  /-- the recursion budget of `Parse` ran out (a limit of the embedding, not of the program) -/
  | outOfFuel
  deriving DecidableEq, Repr

/-- The `error` values the package produces, one constructor per message. -/
inductive Error where
  /-- message "number of fields expected to be either 1 or 5, got %d" -/
  | fieldCount (n : Nat)
  /-- message "no such named cron expression" -/
  | noSuchName
  /-- strconv.ParseUint: parsing the text: invalid syntax -/
  | invalidSyntax (s : String)
  /-- strconv.ParseUint: parsing the text: value out of range -/
  | valueOutOfRange (s : String)
  /-- message "expected %d in the range %d-%d" -/
  | notInRange (num min max : Nat)
  /-- message "field %v does not match any pattern" -/
  | noPattern (value : String)
  /-- message "field has no aliases" -/
  | noAliases
  /-- message "%v is not a valid alias", the alias quoted -/
  | notAlias (name : String)
  deriving DecidableEq, Repr

/-- A Go `(uint64, error)` result. -/
abbrev Res := Nat × Option Error

/-! ## Library functions -/

/-- The class `\d` of Go regular expressions: ASCII digits. -/
def isDigit (c : Char) : Bool := decide (48 ≤ c.toNat) && decide (c.toNat ≤ 57)

/-- The class `[[:alpha:]]`: ASCII letters. -/
def isAlpha (c : Char) : Bool :=
  (decide (65 ≤ c.toNat) && decide (c.toNat ≤ 90)) || (decide (97 ≤ c.toNat) && decide (c.toNat ≤ 122))

/-- The class `\s` of Go regular expressions: `[\t\n\f\r ]`. -/
def isReSpace (c : Char) : Bool :=
  c.toNat == 9 || c.toNat == 10 || c.toNat == 12 || c.toNat == 13 || c.toNat == 32

/-- White space as `unicode.IsSpace` sees it (used by `strings.Fields` and `strings.TrimSpace`). -/
def isSpace (c : Char) : Bool :=
  let n := c.toNat
  (decide (9 ≤ n) && decide (n ≤ 13)) || n == 32 || n == 0x85 || n == 0xA0 || n == 0x1680 ||
  (decide (0x2000 ≤ n) && decide (n ≤ 0x200A)) || n == 0x2028 || n == 0x2029 || n == 0x202F ||
  n == 0x205F || n == 0x3000

/-- The loop of `strings.Fields`: `cur` is the token being read, reversed. -/
def fieldsLoop : List Char → List Char → List String
  | [], cur => if cur.isEmpty then [] else [String.mk cur.reverse]
  | c :: t, cur =>
    if isSpace c then
      (if cur.isEmpty then fieldsLoop t [] else String.mk cur.reverse :: fieldsLoop t [])
    else fieldsLoop t (c :: cur)

/-- The function `strings.Fields`: the maximal runs of non-space characters. -/
def Fields (s : String) : List String := fieldsLoop s.data []

/-- The function `strings.Split(s, ",")`. -/
def splitComma : List Char → List (List Char)
  | [] => [[]]
  | c :: t =>
    if c = ',' then [] :: splitComma t
    else match splitComma t with
      | [] => [[c]]
      | h :: r => (c :: h) :: r

/-- The function `strings.TrimSpace`. -/
def TrimSpace (s : List Char) : List Char :=
  ((s.dropWhile isSpace).reverse.dropWhile isSpace).reverse

/-- The digit loop of `strconv.ParseUint(s, 10, 8)`: `n` is the value read so far. -/
def parseUintLoop (s0 : String) : List Char → Nat → Res
  | [], n => (n, none)
  | c :: t, n =>
    if !isDigit c then (0, some (.invalidSyntax s0))
    else if n ≥ (2 ^ 64 - 1) / 10 + 1 then (255, some (.valueOutOfRange s0))
    else if n * 10 + (c.toNat - 48) > 255 then (255, some (.valueOutOfRange s0))
    else parseUintLoop s0 t (n * 10 + (c.toNat - 48))

/-- The call `strconv.ParseUint(s, 10, 8)`: value and error. -/
def ParseUint (s : String) : Res :=
  if s.data.isEmpty then (0, some (.invalidSyntax s)) else parseUintLoop s s.data 0

/-! ### Regular expressions -/

/-- The fragment of regular-expression syntax that `spec.go` uses. -/
inductive Re where
  /-- a literal character -/
  | lit (c : Char)
  /-- a character class -/
  | cls (p : Char → Bool)
  /-- concatenation -/
  | cat (a b : Re)
  /-- alternation, the left branch preferred -/
  | alt (a b : Re)
  /-- greedy repetition, zero or more times, non-capturing -/
  | star (a : Re)
  /-- a capturing group -/
  | group (a : Re)

/-- The repetition `a{1,2}`, greedy. -/
def Re.rep12 (a : Re) : Re := .alt (.cat a a) a

/-- The iteration of a starred expression: every input that can remain after
zero or more rounds of `f`, more rounds first. A round that consumes nothing is
not repeated. -/
def starLoop (f : List Char → List (List (List Char) × List Char)) :
    Nat → List Char → List (List (List Char) × List Char)
  | 0, s => [([], s)]
  | n + 1, s =>
    ((f s).flatMap fun m => if m.2.length < s.length then starLoop f n m.2 else []) ++ [([], s)]

/-- Backtracking matcher: all the ways in which the expression matches a prefix
of the input, in order of preference, each with the text of its capturing
groups and the input that remains. -/
def Re.run : Re → List Char → List (List (List Char) × List Char)
  | .lit c, s =>
    match s with
    | x :: t => if x = c then [([], t)] else []
    | [] => []
  | .cls p, s =>
    match s with
    | x :: t => if p x then [([], t)] else []
    | [] => []
  | .cat a b, s => (run a s).flatMap fun m => (run b m.2).map fun k => (m.1 ++ k.1, k.2)
  | .alt a b, s => run a s ++ run b s
  | .star a, s => starLoop (fun t => run a t) s.length s
  | .group a, s => (run a s).map fun m => (s.take (s.length - m.2.length) :: m.1, m.2)

/-- The method `MatchString` of the expression anchored as `^re$`. -/
def Re.MatchString (re : Re) (s : String) : Bool :=
  (re.run s.data).any fun m => m.2.isEmpty

/-- The method `FindStringSubmatch` of the expression anchored as `^re$`: the
whole match followed by the groups, or `none` for the nil slice. -/
def Re.FindStringSubmatch (re : Re) (s : String) : Option (List String) :=
  ((re.run s.data).find? fun m => m.2.isEmpty).map fun m => s :: m.1.map String.mk

/-- Indexing `sub[i]` of a submatch slice; out of range (also on the nil slice) panics. -/
def index (sub : Option (List String)) (i : Nat) : Except Fault String :=
  match sub with
  | none => .error .indexOutOfRange
  | some l =>
    match l.get? i with
    | some x => .ok x
    | none => .error .indexOutOfRange

/-! ## spec.go -/

/-- The constant `singleOrDoubleDigit`, the pattern `([\d]{1,2})`. -/
def singleOrDoubleDigit : Re := .group (Re.rep12 (.cls isDigit))

/-- The constant `every`, the pattern `\*`. -/
def every : Re := .lit '*'

/-- The constant `alias` (a reserved word here, hence the prime), the pattern `([[:alpha:]]{3})`. -/
def alias' : Re := .group (.cat (.cls isAlpha) (.cat (.cls isAlpha) (.cls isAlpha)))

/-- The constant `step`: a slash and `singleOrDoubleDigit`. -/
def step : Re := .cat (.lit '/') singleOrDoubleDigit

/-- The constant `numberRange`: two `singleOrDoubleDigit` with a dash between. -/
def numberRange : Re := .cat singleOrDoubleDigit (.cat (.lit '-') singleOrDoubleDigit)

/-- The constant `list`: `singleOrDoubleDigit` followed by `(?:,\s*` + `singleOrDoubleDigit` + `)*`. -/
def list : Re :=
  .cat singleOrDoubleDigit (.star (.cat (.lit ',') (.cat (.star (.cls isReSpace)) singleOrDoubleDigit)))

/-- The compiled expression `Every`, the pattern `every` between `^` and `$`. -/
def Pattern.Every : Re := every

/-- The compiled expression `EveryStep`. -/
def Pattern.EveryStep : Re := .cat every step

/-- The compiled expression `SingleOrDoubleDigit`. -/
def Pattern.SingleOrDoubleDigit : Re := singleOrDoubleDigit

/-- The compiled expression `Alias`. -/
def Pattern.Alias : Re := alias'

/-- The compiled expression `Range`. -/
def Pattern.Range : Re := numberRange

/-- The compiled expression `List`. -/
def Pattern.List : Re := list

/-- The compiled expression `RangeStep`. -/
def Pattern.RangeStep : Re := .cat numberRange step

/-- The type `Aliases`, a `map[string]uint8`, as an association list with distinct keys. -/
abbrev Aliases := List (String × Nat)

/-- The type `FieldSpec`: every field has a minimum and a maximum value and
possibly aliases (`none` is the nil map). -/
structure FieldSpec where
  /-- smallest value of the field -/
  Min : Nat
  /-- largest value of the field -/
  Max : Nat
  /-- names of values, if the field has any -/
  Aliases : Option Aliases
  deriving DecidableEq, Repr

/-- The method `Unalias`: the value aliased, and an error if the field has no
such alias or no aliases. -/
def FieldSpec.Unalias (f : FieldSpec) (name : String) : Res :=
  match f.Aliases with
  | none => (0, some .noAliases)
  | some m =>
    match m.lookup name with
    | none => (0, some (.notAlias name))
    | some number => (number, none)

/-- The method `InRange`: whether the number lies between the minimum and the
maximum of the field. -/
def FieldSpec.InRange (f : FieldSpec) (number : Nat) : Bool :=
  if number < f.Min || number > f.Max then false else true

/-- The struct `fields`: one `FieldSpec` for each field of an expression. -/
structure fields where
  /-- minutes -/
  minute : FieldSpec
  /-- hours -/
  hour : FieldSpec
  /-- days of the month -/
  dom : FieldSpec
  /-- months -/
  month : FieldSpec
  /-- days of the week -/
  dow : FieldSpec

/-- The variable `spec`. -/
def spec : fields where
  minute := ⟨0, 59, none⟩
  hour := ⟨0, 23, none⟩
  dom := ⟨1, 31, none⟩
  month := ⟨1, 12, some [("jan", 1), ("feb", 2), ("mar", 3), ("apr", 4), ("may", 5), ("jun", 6),
    ("jul", 7), ("aug", 8), ("sep", 9), ("okt", 10), ("nov", 11), ("des", 12)]⟩
  dow := ⟨0, 7, some [("sun", 0), ("mon", 1), ("tue", 2), ("wed", 3), ("thu", 4), ("fri", 5),
    ("sat", 6)]⟩

/-- The variable `names`: common expressions that can be given by name. -/
def names : List (String × String) :=
  [("@yearly", "0 0 1 1 *"), ("@annually", "@yearly"), ("@monthly", "0 0 1 * *"),
   ("@weekly", "0 0 * * 0"), ("@daily", "0 0 * * *"), ("@midnight", "@daily"),
   ("@hourly", "0 * * * *")]

/-! ## parser.go -/

/-- The function `offset`: increments the value by 1 if the minimum of the field
is 0, except for 7 in the day of week (Sunday written as 7). The source compares
the pointer with `spec.dow`; the five specs differ in content, so comparing
contents tells them apart in the same way. -/
def offset (fieldSpec : FieldSpec) (value : Nat) : Nat :=
  let sundayAsSeven := decide (fieldSpec = spec.dow) && decide (value = fieldSpec.Max)
  if fieldSpec.Min = 0 && !sundayAsSeven then (value + 1) % 256 else value

/-- The function `bits`: the `uint64` all ones shifted right by `64 - value`,
the subtraction in `uint8`. -/
def bits (value : Nat) : Nat := (2 ^ 64 - 1) >>> ((64 + 256 - value) % 256)

/-- The function `bit`: 1 shifted left by `value - 1`, the subtraction in
`uint8` and the result in `uint64`. -/
def bit (value : Nat) : Nat := (1 <<< ((value + 255) % 256)) % 2 ^ 64

/-- The function `field`. -/
def field (value : Nat) : Nat := bit value

/-- The function `rangeField`. -/
def rangeField (from' to' : Nat) : Nat :=
  if from' = to' then field from' else bits to' ^^^ bits ((from' + 255) % 256)

/-- The loop of `stepField`, `for i := from; i <= to; i = i + step`, run for at
most `n` tests of its condition. -/
def stepLoop (to' step : Nat) : Nat → Nat → Nat → Except Fault Nat
  | 0, _, _ => .error .nonTermination
  | n + 1, i, value =>
    if i ≤ to' then stepLoop to' step n ((i + step) % 256) (value ||| bit i) else .ok value

/-- The function `stepField`. Its counter is a `uint8`: when the condition has
held 256 times in a row the counter is back at a value it had before and the
loop never ends. -/
def stepField (from' to' step : Nat) : Except Fault Nat := stepLoop to' step 256 from' 0

/-- The function `listField`. -/
def listField (values : List Nat) : Nat := values.foldl (fun value val => value ||| bit val) 0

/-- The function `parseEvery`. -/
def parseEvery (fieldSpec : FieldSpec) : Res :=
  (rangeField (offset fieldSpec fieldSpec.Min) (offset fieldSpec fieldSpec.Max), none)

/-- The function `parseSingleOrDoubleDigit`. -/
def parseSingleOrDoubleDigit (value : String) (fieldSpec : FieldSpec) : Res :=
  let (num, err) := ParseUint value
  if err.isSome then (0, err)
  else if !fieldSpec.InRange (num % 256) then (0, some (.notInRange num fieldSpec.Min fieldSpec.Max))
  else (field (offset fieldSpec (num % 256)), none)

/-- The function `parseEveryStep`. -/
def parseEveryStep (value : String) (fieldSpec : FieldSpec) : Except Fault Res := do
  let sub := Pattern.EveryStep.FindStringSubmatch value
  let (step, err) := ParseUint (← index sub 1)
  if err.isSome then return (0, err)
  let mask ← stepField (offset fieldSpec fieldSpec.Min) (offset fieldSpec fieldSpec.Max) (step % 256)
  return (mask, none)

/-- The function `parseRange`. The error of the first `ParseUint` is overwritten
by that of the second, as in the source. -/
def parseRange (value : String) (fieldSpec : FieldSpec) : Except Fault Res := do
  let sub := Pattern.Range.FindStringSubmatch value
  let (from', _) := ParseUint (← index sub 1)
  let (to', err) := ParseUint (← index sub 2)
  if err.isSome then return (0, err)
  if !fieldSpec.InRange (from' % 256) then
    return (0, some (.notInRange from' fieldSpec.Min fieldSpec.Max))
  if !fieldSpec.InRange (to' % 256) then
    return (0, some (.notInRange to' fieldSpec.Min fieldSpec.Max))
  return (rangeField (offset fieldSpec (from' % 256)) (offset fieldSpec (to' % 256)), none)

/-- The function `parseRangeStep`. Only the error of the last `ParseUint` is
looked at, as in the source. -/
def parseRangeStep (value : String) (fieldSpec : FieldSpec) : Except Fault Res := do
  let sub := Pattern.RangeStep.FindStringSubmatch value
  let (from', _) := ParseUint (← index sub 1)
  let (to', _) := ParseUint (← index sub 2)
  let (step, err) := ParseUint (← index sub 3)
  if err.isSome then return (0, err)
  if !fieldSpec.InRange (from' % 256) then
    return (0, some (.notInRange from' fieldSpec.Min fieldSpec.Max))
  if !fieldSpec.InRange (to' % 256) then
    return (0, some (.notInRange to' fieldSpec.Min fieldSpec.Max))
  let mask ← stepField (offset fieldSpec (from' % 256)) (offset fieldSpec (to' % 256)) (step % 256)
  return (mask, none)

/-- The function `parseAlias`. When `Unalias` fails the source builds an error
value and drops it (there is no `return`), and goes on with the number 0. -/
def parseAlias (name : String) (fieldSpec : FieldSpec) : Res :=
  let (number, _) := fieldSpec.Unalias name
  (field (offset fieldSpec number), none)

/-- The loop of `parseList` over the pieces of the split text; `values` holds
the offsets found so far. -/
def parseListLoop (fieldSpec : FieldSpec) : List (List Char) → List Nat → Res
  | [], values => (listField values, none)
  | str :: rest, values =>
    let (val, err) := ParseUint (String.mk (TrimSpace str))
    if err.isSome then (0, err)
    else if !fieldSpec.InRange (val % 256) then
      (0, some (.notInRange val fieldSpec.Min fieldSpec.Max))
    else parseListLoop fieldSpec rest (values ++ [offset fieldSpec (val % 256)])

/-- The function `parseList` (no ranges are allowed in the list). -/
def parseList (value : String) (fieldSpec : FieldSpec) : Res :=
  parseListLoop fieldSpec (splitComma value.data) []

/-- The function `parseField`: parses any field of an expression. -/
def parseField (value : String) (fieldSpec : FieldSpec) : Except Fault Res :=
  if Pattern.Every.MatchString value then .ok (parseEvery fieldSpec)
  else if Pattern.SingleOrDoubleDigit.MatchString value then
    .ok (parseSingleOrDoubleDigit value fieldSpec)
  else if Pattern.EveryStep.MatchString value then parseEveryStep value fieldSpec
  else if Pattern.Range.MatchString value then parseRange value fieldSpec
  else if Pattern.RangeStep.MatchString value then parseRangeStep value fieldSpec
  else if Pattern.Alias.MatchString value then .ok (parseAlias value fieldSpec)
  else if Pattern.List.MatchString value then .ok (parseList value fieldSpec)
  else .ok (0, some (.noPattern value))

/-- Modelled from the spec: the declaration of the struct `BitCron` is not among
the sources; the spec gives a schedule as the five masks `minuteMask, hourMask,
domMask, monthMask, dowMask`, and `Parse` builds it from them in that order. -/
structure BitCron where
  /-- mask of the minutes -/
  minute : Nat
  /-- mask of the hours -/
  hour : Nat
  /-- mask of the days of the month -/
  dom : Nat
  /-- mask of the months -/
  month : Nat
  /-- mask of the days of the week -/
  dow : Nat
  deriving DecidableEq, Repr

/-- A Go `(Schedule, error)` result; `none` is the nil interface value. -/
abbrev ParseRes := Option BitCron × Option Error

/-- The method `parseNamedExpression`; `Parse` is passed in as `parse`. -/
def parseNamedExpression (parse : String → Except Fault ParseRes) (value : String) :
    Except Fault ParseRes :=
  match names.lookup value with
  | some expression => parse expression
  | none => .ok (none, some .noSuchName)

/-- The body of the method `Parse`, its recursive call (through
`parseNamedExpression`) passed in as `parse`. Each `err` replaces the one
before it, as in the source. -/
def parseBody (parse : String → Except Fault ParseRes) (expression : String) :
    Except Fault ParseRes :=
  let fields := Fields expression
  let nrOfFields := fields.length
  if nrOfFields ≠ 1 ∧ nrOfFields ≠ 5 then .ok (none, some (.fieldCount nrOfFields))
  else
    match fields with
    | [f0] => parseNamedExpression parse f0
    | [f0, f1, f2, f3, f4] => do
      let (minute, _) ← parseField f0 spec.minute
      let (hour, _) ← parseField f1 spec.hour
      let (dom, _) ← parseField f2 spec.dom
      let (month, _) ← parseField f3 spec.month
      let (dow, err) ← parseField f4 spec.dow
      if err.isSome then return (none, err)
      return (some ⟨minute, hour, dom, month, dow⟩, none)
    | _ => .error .indexOutOfRange

/-- The method `Parse`, with a bound on the depth of its recursion: with fuel
`k` an expression may go through `k` names before it reaches five fields. -/
def Parse : Nat → String → Except Fault ParseRes
  | 0, expression => parseBody (fun _ => .error .outOfFuel) expression
  | k + 1, expression => parseBody (Parse k) expression

/-! ## Vocabulary of the statements -/

deriving instance DecidableEq for Except

/-- The five field domains, in field order. -/
def fields.toList (f : fields) : List FieldSpec := [f.minute, f.hour, f.dom, f.month, f.dow]

/-- A text of one or two ASCII digits, what `singleOrDoubleDigit` captures. -/
def digits12 (l : List Char) : Prop :=
  (∃ x, l = [x] ∧ isDigit x = true) ∨ (∃ x y, l = [x, y] ∧ isDigit x = true ∧ isDigit y = true)

/-- The number a text of digits stands for. -/
def num (l : List Char) : Nat := (ParseUint (String.mk l)).1

/-- The last error among the results of the five fields, in field order. -/
def lastError (r0 r1 r2 r3 r4 : Res) : Option Error :=
  r4.2 <|> r3.2 <|> r2.2 <|> r1.2 <|> r0.2

/-- The text of a comma list: a first number and then, for each further number,
a comma, white space of the pattern `\s*` and the number. -/
def listText (a0 : List Char) (items : List (List Char × List Char)) : List Char :=
  a0 ++ items.flatMap fun it => ',' :: (it.1 ++ it.2)

/-- A field that compiles as the parser means it to: `parseField` returns a
mask and no error, a token of three letters is an alias of the domain, and the
ends of a range or stepped range are in order. -/
def regular (value : String) (fs : FieldSpec) : Bool :=
  (match parseField value fs with
    | .ok (_, none) => true
    | _ => false) &&
  (!Pattern.Alias.MatchString value || (fs.Unalias value).2.isNone) &&
  (match Pattern.Range.FindStringSubmatch value with
    | some [_, a, b] => decide (num a.data ≤ num b.data)
    | _ => true) &&
  (match Pattern.RangeStep.FindStringSubmatch value with
    | some [_, a, b, _] => decide (num a.data ≤ num b.data)
    | _ => true)

/-- The seven shapes of a field, one for each case of the switch of `parseField`
(`alias'` for the reserved word). -/
inductive Shape where
  /-- the wildcard -/
  | every
  /-- a number of one or two digits -/
  | single
  /-- a stepped wildcard -/
  | everyStep
  /-- a range -/
  | range
  /-- a stepped range -/
  | rangeStep
  /-- three letters -/
  | alias'
  /-- a comma list -/
  | list
  deriving DecidableEq, Repr

/-- The compiled expression that a case of the switch tests. -/
def Shape.pattern : Shape → Re
  | .every => Pattern.Every
  | .single => Pattern.SingleOrDoubleDigit
  | .everyStep => Pattern.EveryStep
  | .range => Pattern.Range
  | .rangeStep => Pattern.RangeStep
  | .alias' => Pattern.Alias
  | .list => Pattern.List

/-- The shape that the switch of `parseField` selects: the conditions of its
cases in the order of the source, the first that matches wins. -/
def classify (value : String) : Option Shape :=
  if Pattern.Every.MatchString value then some .every
  else if Pattern.SingleOrDoubleDigit.MatchString value then some .single
  else if Pattern.EveryStep.MatchString value then some .everyStep
  else if Pattern.Range.MatchString value then some .range
  else if Pattern.RangeStep.MatchString value then some .rangeStep
  else if Pattern.Alias.MatchString value then some .alias'
  else if Pattern.List.MatchString value then some .list
  else none

/-- The classification as the spec words it: the priority order every,
stepped-every, single value, range, stepped range, three-letter alias, comma
list, the first that matches wins. -/
def classifySpec (value : String) : Option Shape :=
  if Pattern.Every.MatchString value then some .every
  else if Pattern.EveryStep.MatchString value then some .everyStep
  else if Pattern.SingleOrDoubleDigit.MatchString value then some .single
  else if Pattern.Range.MatchString value then some .range
  else if Pattern.RangeStep.MatchString value then some .rangeStep
  else if Pattern.Alias.MatchString value then some .alias'
  else if Pattern.List.MatchString value then some .list
  else none

/-- The bodies of the cases of the switch of `parseField`, by the shape selected. -/
def dispatch (shape : Option Shape) (value : String) (fieldSpec : FieldSpec) :
    Except Fault Res :=
  match shape with
  | some .every => .ok (parseEvery fieldSpec)
  | some .single => .ok (parseSingleOrDoubleDigit value fieldSpec)
  | some .everyStep => parseEveryStep value fieldSpec
  | some .range => parseRange value fieldSpec
  | some .rangeStep => parseRangeStep value fieldSpec
  | some .alias' => .ok (parseAlias value fieldSpec)
  | some .list => .ok (parseList value fieldSpec)
  | none => .ok (0, some (.noPattern value))

/-! ## The schedule and its next occurrence -/

/-- Modelled from the spec: the instants of the host calendar, whose type is
not among the sources. An instant is its number of nanoseconds since
0000-03-01T00:00:00Z in the proleptic Gregorian calendar, in UTC. -/
abbrev Instant := Nat

/-- Modelled from the spec: the nanoseconds of a minute, the unit below which
`Next` sets everything to zero. -/
def minuteNs : Nat := 60000000000

/-- Modelled from the spec: the minute of the hour of the minute numbered `k`
since the epoch (the calendar of the host is not among the sources). -/
def minuteOf (k : Nat) : Nat := k % 60

/-- Modelled from the spec: the hour of the day of the minute numbered `k`. -/
def hourOf (k : Nat) : Nat := k / 60 % 24

/-- Modelled from the spec: the day, counted from the epoch, of the minute
numbered `k`. -/
def daysOf (k : Nat) : Nat := k / 1440

/-- Modelled from the spec: the day of the week of the day numbered `z`, with 0
for Sunday; the epoch is a Wednesday. -/
def weekdayOf (z : Nat) : Nat := (z + 3) % 7

/-- Modelled from the spec: the year, counted from 1 March, within the cycle of
400 years of the day numbered `z`. -/
def yearOfEra (z : Nat) : Nat :=
  let doe := z % 146097
  (doe - doe / 1460 + doe / 36524 - doe / 146096) / 365

/-- Modelled from the spec: the day of the year counted from 1 March (which is
0) of the day numbered `z`. -/
def dayOfYear (z : Nat) : Nat :=
  let doe := z % 146097
  let yoe := yearOfEra z
  doe - (365 * yoe + yoe / 4 - yoe / 100)

/-- Modelled from the spec: the month, from 1 to 12, of the day numbered `z`. -/
def monthOf (z : Nat) : Nat :=
  let mp := (5 * dayOfYear z + 2) / 153
  if mp < 10 then mp + 3 else mp - 9

/-- Modelled from the spec: the day of the month, from 1, of the day numbered
`z`; its upper bound follows the length of the month and the leap years. -/
def dayOf (z : Nat) : Nat :=
  let mp := (5 * dayOfYear z + 2) / 153
  dayOfYear z - (153 * mp + 2) / 5 + 1

/-- Modelled from the spec: the year of the day numbered `z`. -/
def yearOf (z : Nat) : Nat :=
  yearOfEra z + z / 146097 * 400 + (if monthOf z ≤ 2 then 1 else 0)

/-- Modelled from the spec: the instant of a date and time of day in UTC, with
which the tests name their instants (`time.Date` of the host). -/
def date (y m d hh mm ss ns : Nat) : Instant :=
  let y' := if m ≤ 2 then y - 1 else y
  let yoe := y' % 400
  let mp := if m > 2 then m - 3 else m + 9
  let doy := (153 * mp + 2) / 5 + d - 1
  let doe := yoe * 365 + yoe / 4 - yoe / 100 + doy
  let days := y' / 400 * 146097 + doe
  ((days * 24 + hh) * 60 + mm) * minuteNs + ss * 1000000000 + ns

/-- Modelled from the spec: whether a mask permits a value of its domain, bit
position `offset domain value` counted from 1 at the low bit. -/
def allows (mask : Nat) (fieldSpec : FieldSpec) (value : Nat) : Bool :=
  mask &&& bit (offset fieldSpec value) != 0

/-- Modelled from the spec: whether a day field is restricted, which is that
its text was not `*`, the text of the pattern `Every`. -/
def restricted (text : String) : Bool := !Pattern.Every.MatchString text

/-- Modelled from the spec: the schedule as the rule of the two day fields
needs it. `Parse` keeps the five masks alone, and the rule asks of each day
field whether its text was `*`, which a mask does not tell (`1-31` has the mask
of `*`); so the schedule holds the masks and the two answers. -/
structure Schedule where
  /-- the five masks that `Parse` returns -/
  cron : BitCron
  /-- whether the text of the day of the month was not `*` -/
  domRestricted : Bool
  /-- whether the text of the day of the week was not `*` -/
  dowRestricted : Bool
  deriving DecidableEq, Repr

/-- Modelled from the spec: the schedule of five masks and the texts of the two
day fields they were compiled from. -/
def schedule (cron : BitCron) (dom dow : String) : Schedule :=
  ⟨cron, restricted dom, restricted dow⟩

/-- Modelled from the spec: the rule of the day of the month and the day of the
week. With neither restricted every day matches, with one restricted that one
decides, with both restricted either suffices. -/
def dayMatches (s : Schedule) (z : Nat) : Bool :=
  match s.domRestricted, s.dowRestricted with
  | false, false => true
  | true, false => allows s.cron.dom spec.dom (dayOf z)
  | false, true => allows s.cron.dow spec.dow (weekdayOf z)
  | true, true => allows s.cron.dom spec.dom (dayOf z) || allows s.cron.dow spec.dow (weekdayOf z)

/-- Modelled from the spec: whether the minute numbered `k` since the epoch
satisfies the schedule: minute, hour and month in their masks, and the day by
the rule of `dayMatches`. -/
def matchesMinute (s : Schedule) (k : Nat) : Bool :=
  allows s.cron.minute spec.minute (minuteOf k) && allows s.cron.hour spec.hour (hourOf k) &&
  allows s.cron.month spec.month (monthOf (daysOf k)) && dayMatches s (daysOf k)

/-- Modelled from the spec: whether an instant satisfies the schedule; seconds
and below play no part. -/
def matchesInstant (s : Schedule) (t : Instant) : Bool := matchesMinute s (t / minuteNs)

/-- Modelled from the spec: the horizon of the search, four years of 366 days,
in minutes (the spec leaves the figure open and suggests four years). -/
def horizon : Nat := 4 * 366 * 1440

/-- Modelled from the spec: the forward search of `Next`, minute by minute from
the minute numbered `k`, for at most `n` minutes. -/
def nextLoop (s : Schedule) : Nat → Nat → Option Nat
  | 0, _ => none
  | n + 1, k => if matchesMinute s k then some k else nextLoop s n (k + 1)

/-- Modelled from the spec: the method `Next` of the schedule, which is not
among the sources (only its test is, which takes the result as a time). It
returns the start of the first minute, from that of the reference on, that
satisfies the schedule, and `none`, the error of an exhausted search of the
spec, when there is none within the horizon. -/
def Next (s : Schedule) (reference : Instant) : Option Instant :=
  (nextLoop s horizon (reference / minuteNs)).map fun k => k * minuteNs

/-! ## Theorems -/

/-! ### Characters and texts -/

theorem isDigit_ne {c d : Char} (h : isDigit c = true) (hd : isDigit d = false) : c ≠ d := by
  rintro rfl; simp [h] at hd

theorem isAlpha_ne {c d : Char} (h : isAlpha c = true) (hd : isAlpha d = false) : c ≠ d := by
  rintro rfl; simp [h] at hd

theorem isAlpha_not_isDigit {c : Char} (h : isAlpha c = true) : isDigit c = false := by
  simp only [isAlpha, isDigit, Bool.or_eq_true, Bool.and_eq_true, decide_eq_true_eq] at h
  simp only [isDigit, Bool.and_eq_false_iff, decide_eq_false_iff_not]
  omega

theorem isDigit_val {c : Char} (h : isDigit c = true) : c.toNat - 48 ≤ 9 := by
  simp only [isDigit, Bool.and_eq_true, decide_eq_true_eq] at h
  omega

/-- A text of one or two digits parses without error to a number below 100. -/
theorem ParseUint_digits12 {l : List Char} (h : digits12 l) :
    ParseUint (String.mk l) = (num l, none) ∧ num l < 100 := by
  rcases h with ⟨x, rfl, hx⟩ | ⟨x, y, rfl, hx, hy⟩
  · have := isDigit_val hx
    have h2 : ¬ (255 < x.toNat - 48) := by omega
    simp [num, ParseUint, parseUintLoop, hx, h2]
    omega
  · have := isDigit_val hx
    have := isDigit_val hy
    have h2 : ¬ (255 < x.toNat - 48) := by omega
    have h3 : ¬ (255 < (x.toNat - 48) * 10 + (y.toNat - 48)) := by omega
    have h4 : ¬ (1844674407370955162 ≤ x.toNat - 48) := by omega
    simp [num, ParseUint, parseUintLoop, hx, hy, h2, h3, h4]
    omega

/-- The decimal text of a number below 100 is one or two digits that parse back to it. -/
theorem toString_digits12 (v : Nat) (h : v < 100) :
    digits12 (toString v).data ∧ num (toString v).data = v := by
  interval_cases v <;> exact ⟨by first | exact Or.inl ⟨_, rfl, rfl⟩ | exact Or.inr ⟨_, _, rfl, rfl, rfl⟩, rfl⟩

theorem num_lt_256 {l : List Char} (h : digits12 l) : num l % 256 = num l :=
  Nat.mod_eq_of_lt (by have := (ParseUint_digits12 h).2; omega)

/-- Dispatch of a one- or two-digit text. -/
theorem parseField_digits {a : List Char} (ha : digits12 a) (fs : FieldSpec) :
    parseField (String.mk a) fs = .ok (parseSingleOrDoubleDigit (String.mk a) fs) := by
  have h1 : isDigit '*' = false := by decide
  rcases ha with ⟨x, rfl, hx⟩ | ⟨x, y, rfl, hx, hy⟩ <;>
    simp [parseField, Re.MatchString, Pattern.Every, every, Pattern.SingleOrDoubleDigit,
      singleOrDoubleDigit, Re.rep12, Re.run, *, isDigit_ne hx h1]

/-- What `parseSingleOrDoubleDigit` returns on a one- or two-digit text. -/
theorem parseSingleOrDoubleDigit_digits {a : List Char} (ha : digits12 a) (fs : FieldSpec) :
    parseSingleOrDoubleDigit (String.mk a) fs =
      if fs.InRange (num a) then (field (offset fs (num a)), none)
      else (0, some (.notInRange (num a) fs.Min fs.Max)) := by
  simp only [parseSingleOrDoubleDigit, (ParseUint_digits12 ha).1, num_lt_256 ha]
  cases fs.InRange (num a) <;> simp

theorem range_sub {a b : List Char} (ha : digits12 a) (hb : digits12 b) :
    Pattern.Range.FindStringSubmatch (String.mk (a ++ '-' :: b)) =
      some [String.mk (a ++ '-' :: b), String.mk a, String.mk b] := by
  have h1 : isDigit '-' = false := by decide
  rcases ha with ⟨x, rfl, hx⟩ | ⟨x, y, rfl, hx, hy⟩ <;>
  rcases hb with ⟨u, rfl, hu⟩ | ⟨u, v, rfl, hu, hv⟩ <;>
    simp [Re.FindStringSubmatch, Pattern.Range, numberRange, singleOrDoubleDigit, Re.rep12,
      Re.run, *, isDigit_ne hx h1]

/-- Dispatch of a range text. -/
theorem parseField_range {a b : List Char} (ha : digits12 a) (hb : digits12 b) (fs : FieldSpec) :
    parseField (String.mk (a ++ '-' :: b)) fs = parseRange (String.mk (a ++ '-' :: b)) fs := by
  have h1 : isDigit '*' = false := by decide
  have h2 : isDigit '-' = false := by decide
  rcases ha with ⟨x, rfl, hx⟩ | ⟨x, y, rfl, hx, hy⟩ <;>
  rcases hb with ⟨u, rfl, hu⟩ | ⟨u, v, rfl, hu, hv⟩ <;>
    simp [parseField, Re.MatchString, Pattern.Every, every, Pattern.SingleOrDoubleDigit,
      Pattern.EveryStep, step, Pattern.Range, numberRange,
      singleOrDoubleDigit, Re.rep12, Re.run, *, isDigit_ne hx h1, isDigit_ne hx h2]

/-- What `parseRange` returns on a range text. -/
theorem parseRange_digits {a b : List Char} (ha : digits12 a) (hb : digits12 b) (fs : FieldSpec) :
    parseRange (String.mk (a ++ '-' :: b)) fs = .ok (
      if !fs.InRange (num a) then (0, some (.notInRange (num a) fs.Min fs.Max))
      else if !fs.InRange (num b) then (0, some (.notInRange (num b) fs.Min fs.Max))
      else (rangeField (offset fs (num a)) (offset fs (num b)), none)) := by
  simp only [parseRange, range_sub ha hb, index, List.get?, bind, Except.bind, pure, Except.pure,
    (ParseUint_digits12 ha).1, (ParseUint_digits12 hb).1, num_lt_256 ha, num_lt_256 hb]
  cases fs.InRange (num a) <;> cases fs.InRange (num b) <;> rfl

/-- The shapes of a text of one or two digits, with what tells its characters
from the punctuation of the patterns. -/
theorem digits12_cases {a : List Char} (h : digits12 a) :
    (∃ x, a = [x] ∧ isDigit x = true ∧ x ≠ '*' ∧ x ≠ '-' ∧ x ≠ '/' ∧ x ≠ ',') ∨
    (∃ x y, a = [x, y] ∧ (isDigit x = true ∧ x ≠ '*' ∧ x ≠ '-' ∧ x ≠ '/' ∧ x ≠ ',') ∧
      (isDigit y = true ∧ y ≠ '*' ∧ y ≠ '-' ∧ y ≠ '/' ∧ y ≠ ',')) := by
  have h1 : isDigit '*' = false := by decide
  have h2 : isDigit '-' = false := by decide
  have h3 : isDigit '/' = false := by decide
  have h4 : isDigit ',' = false := by decide
  rcases h with ⟨x, rfl, hx⟩ | ⟨x, y, rfl, hx, hy⟩
  · exact Or.inl ⟨x, rfl, hx, isDigit_ne hx h1, isDigit_ne hx h2, isDigit_ne hx h3,
      isDigit_ne hx h4⟩
  · exact Or.inr ⟨x, y, rfl, ⟨hx, isDigit_ne hx h1, isDigit_ne hx h2, isDigit_ne hx h3,
      isDigit_ne hx h4⟩, ⟨hy, isDigit_ne hy h1, isDigit_ne hy h2, isDigit_ne hy h3,
      isDigit_ne hy h4⟩⟩

/-- Dispatch of the wildcard. -/
theorem parseField_every (fs : FieldSpec) : parseField "*" fs = .ok (parseEvery fs) := by
  simp [parseField, Re.MatchString, Pattern.Every, every, Re.run]

theorem everyStep_sub {c : List Char} (hc : digits12 c) :
    Pattern.EveryStep.FindStringSubmatch (String.mk ('*' :: '/' :: c)) =
      some [String.mk ('*' :: '/' :: c), String.mk c] := by
  rcases hc with ⟨x, rfl, hx⟩ | ⟨x, y, rfl, hx, hy⟩ <;>
    simp [Re.FindStringSubmatch, Pattern.EveryStep, every, step, singleOrDoubleDigit, Re.rep12,
      Re.run, *]

/-- Dispatch of a stepped wildcard. -/
theorem parseField_everyStep {c : List Char} (hc : digits12 c) (fs : FieldSpec) :
    parseField (String.mk ('*' :: '/' :: c)) fs = parseEveryStep (String.mk ('*' :: '/' :: c)) fs := by
  have h1 : isDigit '*' = false := by decide
  rcases hc with ⟨x, rfl, hx⟩ | ⟨x, y, rfl, hx, hy⟩ <;>
    simp [parseField, Re.MatchString, Pattern.Every, every, Pattern.SingleOrDoubleDigit,
      Pattern.EveryStep, step, singleOrDoubleDigit, Re.rep12, Re.run, *]

/-- What `parseEveryStep` returns on a stepped wildcard. -/
theorem parseEveryStep_digits {c : List Char} (hc : digits12 c) (fs : FieldSpec) :
    parseEveryStep (String.mk ('*' :: '/' :: c)) fs =
      (stepField (offset fs fs.Min) (offset fs fs.Max) (num c)).map fun mask => (mask, none) := by
  simp only [parseEveryStep, everyStep_sub hc, index, List.get?, bind, Except.bind, pure,
    Except.pure, (ParseUint_digits12 hc).1, num_lt_256 hc]
  cases stepField (offset fs fs.Min) (offset fs fs.Max) (num c) <;> rfl

theorem rangeStep_sub {a b c : List Char} (ha : digits12 a) (hb : digits12 b) (hc : digits12 c) :
    Pattern.RangeStep.FindStringSubmatch (String.mk (a ++ '-' :: (b ++ '/' :: c))) =
      some [String.mk (a ++ '-' :: (b ++ '/' :: c)), String.mk a, String.mk b, String.mk c] := by
  have h1 : isDigit '-' = false := by decide
  have h2 : isDigit '/' = false := by decide
  rcases digits12_cases ha with ⟨x, rfl, hx, -⟩ | ⟨x, y, rfl, ⟨hx, -⟩, hy, -⟩ <;>
  rcases digits12_cases hb with ⟨u, rfl, hu, -⟩ | ⟨u, v, rfl, ⟨hu, -⟩, hv, -⟩ <;>
  rcases digits12_cases hc with ⟨p, rfl, hp, -⟩ | ⟨p, q, rfl, ⟨hp, -⟩, hq, -⟩ <;>
    simp [Re.FindStringSubmatch, Pattern.RangeStep, numberRange, step, singleOrDoubleDigit,
      Re.rep12, Re.run, *]

/-- Dispatch of a stepped range. -/
theorem parseField_rangeStep {a b c : List Char} (ha : digits12 a) (hb : digits12 b)
    (hc : digits12 c) (fs : FieldSpec) :
    parseField (String.mk (a ++ '-' :: (b ++ '/' :: c))) fs =
      parseRangeStep (String.mk (a ++ '-' :: (b ++ '/' :: c))) fs := by
  have h1 : isDigit '*' = false := by decide
  have h2 : isDigit '-' = false := by decide
  have h3 : isDigit '/' = false := by decide
  rcases digits12_cases ha with ⟨x, rfl, hx, hx1, hx2, hx3, -⟩ |
    ⟨x, y, rfl, ⟨hx, hx1, hx2, hx3, -⟩, hy, hy1, hy2, hy3, -⟩ <;>
  rcases digits12_cases hb with ⟨u, rfl, hu, hu1, hu2, hu3, -⟩ |
    ⟨u, v, rfl, ⟨hu, hu1, hu2, hu3, -⟩, hv, hv1, hv2, hv3, -⟩ <;>
  rcases digits12_cases hc with ⟨p, rfl, hp, -⟩ | ⟨p, q, rfl, ⟨hp, -⟩, hq, -⟩ <;>
    simp [parseField, Re.MatchString, Pattern.Every, every, Pattern.SingleOrDoubleDigit,
      Pattern.EveryStep, step, Pattern.Range, Pattern.RangeStep, numberRange,
      singleOrDoubleDigit, Re.rep12, Re.run, *]

/-- What `parseRangeStep` returns on a stepped range. -/
theorem parseRangeStep_digits {a b c : List Char} (ha : digits12 a) (hb : digits12 b)
    (hc : digits12 c) (fs : FieldSpec) :
    parseRangeStep (String.mk (a ++ '-' :: (b ++ '/' :: c))) fs =
      if !fs.InRange (num a) then .ok (0, some (.notInRange (num a) fs.Min fs.Max))
      else if !fs.InRange (num b) then .ok (0, some (.notInRange (num b) fs.Min fs.Max))
      else (stepField (offset fs (num a)) (offset fs (num b)) (num c)).map
        fun mask => (mask, none) := by
  simp only [parseRangeStep, rangeStep_sub ha hb hc, index, List.get?, bind, Except.bind, pure,
    Except.pure, (ParseUint_digits12 ha).1, (ParseUint_digits12 hb).1, (ParseUint_digits12 hc).1,
    num_lt_256 ha, num_lt_256 hb, num_lt_256 hc]
  cases fs.InRange (num a) <;> cases fs.InRange (num b) <;>
    cases stepField (offset fs (num a)) (offset fs (num b)) (num c) <;> rfl

/-- Dispatch of a text of three letters. -/
theorem parseField_alias {x y z : Char} (hx : isAlpha x = true) (hy : isAlpha y = true)
    (hz : isAlpha z = true) (fs : FieldSpec) :
    parseField (String.mk [x, y, z]) fs = .ok (parseAlias (String.mk [x, y, z]) fs) := by
  have h1 : isAlpha '*' = false := by decide
  simp [parseField, Re.MatchString, Pattern.Every, every, Pattern.SingleOrDoubleDigit,
    Pattern.EveryStep, step, Pattern.Range, Pattern.RangeStep, numberRange, Pattern.Alias, alias',
    singleOrDoubleDigit, Re.rep12, Re.run, *, isAlpha_ne hx h1, isAlpha_not_isDigit hx]

/-! ### Bit fields -/

theorem bit_eq {p : Nat} (h1 : 1 ≤ p) (h2 : p ≤ 64) : bit p = 2 ^ (p - 1) := by
  have h : (p + 255) % 256 = p - 1 := by omega
  rw [bit, h, Nat.shiftLeft_eq, one_mul]
  exact Nat.mod_eq_of_lt (Nat.pow_lt_pow_right (by norm_num) (by omega))

theorem bits_eq {p : Nat} (h : p ≤ 64) : bits p = 2 ^ p - 1 := by
  interval_cases p <;> rfl

theorem testBit_bit {p : Nat} (h1 : 1 ≤ p) (h2 : p ≤ 64) (j : Nat) :
    (bit p).testBit j = decide (j + 1 = p) := by
  rw [bit_eq h1 h2, Nat.testBit_two_pow]
  by_cases h : p - 1 = j
  · simp [h]; omega
  · simp [h]; omega

theorem testBit_bits {p : Nat} (h : p ≤ 64) (j : Nat) :
    (bits p).testBit j = decide (j + 1 ≤ p) := by
  rw [bits_eq h, Nat.testBit_two_pow_sub_one]
  by_cases h : j < p <;> simp [h] <;> omega

/-- The bits of `rangeField` between two positions in order. -/
theorem testBit_rangeField {p q : Nat} (h1 : 1 ≤ p) (h2 : p ≤ q) (h3 : q ≤ 64) (j : Nat) :
    (rangeField p q).testBit j = decide (p ≤ j + 1 ∧ j + 1 ≤ q) := by
  unfold rangeField
  split
  · next h =>
    subst h
    rw [field, testBit_bit h1 h3]
    by_cases h : j + 1 = p
    · simp [h]
    · simp [h]; omega
  · have h : (p + 255) % 256 = p - 1 := by omega
    rw [h, Nat.testBit_xor, testBit_bits h3, testBit_bits (by omega)]
    by_cases ha : j + 1 ≤ q <;> by_cases hb : j + 1 ≤ p - 1 <;> simp [ha, hb] <;> omega

/-- The loop of `stepField` ends when the step is positive and the counter
cannot wrap: the bits it adds are those of the positions `i, i + step, ...` up
to `to'`. -/
theorem stepLoop_ok (to' step : Nat) (hs : 1 ≤ step) (ht : to' + step < 256) :
    ∀ (n i value : Nat), 1 ≤ i → 1 ≤ n → to' + 2 ≤ n + i → to' ≤ 64 →
      ∃ mask, stepLoop to' step n i value = .ok mask ∧
        ∀ j, mask.testBit j =
          (value.testBit j || decide (i ≤ j + 1 ∧ j + 1 ≤ to' ∧ step ∣ j + 1 - i)) := by
  intro n
  induction n with
  | zero =>
    intro i value hi h0 hn h64
    omega
  | succ n ih =>
    intro i value hi _ hn h64
    unfold stepLoop
    by_cases hle : i ≤ to'
    · rw [if_pos hle]
      have hm : (i + step) % 256 = i + step := Nat.mod_eq_of_lt (by omega)
      rw [hm]
      obtain ⟨mask, hmask, hbits⟩ := ih (i + step) (value ||| bit i) (by omega) (by omega) (by omega) h64
      refine ⟨mask, hmask, fun j => ?_⟩
      rw [hbits j, Nat.testBit_or, testBit_bit hi (by omega)]
      by_cases hj : j + 1 = i
      · have : step ∣ j + 1 - i := by rw [hj, Nat.sub_self]; exact dvd_zero _
        simp [hj, this, hle]
      · by_cases hlt : i + step ≤ j + 1
        · have e : j + 1 - i = (j + 1 - (i + step)) + step := by omega
          have : (step ∣ j + 1 - i) ↔ (step ∣ j + 1 - (i + step)) := by
            rw [e]; exact Nat.dvd_add_self_right
          have h5 : i ≤ j + 1 := by omega
          simp [hj, hlt, this, h5]
        · have h6 : ¬ (i ≤ j + 1 ∧ j + 1 ≤ to' ∧ step ∣ j + 1 - i) := by
            rintro ⟨h7, -, h8⟩
            have h9 : 0 < j + 1 - i := by omega
            have := Nat.le_of_dvd h9 h8
            omega
          simp [hj, hlt, h6]
    · rw [if_neg hle]
      refine ⟨value, rfl, fun j => ?_⟩
      have h6 : ¬ (i ≤ j + 1 ∧ j + 1 ≤ to' ∧ step ∣ j + 1 - i) := by omega
      simp [h6]

/-- The loop of `stepField` adds nothing when the counter starts above `to'`. -/
theorem stepField_reversed {p q step : Nat} (h : q < p) : stepField p q step = .ok 0 := by
  unfold stepField
  rw [show (256 : Nat) = 255 + 1 from rfl, stepLoop, if_neg (by omega)]

theorem stepField_ok {p q step : Nat} (hs : 1 ≤ step) (hs2 : step < 100) (h1 : 1 ≤ p) (h3 : q ≤ 64) :
    ∃ mask, stepField p q step = .ok mask ∧
      ∀ j, mask.testBit j = decide (p ≤ j + 1 ∧ j + 1 ≤ q ∧ step ∣ j + 1 - p) := by
  obtain ⟨mask, h, hb⟩ := stepLoop_ok q step hs (by omega) 256 p 0 h1 (by omega) (by omega) h3
  exact ⟨mask, h, fun j => by simpa using hb j⟩

/-! ### The five domains -/

theorem offset_spec {fs : FieldSpec} (h : fs ∈ spec.toList) {v : Nat} (h1 : fs.Min ≤ v)
    (h2 : v ≤ fs.Max) :
    1 ≤ offset fs v ∧ offset fs v ≤ 60 ∧ v < 100 ∧ fs.InRange v = true ∧
      (¬ (fs = spec.dow ∧ v = 7) → offset fs v = v - fs.Min + 1) ∧
      (fs = spec.dow → v = 7 → offset fs v = 7) := by
  simp only [fields.toList, List.mem_cons, List.mem_singleton, List.not_mem_nil, or_false] at h
  rcases h with rfl | rfl | rfl | rfl | rfl
  all_goals simp [offset, spec, FieldSpec.InRange] at h1 h2 ⊢
  all_goals first | omega | (split_ifs <;> omega)

theorem offset_mono {fs : FieldSpec} (h : fs ∈ spec.toList) {a b : Nat} (h1 : fs.Min ≤ a)
    (h2 : a ≤ b) (h3 : b ≤ fs.Max) : offset fs a ≤ offset fs b := by
  simp only [fields.toList, List.mem_cons, List.mem_singleton, List.not_mem_nil, or_false] at h
  rcases h with rfl | rfl | rfl | rfl | rfl
  all_goals simp [offset, spec] at h1 h3 ⊢
  all_goals first | omega | (split_ifs <;> omega)

theorem range_text (s t : String) : s ++ "-" ++ t = String.mk (s.data ++ '-' :: t.data) := by
  apply String.ext; simp

theorem rangeStep_text (s t u : String) :
    s ++ "-" ++ t ++ "/" ++ u = String.mk (s.data ++ '-' :: (t.data ++ '/' :: u.data)) := by
  apply String.ext; simp

theorem everyStep_text (u : String) : "*/" ++ u = String.mk ('*' :: '/' :: u.data) := rfl

/-! ### Parse -/

theorem Parse_eq_parseBody (fuel : Nat) (e : String) :
    ∃ parse, Parse fuel e = parseBody parse e := by
  cases fuel with
  | zero => exact ⟨_, rfl⟩
  | succ k => exact ⟨_, rfl⟩

/-- What `Parse` returns on five fields whose calls of `parseField` return. -/
theorem Parse_five {e f0 f1 f2 f3 f4 : String} (h : Fields e = [f0, f1, f2, f3, f4])
    {r0 r1 r2 r3 r4 : Res} (h0 : parseField f0 spec.minute = .ok r0)
    (h1 : parseField f1 spec.hour = .ok r1) (h2 : parseField f2 spec.dom = .ok r2)
    (h3 : parseField f3 spec.month = .ok r3) (h4 : parseField f4 spec.dow = .ok r4)
    (fuel : Nat) :
    Parse fuel e =
      .ok (if r4.2.isSome then (none, r4.2) else (some ⟨r0.1, r1.1, r2.1, r3.1, r4.1⟩, none)) := by
  obtain ⟨parse, hp⟩ := Parse_eq_parseBody fuel e
  rw [hp]
  simp only [parseBody, h, h0, h1, h2, h3, h4, bind, Except.bind, pure, Except.pure]
  cases r4.2 <;> simp

/-- C1 (as the code has it): for every five-field expression whose fields each
return from `parseField` in their own domain: if each of the five compiles,
`Parse` succeeds with the schedule of the five masks; if the day-of-week field
fails, `Parse` returns no schedule; and whenever `Parse` fails, one or more
fields failed and the error returned is that of the last failing field in field
order. -/
theorem Parse_five_fields (fuel : Nat) (e f0 f1 f2 f3 f4 : String)
    (h : Fields e = [f0, f1, f2, f3, f4]) (r0 r1 r2 r3 r4 : Res)
    (h0 : parseField f0 spec.minute = .ok r0) (h1 : parseField f1 spec.hour = .ok r1)
    (h2 : parseField f2 spec.dom = .ok r2) (h3 : parseField f3 spec.month = .ok r3)
    (h4 : parseField f4 spec.dow = .ok r4) :
    (r0.2 = none ∧ r1.2 = none ∧ r2.2 = none ∧ r3.2 = none ∧ r4.2 = none →
      Parse fuel e = .ok (some ⟨r0.1, r1.1, r2.1, r3.1, r4.1⟩, none)) ∧
    (∀ err, r4.2 = some err → Parse fuel e = .ok (none, some err)) ∧
    (∀ sched err, Parse fuel e = .ok (sched, some err) →
      sched = none ∧ lastError r0 r1 r2 r3 r4 = some err) := by
  have hp := Parse_five h h0 h1 h2 h3 h4 fuel
  refine ⟨fun hc => ?_, fun err he => ?_, fun sched err hs => ?_⟩
  · rw [hp, hc.2.2.2.2]; rfl
  · rw [hp, he]; rfl
  · rw [hp] at hs
    cases h5 : r4.2 with
    | none => simp [h5] at hs
    | some x =>
      simp [h5] at hs
      simp [lastError, h5, hs.1, hs.2]

/-- Witness of C1 on `1 2 3 4 9`, whose last field is out of range. -/
theorem Parse_five_fields_witness :
    Parse 0 "1 2 3 4 9" = .ok (none, some (.notInRange 9 0 7)) :=
  (Parse_five_fields 0 "1 2 3 4 9" "1" "2" "3" "4" "9" (by decide)
    (2, none) (4, none) (4, none) (8, none) (0, some (.notInRange 9 0 7))
    (by decide) (by decide) (by decide) (by decide) (by decide)).2.1 _ rfl

/-- C1 as the spec states it fails: with two failing fields `Parse` returns the
error of the last, not of the first; and with a failing first field alone,
`60 * * * *`, it returns a schedule and no error. -/
theorem Parse_first_error_counterexample :
    parseField "60" spec.minute = .ok (0, some (.notInRange 60 0 59)) ∧
    Parse 0 "60 * * * 8" = .ok (none, some (.notInRange 8 0 7)) ∧
    Parse 0 "60 * * * *" = .ok (some ⟨0, 16777215, 2147483647, 4095, 127⟩, none) := by
  decide

/-! ### Single values, ranges and steps -/

/-- C2 (the code at the failing input): in the day of week the value 7 is left
as it is by `offset`, so the field `7` compiles to bit position 7, the mask of
`6` (Saturday), and not to position 1, the mask of `0` (Sunday). -/
theorem sunday_as_seven_divergence :
    offset spec.dow 7 = 7 ∧ offset spec.dow 0 = 1 ∧ offset spec.dow 6 = 7 ∧
    parseField "7" spec.dow = .ok (64, none) ∧ parseField "0" spec.dow = .ok (1, none) ∧
    parseField "6" spec.dow = .ok (64, none) := by
  decide

/-- C3: for each of the five domains and every value `v` of the domain,
`parseSingleOrDoubleDigit` on the decimal text of `v` succeeds with a mask whose
only set bit is at position `offset fs v`, counted from 1 at the low bit; but
for 7 in the day of week that position is `v - Min + 1`, so that position 1 is
minute 0, hour 0, day 1, January, Sunday and position 3 is minute 2, hour 2,
day 3, March, Tuesday. -/
theorem parseSingleOrDoubleDigit_in_domain (fs : FieldSpec) (hfs : fs ∈ spec.toList) (v : Nat)
    (hmin : fs.Min ≤ v) (hmax : v ≤ fs.Max) :
    (∃ mask, parseSingleOrDoubleDigit (toString v) fs = (mask, none) ∧
      ∀ j, mask.testBit j = true ↔ j + 1 = offset fs v) ∧
    (¬ (fs = spec.dow ∧ v = 7) → offset fs v = v - fs.Min + 1) ∧
    (offset spec.minute 0 = 1 ∧ offset spec.hour 0 = 1 ∧ offset spec.dom 1 = 1 ∧
      offset spec.month 1 = 1 ∧ offset spec.dow 0 = 1) ∧
    (offset spec.minute 2 = 3 ∧ offset spec.hour 2 = 3 ∧ offset spec.dom 3 = 3 ∧
      offset spec.month 3 = 3 ∧ offset spec.dow 2 = 3) := by
  obtain ⟨o1, o2, hv, hin, hoff, -⟩ := offset_spec hfs hmin hmax
  obtain ⟨hd, hn⟩ := toString_digits12 v hv
  refine ⟨⟨field (offset fs v), ?_, fun j => ?_⟩, hoff, by decide, by decide⟩
  · have := parseSingleOrDoubleDigit_digits hd fs
    rw [hn, hin] at this
    exact this
  · rw [field, testBit_bit o1 (by omega)]
    simp

/-- Witness of C3 at minute 59. -/
theorem parseSingleOrDoubleDigit_in_domain_witness :
    ∃ mask, parseSingleOrDoubleDigit (toString 59) spec.minute = (mask, none) ∧
      ∀ j, mask.testBit j = true ↔ j + 1 = offset spec.minute 59 :=
  (parseSingleOrDoubleDigit_in_domain spec.minute (by decide) 59 (by decide) (by decide)).1

/-- C4: for each of the five domains and all values `a ≤ b` of the domain,
`parseRange` on the text `a-b` (to which `parseField` sends that text) returns
the mask whose set bits are the positions from `offset fs a` to `offset fs b`;
for `a = b` it is the mask of the single value `a`; and the wildcard compiles to
the mask of the range from `Min` to `Max`, which is `bits (offset fs Max)`. -/
theorem parseRange_in_order (fs : FieldSpec) (hfs : fs ∈ spec.toList) (a b : Nat)
    (hmin : fs.Min ≤ a) (hab : a ≤ b) (hmax : b ≤ fs.Max) :
    (∃ mask, parseRange (toString a ++ "-" ++ toString b) fs = .ok (mask, none) ∧
      parseField (toString a ++ "-" ++ toString b) fs = .ok (mask, none) ∧
      (∀ j, mask.testBit j = true ↔ offset fs a ≤ j + 1 ∧ j + 1 ≤ offset fs b) ∧
      (a = b → parseSingleOrDoubleDigit (toString a) fs = (mask, none))) ∧
    parseField "*" fs = .ok (parseEvery fs) ∧
    parseRange (toString fs.Min ++ "-" ++ toString fs.Max) fs = .ok (parseEvery fs) ∧
    parseEvery fs = (bits (offset fs fs.Max), none) := by
  obtain ⟨a1, a2, hva, hina, -, -⟩ := offset_spec hfs hmin (hab.trans hmax)
  obtain ⟨b1, b2, hvb, hinb, -, -⟩ := offset_spec hfs (hmin.trans hab) hmax
  obtain ⟨hda, hna⟩ := toString_digits12 a hva
  obtain ⟨hdb, hnb⟩ := toString_digits12 b hvb
  have hmono := offset_mono hfs hmin hab hmax
  have hr : parseRange (toString a ++ "-" ++ toString b) fs =
      .ok (rangeField (offset fs a) (offset fs b), none) := by
    rw [range_text, parseRange_digits hda hdb, hna, hnb, hina, hinb]; rfl
  refine ⟨⟨_, hr, ?_, fun j => ?_, ?_⟩, parseField_every fs, ?_, ?_⟩
  · rw [range_text, parseField_range hda hdb, ← range_text, hr]
  · rw [testBit_rangeField a1 hmono (by omega)]
    simp
  · rintro rfl
    have := parseSingleOrDoubleDigit_digits hda fs
    rw [hna, hina] at this
    rw [rangeField, if_pos rfl]
    exact this
  · simp only [fields.toList, List.mem_cons, List.mem_singleton, List.not_mem_nil,
      or_false] at hfs
    rcases hfs with rfl | rfl | rfl | rfl | rfl <;> decide
  · simp only [fields.toList, List.mem_cons, List.mem_singleton, List.not_mem_nil,
      or_false] at hfs
    rcases hfs with rfl | rfl | rfl | rfl | rfl <;> decide

/-- Witness of C4 on the hours from 9 to 17. -/
theorem parseRange_in_order_witness :
    ∃ mask, parseRange (toString 9 ++ "-" ++ toString 17) spec.hour = .ok (mask, none) ∧
      parseField (toString 9 ++ "-" ++ toString 17) spec.hour = .ok (mask, none) ∧
      (∀ j, mask.testBit j = true ↔ offset spec.hour 9 ≤ j + 1 ∧ j + 1 ≤ offset spec.hour 17) ∧
      (9 = 17 → parseSingleOrDoubleDigit (toString 9) spec.hour = (mask, none)) :=
  (parseRange_in_order spec.hour (by decide) 9 17 (by decide) (by decide) (by decide)).1

theorem dvd_sub_iff_exists {p step m : Nat} :
    (p ≤ m ∧ step ∣ m - p) ↔ ∃ k, m = p + k * step := by
  constructor
  · rintro ⟨h, k, hk⟩
    exact ⟨k, by rw [Nat.mul_comm k step, ← hk]; omega⟩
  · rintro ⟨k, rfl⟩
    exact ⟨Nat.le_add_right _ _, by simp⟩

/-- The mask of a stride between two values of a domain: its bits are the
positions `offset fs a + k * step` up to `offset fs b`, and these are the
offsets of the values `a + k * step` up to `b` unless the stride climbs to 7 in
the day of week with a step of 2 or more. -/
theorem stepField_spec {fs : FieldSpec} (hfs : fs ∈ spec.toList) {a b step : Nat}
    (hmin : fs.Min ≤ a) (hab : a ≤ b) (hmax : b ≤ fs.Max) (hs1 : 1 ≤ step) (hs2 : step ≤ 99) :
    ∃ mask, stepField (offset fs a) (offset fs b) step = .ok mask ∧
      (∀ j, mask.testBit j = true ↔
        ∃ k, j + 1 = offset fs a + k * step ∧ j + 1 ≤ offset fs b) ∧
      (¬ (fs = spec.dow ∧ b = 7 ∧ a < 7 ∧ 2 ≤ step ∧ step ∣ 7 - a) →
        ∀ j, mask.testBit j = true ↔
          ∃ k, a + k * step ≤ b ∧ j + 1 = offset fs (a + k * step)) := by
  obtain ⟨a1, a2, -, -, hoa, hoa7⟩ := offset_spec hfs hmin (hab.trans hmax)
  obtain ⟨b1, b2, -, -, hob, hob7⟩ := offset_spec hfs (hmin.trans hab) hmax
  obtain ⟨mask, hm, hbits⟩ := stepField_ok (p := offset fs a) (q := offset fs b) hs1 (by omega)
    a1 (by omega)
  have hP : ∀ j, mask.testBit j = true ↔
      ∃ k, j + 1 = offset fs a + k * step ∧ j + 1 ≤ offset fs b := by
    intro j
    rw [hbits j, decide_eq_true_eq]
    constructor
    · rintro ⟨h1, h2, h3⟩
      obtain ⟨k, hk⟩ := dvd_sub_iff_exists.mp ⟨h1, h3⟩
      exact ⟨k, hk, h2⟩
    · rintro ⟨k, hk, h2⟩
      obtain ⟨h1, h3⟩ := dvd_sub_iff_exists.mpr ⟨k, hk⟩
      exact ⟨h1, h2, h3⟩
  have hdow : fs = spec.dow → fs.Max = 7 ∧ fs.Min = 0 := by
    rintro rfl
    exact ⟨rfl, rfl⟩
  refine ⟨mask, hm, hP, fun hex j => ?_⟩
  rw [hP j]
  by_cases hd : fs = spec.dow ∧ b = 7
  · obtain ⟨rfl, rfl⟩ := hd
    have hb7 := hob7 rfl rfl
    have hM := (hdow rfl).1
    have hmin0 := (hdow rfl).2
    by_cases ha7 : a = 7
    · subst ha7
      constructor
      · rintro ⟨k, hk, h2⟩
        have : k * step = 0 := by omega
        refine ⟨0, by simp, ?_⟩
        simp only [Nat.zero_mul, Nat.add_zero, hb7]
        omega
      · rintro ⟨k, hk, h2⟩
        have : k * step = 0 := by omega
        rw [this, Nat.add_zero, hb7] at h2
        exact ⟨0, by omega, by omega⟩
    · have hoa' := hoa (fun h => ha7 h.2)
      constructor
      · rintro ⟨k, hk, h2⟩
        refine ⟨k, by omega, ?_⟩
        have hv := (offset_spec hfs (v := a + k * step) (by omega) (by
          show a + k * step ≤ 7
          omega)).2.2.2.2.1 (fun h => by omega)
        omega
      · rintro ⟨k, hk, h2⟩
        by_cases hv7 : a + k * step = 7
        · have hdvd : step ∣ 7 - a := ⟨k, by rw [Nat.mul_comm]; omega⟩
          have hstep : step = 1 := by
            by_contra hne
            exact hex ⟨rfl, rfl, by omega, by omega, hdvd⟩
          subst hstep
          rw [hv7, hb7] at h2
          exact ⟨k - 1, by omega, by omega⟩
        · have hv := (offset_spec hfs (v := a + k * step) (by omega) (by
            show a + k * step ≤ 7
            omega)).2.2.2.2.1 (fun h => hv7 h.2)
          exact ⟨k, by omega, by omega⟩
  · have hoa' := hoa (fun h => hd ⟨h.1, by have := hdow h.1; omega⟩)
    have hob' := hob (fun h => hd h)
    constructor
    · rintro ⟨k, hk, h2⟩
      have hle : a + k * step ≤ b := by omega
      have hv := (offset_spec hfs (v := a + k * step) (by omega) (by omega)).2.2.2.2.1
        (fun h => hd ⟨h.1, by have := hdow h.1; omega⟩)
      exact ⟨k, hle, by omega⟩
    · rintro ⟨k, hle, hk⟩
      have hv := (offset_spec hfs (v := a + k * step) (by omega) (by omega)).2.2.2.2.1
        (fun h => hd ⟨h.1, by have := hdow h.1; omega⟩)
      exact ⟨k, by omega, by omega⟩

/-- The stride over the value 7 of the day of week: the offset of 7 is 7, the
position of 6, so `*/7` has position 1 alone and `1-7/2` has the positions 2, 4
and 6, with no bit for the 7 its stride reaches. -/
theorem stepField_sunday_as_seven :
    offset spec.dow 0 = 1 ∧ offset spec.dow 7 = 7 ∧
    parseEveryStep "*/7" spec.dow = .ok (1, none) ∧ parseField "*/7" spec.dow = .ok (1, none) ∧
    parseRangeStep "1-7/2" spec.dow = .ok (42, none) ∧ Nat.testBit 42 6 = false := by
  decide

/-- C5 (amended): for each of the five domains, all values `a ≤ b` of the domain
and every step from 1 to 99, `parseRangeStep` on the text `a-b/step`, and
`parseEveryStep` on `*/step` with `a = Min` and `b = Max`, return without error
the mask whose set bits are the offsets of the values `a`, `a + step`,
`a + 2 * step`, ... up to `b`, and no other bits, for every stride that does
not reach the value 7 of the day of week; none of the values of such a stride
is that 7. `parseField` sends both texts to these functions. -/
theorem stepped_masks (fs : FieldSpec) (hfs : fs ∈ spec.toList) (a b step : Nat)
    (hmin : fs.Min ≤ a) (hab : a ≤ b) (hmax : b ≤ fs.Max) (hs1 : 1 ≤ step) (hs2 : step ≤ 99) :
    (¬ (fs = spec.dow ∧ b = 7 ∧ step ∣ 7 - a) →
      ∃ mask,
        parseRangeStep (toString a ++ "-" ++ toString b ++ "/" ++ toString step) fs
          = .ok (mask, none) ∧
        parseField (toString a ++ "-" ++ toString b ++ "/" ++ toString step) fs
          = .ok (mask, none) ∧
        (∀ j, mask.testBit j = true ↔
          ∃ k, a + k * step ≤ b ∧ j + 1 = offset fs (a + k * step)) ∧
        ∀ k, a + k * step ≤ b → ¬ (fs = spec.dow ∧ a + k * step = 7)) ∧
    (¬ (fs = spec.dow ∧ step ∣ 7) →
      ∃ mask,
        parseEveryStep ("*/" ++ toString step) fs = .ok (mask, none) ∧
        parseField ("*/" ++ toString step) fs = .ok (mask, none) ∧
        (∀ j, mask.testBit j = true ↔
          ∃ k, fs.Min + k * step ≤ fs.Max ∧ j + 1 = offset fs (fs.Min + k * step)) ∧
        ∀ k, fs.Min + k * step ≤ fs.Max → ¬ (fs = spec.dow ∧ fs.Min + k * step = 7)) := by
  obtain ⟨-, -, hva, hina, -, -⟩ := offset_spec hfs hmin (hab.trans hmax)
  obtain ⟨-, -, hvb, hinb, -, -⟩ := offset_spec hfs (hmin.trans hab) hmax
  obtain ⟨hda, hna⟩ := toString_digits12 a hva
  obtain ⟨hdb, hnb⟩ := toString_digits12 b hvb
  obtain ⟨hds, hns⟩ := toString_digits12 step (by omega)
  have hdow : fs = spec.dow → fs.Max = 7 ∧ fs.Min = 0 := by
    rintro rfl
    exact ⟨rfl, rfl⟩
  constructor
  · intro hex
    obtain ⟨mask, hm, -, hQ⟩ := stepField_spec hfs hmin hab hmax hs1 hs2
    have hr : parseRangeStep (toString a ++ "-" ++ toString b ++ "/" ++ toString step) fs =
        .ok (mask, none) := by
      rw [rangeStep_text, parseRangeStep_digits hda hdb hds, hna, hnb, hns, hina, hinb, hm]; rfl
    refine ⟨mask, hr, ?_, hQ fun h => hex ⟨h.1, h.2.1, h.2.2.2.2⟩, fun k hk h => ?_⟩
    · rw [rangeStep_text, parseField_rangeStep hda hdb hds, ← rangeStep_text, hr]
    · have := (hdow h.1).1
      exact hex ⟨h.1, by omega, Dvd.intro_left k (by have := h.2; omega)⟩
  · intro hex
    obtain ⟨mask, hm, -, hQ⟩ := stepField_spec hfs (le_refl fs.Min) (hmin.trans (hab.trans hmax))
      (le_refl fs.Max) hs1 hs2
    have hr : parseEveryStep ("*/" ++ toString step) fs = .ok (mask, none) := by
      rw [everyStep_text, parseEveryStep_digits hds, hns, hm]; rfl
    refine ⟨mask, hr, ?_, hQ fun h => hex ⟨h.1, ?_⟩, fun k hk h => ?_⟩
    · rw [everyStep_text, parseField_everyStep hds, ← everyStep_text, hr]
    · have h7 := h.2.2.2.2
      rw [(hdow h.1).2] at h7
      exact h7
    · have h0 := (hdow h.1).2
      exact hex ⟨h.1, Dvd.intro_left k (by have := h.2; rw [h0] at this; omega)⟩

/-- Witness of C5 on the minutes from 2 to 5 in steps of 3, a case of the tests. -/
theorem stepped_masks_witness :
    ∃ mask, parseRangeStep (toString 2 ++ "-" ++ toString 5 ++ "/" ++ toString 3) spec.minute
        = .ok (mask, none) ∧
      parseField (toString 2 ++ "-" ++ toString 5 ++ "/" ++ toString 3) spec.minute
        = .ok (mask, none) ∧
      (∀ j, mask.testBit j = true ↔
        ∃ k, 2 + k * 3 ≤ 5 ∧ j + 1 = offset spec.minute (2 + k * 3)) ∧
      ∀ k, 2 + k * 3 ≤ 5 → ¬ (spec.minute = spec.dow ∧ 2 + k * 3 = 7) :=
  (stepped_masks spec.minute (by decide) 2 5 3 (by decide) (by decide) (by decide) (by decide)
    (by decide)).1 (by decide)

/-- C5 as the spec states it fails for the steps of three digits, which are
steps of 1 or more: `1-5/100` is no stepped range, `parseRangeStep` indexes the
nil slice of the match, and `parseField` finds no pattern and returns the mask
0, without the bit of the value 1. -/
theorem stepped_masks_counterexample :
    parseRangeStep "1-5/100" spec.minute = .error .indexOutOfRange ∧
    parseField "1-5/100" spec.minute = .ok (0, some (.noPattern "1-5/100")) ∧
    parseEveryStep "*/100" spec.minute = .error .indexOutOfRange ∧
    parseField "*/100" spec.minute = .ok (0, some (.noPattern "*/100")) ∧
    Nat.testBit 0 (offset spec.minute 1 - 1) = false := by
  decide

/-! ### Field count and named expressions -/

theorem ParseUint_error {s : String} {err : Error} (h : (ParseUint s).2 = some err) :
    err = .invalidSyntax s ∨ err = .valueOutOfRange s := by
  have loop : ∀ (l : List Char) (n : Nat), (parseUintLoop s l n).2 = some err →
      err = .invalidSyntax s ∨ err = .valueOutOfRange s := by
    intro l
    induction l with
    | nil => intro n h; simp [parseUintLoop] at h
    | cons c t ih =>
      intro n h
      unfold parseUintLoop at h
      split_ifs at h with h1 h2 h3
      · left; simpa using h.symm
      · right; simpa using h.symm
      · right; simpa using h.symm
      · exact ih _ h
  unfold ParseUint at h
  split_ifs at h
  · left; simpa using h.symm
  · exact loop _ _ h

theorem parseSingleOrDoubleDigit_error {v : String} {fs : FieldSpec} {m : Nat} {err : Error}
    (h : parseSingleOrDoubleDigit v fs = (m, some err)) : ∀ n, err ≠ .fieldCount n := by
  intro n
  unfold parseSingleOrDoubleDigit at h
  cases hp : (ParseUint v).2 with
  | some e =>
    rcases ParseUint_error hp with rfl | rfl <;> simp [hp] at h <;> simp [← h.2]
  | none =>
    simp only [hp] at h
    split_ifs at h <;> simp at h
    simp [← h.2]

theorem parseEveryStep_error {v : String} {fs : FieldSpec} {m : Nat} {err : Error}
    (h : parseEveryStep v fs = .ok (m, some err)) : ∀ n, err ≠ .fieldCount n := by
  intro n
  simp only [parseEveryStep, bind, Except.bind, pure, Except.pure] at h
  split at h
  · simp at h
  · next s1 _ =>
    cases hp : (ParseUint s1).2 with
    | some e =>
      rcases ParseUint_error hp with rfl | rfl <;> simp [hp] at h <;> simp [← h.2]
    | none =>
      simp only [hp] at h
      simp at h
      split at h <;> simp at h

theorem parseRange_error {v : String} {fs : FieldSpec} {m : Nat} {err : Error}
    (h : parseRange v fs = .ok (m, some err)) : ∀ n, err ≠ .fieldCount n := by
  intro n
  simp only [parseRange, bind, Except.bind, pure, Except.pure] at h
  split at h
  · simp at h
  · next s1 _ =>
    split at h
    · simp at h
    · next s2 _ =>
      cases hp : (ParseUint s2).2 with
      | some e =>
        rcases ParseUint_error hp with rfl | rfl <;> simp [hp] at h <;> simp [← h.2]
      | none =>
        simp only [hp] at h
        simp at h
        split_ifs at h <;> simp at h <;> simp [← h.2]

theorem parseRangeStep_error {v : String} {fs : FieldSpec} {m : Nat} {err : Error}
    (h : parseRangeStep v fs = .ok (m, some err)) : ∀ n, err ≠ .fieldCount n := by
  intro n
  simp only [parseRangeStep, bind, Except.bind, pure, Except.pure] at h
  split at h
  · simp at h
  · next s1 _ =>
    split at h
    · simp at h
    · next s2 _ =>
      split at h
      · simp at h
      · next s3 _ =>
        cases hp : (ParseUint s3).2 with
        | some e =>
          rcases ParseUint_error hp with rfl | rfl <;> simp [hp] at h <;> simp [← h.2]
        | none =>
          simp only [hp] at h
          simp at h
          split_ifs at h
          · simp at h; simp [← h.2]
          · simp at h; simp [← h.2]
          · split at h <;> simp at h

theorem parseListLoop_error {fs : FieldSpec} {m : Nat} {err : Error} :
    ∀ (parts : List (List Char)) (values : List Nat),
      parseListLoop fs parts values = (m, some err) → ∀ n, err ≠ .fieldCount n := by
  intro parts
  induction parts with
  | nil => intro values h; simp [parseListLoop] at h
  | cons p rest ih =>
    intro values h n
    unfold parseListLoop at h
    cases hp : (ParseUint (String.mk (TrimSpace p))).2 with
    | some e =>
      rcases ParseUint_error hp with rfl | rfl <;> simp [hp] at h <;> simp [← h.2]
    | none =>
      simp only [hp] at h
      simp at h
      split_ifs at h
      · simp at h; simp [← h.2]
      · exact ih _ h n

/-- The errors of `parseField` are never the field-count error. -/
theorem parseField_error {v : String} {fs : FieldSpec} {m : Nat} {err : Error}
    (h : parseField v fs = .ok (m, some err)) : ∀ n, err ≠ .fieldCount n := by
  intro n
  unfold parseField at h
  split_ifs at h
  · simp [parseEvery] at h
  · exact parseSingleOrDoubleDigit_error (Except.ok.inj h) n
  · exact parseEveryStep_error h n
  · exact parseRange_error h n
  · exact parseRangeStep_error h n
  · simp [parseAlias] at h
  · exact parseListLoop_error _ _ (Except.ok.inj h) n
  · simp at h; simp [← h.2]

theorem Parse_yearly (fuel : Nat) :
    Parse fuel "0 0 1 1 *" = .ok (some ⟨1, 1, 1, 1, 127⟩, none) :=
  @Parse_five "0 0 1 1 *" "0" "0" "1" "1" "*" (by decide)
    (1, none) (1, none) (1, none) (1, none) (127, none)
    (by decide) (by decide) (by decide) (by decide) (by decide) fuel

theorem Parse_monthly (fuel : Nat) :
    Parse fuel "0 0 1 * *" = .ok (some ⟨1, 1, 1, 4095, 127⟩, none) :=
  @Parse_five "0 0 1 * *" "0" "0" "1" "*" "*" (by decide)
    (1, none) (1, none) (1, none) (4095, none) (127, none)
    (by decide) (by decide) (by decide) (by decide) (by decide) fuel

theorem Parse_weekly (fuel : Nat) :
    Parse fuel "0 0 * * 0" = .ok (some ⟨1, 1, 2147483647, 4095, 1⟩, none) :=
  @Parse_five "0 0 * * 0" "0" "0" "*" "*" "0" (by decide)
    (1, none) (1, none) (2147483647, none) (4095, none) (1, none)
    (by decide) (by decide) (by decide) (by decide) (by decide) fuel

theorem Parse_daily (fuel : Nat) :
    Parse fuel "0 0 * * *" = .ok (some ⟨1, 1, 2147483647, 4095, 127⟩, none) :=
  @Parse_five "0 0 * * *" "0" "0" "*" "*" "*" (by decide)
    (1, none) (1, none) (2147483647, none) (4095, none) (127, none)
    (by decide) (by decide) (by decide) (by decide) (by decide) fuel

theorem Parse_hourly (fuel : Nat) :
    Parse fuel "0 * * * *" = .ok (some ⟨1, 16777215, 2147483647, 4095, 127⟩, none) :=
  @Parse_five "0 * * * *" "0" "*" "*" "*" "*" (by decide)
    (1, none) (16777215, none) (2147483647, none) (4095, none) (127, none)
    (by decide) (by decide) (by decide) (by decide) (by decide) fuel

/-- What `Parse` does with a single token: the body of `parseNamedExpression`. -/
theorem Parse_single {e tok : String} (h : Fields e = [tok]) (fuel : Nat) :
    Parse (fuel + 1) e =
      (names.lookup tok).elim (.ok (none, some .noSuchName)) (Parse fuel) := by
  show parseBody (Parse fuel) e = _
  unfold parseBody parseNamedExpression
  simp only [h, List.length_singleton, ne_eq, not_true_eq_false, false_and, if_false]
  cases List.lookup tok names <;> rfl

theorem Parse_single_zero {e tok : String} (h : Fields e = [tok]) :
    Parse 0 e =
      (names.lookup tok).elim (.ok (none, some .noSuchName)) (fun _ => .error .outOfFuel) := by
  show parseBody (fun _ => .error .outOfFuel) e = _
  unfold parseBody parseNamedExpression
  simp only [h, List.length_singleton, ne_eq, not_true_eq_false, false_and, if_false]
  cases List.lookup tok names <;> rfl

theorem lookup_names (tok : String) :
    names.lookup tok =
      if tok = "@yearly" then some "0 0 1 1 *"
      else if tok = "@annually" then some "@yearly"
      else if tok = "@monthly" then some "0 0 1 * *"
      else if tok = "@weekly" then some "0 0 * * 0"
      else if tok = "@daily" then some "0 0 * * *"
      else if tok = "@midnight" then some "@daily"
      else if tok = "@hourly" then some "0 * * * *"
      else none := by
  simp only [names, List.lookup]
  repeat' split
  all_goals simp_all

/-- C9: for every expression of a single token, with fuel for two lookups in the
table of names or more: `Parse` succeeds if and only if the token is one of the
seven names; it then returns what `Parse` returns on the five fields the name
stands for (`@annually` going through `@yearly`, `@midnight` through `@daily`),
which is a schedule; every other token fails with the error for an unknown
name. -/
theorem Parse_named (e tok : String) (h : Fields e = [tok]) (fuel : Nat) (hfuel : 2 ≤ fuel) :
    ((∃ sched, Parse fuel e = .ok (some sched, none)) ↔
      tok ∈ ["@yearly", "@annually", "@monthly", "@weekly", "@daily", "@midnight", "@hourly"]) ∧
    (tok = "@yearly" ∨ tok = "@annually" →
      Parse fuel e = Parse fuel "0 0 1 1 *" ∧
      Parse fuel e = .ok (some ⟨1, 1, 1, 1, 127⟩, none)) ∧
    (tok = "@monthly" →
      Parse fuel e = Parse fuel "0 0 1 * *" ∧
      Parse fuel e = .ok (some ⟨1, 1, 1, 4095, 127⟩, none)) ∧
    (tok = "@weekly" →
      Parse fuel e = Parse fuel "0 0 * * 0" ∧
      Parse fuel e = .ok (some ⟨1, 1, 2147483647, 4095, 1⟩, none)) ∧
    (tok = "@daily" ∨ tok = "@midnight" →
      Parse fuel e = Parse fuel "0 0 * * *" ∧
      Parse fuel e = .ok (some ⟨1, 1, 2147483647, 4095, 127⟩, none)) ∧
    (tok = "@hourly" →
      Parse fuel e = Parse fuel "0 * * * *" ∧
      Parse fuel e = .ok (some ⟨1, 16777215, 2147483647, 4095, 127⟩, none)) ∧
    (tok ∉ ["@yearly", "@annually", "@monthly", "@weekly", "@daily", "@midnight", "@hourly"] →
      Parse fuel e = .ok (none, some .noSuchName)) := by
  obtain ⟨k, rfl⟩ : ∃ k, fuel = k + 1 + 1 := ⟨fuel - 2, by omega⟩
  have hy : Parse (k + 1) "@yearly" = Parse k "0 0 1 1 *" := by
    rw [@Parse_single "@yearly" "@yearly" (by decide), lookup_names]; rfl
  have hd : Parse (k + 1) "@daily" = Parse k "0 0 * * *" := by
    rw [@Parse_single "@daily" "@daily" (by decide), lookup_names]; rfl
  have hP := Parse_single h (k + 1)
  rw [lookup_names] at hP
  have e1 : tok = "@yearly" → Parse (k + 1 + 1) e = .ok (some ⟨1, 1, 1, 1, 127⟩, none) := by
    rintro rfl; rw [hP, if_pos rfl]; exact Parse_yearly _
  have e2 : tok = "@annually" → Parse (k + 1 + 1) e = .ok (some ⟨1, 1, 1, 1, 127⟩, none) := by
    rintro rfl; rw [hP]; simp only [String.reduceEq, if_false, if_true, Option.elim]; rw [hy]
    exact Parse_yearly _
  have e3 : tok = "@monthly" → Parse (k + 1 + 1) e = .ok (some ⟨1, 1, 1, 4095, 127⟩, none) := by
    rintro rfl; rw [hP]; simp only [String.reduceEq, if_false, if_true, Option.elim]
    exact Parse_monthly _
  have e4 : tok = "@weekly" →
      Parse (k + 1 + 1) e = .ok (some ⟨1, 1, 2147483647, 4095, 1⟩, none) := by
    rintro rfl; rw [hP]; simp only [String.reduceEq, if_false, if_true, Option.elim]
    exact Parse_weekly _
  have e5 : tok = "@daily" →
      Parse (k + 1 + 1) e = .ok (some ⟨1, 1, 2147483647, 4095, 127⟩, none) := by
    rintro rfl; rw [hP]; simp only [String.reduceEq, if_false, if_true, Option.elim]
    exact Parse_daily _
  have e6 : tok = "@midnight" →
      Parse (k + 1 + 1) e = .ok (some ⟨1, 1, 2147483647, 4095, 127⟩, none) := by
    rintro rfl; rw [hP]; simp only [String.reduceEq, if_false, if_true, Option.elim]; rw [hd]
    exact Parse_daily _
  have e7 : tok = "@hourly" →
      Parse (k + 1 + 1) e = .ok (some ⟨1, 16777215, 2147483647, 4095, 127⟩, none) := by
    rintro rfl; rw [hP]; simp only [String.reduceEq, if_false, if_true, Option.elim]
    exact Parse_hourly _
  have e8 : tok ∉ ["@yearly", "@annually", "@monthly", "@weekly", "@daily", "@midnight",
      "@hourly"] → Parse (k + 1 + 1) e = .ok (none, some .noSuchName) := by
    intro hn
    simp only [List.mem_cons, List.mem_singleton, List.not_mem_nil, or_false, not_or] at hn
    rw [hP]
    simp [hn]
  refine ⟨⟨?_, ?_⟩, ?_, ?_, ?_, ?_, ?_, e8⟩
  · rintro ⟨sched, hs⟩
    by_contra hn
    rw [e8 hn] at hs
    simp at hs
  · intro hm
    simp only [List.mem_cons, List.mem_singleton, List.not_mem_nil, or_false] at hm
    rcases hm with h | h | h | h | h | h | h
    · exact ⟨_, e1 h⟩
    · exact ⟨_, e2 h⟩
    · exact ⟨_, e3 h⟩
    · exact ⟨_, e4 h⟩
    · exact ⟨_, e5 h⟩
    · exact ⟨_, e6 h⟩
    · exact ⟨_, e7 h⟩
  · rintro (h | h)
    · exact ⟨by rw [e1 h, Parse_yearly], e1 h⟩
    · exact ⟨by rw [e2 h, Parse_yearly], e2 h⟩
  · intro h
    exact ⟨by rw [e3 h, Parse_monthly], e3 h⟩
  · intro h
    exact ⟨by rw [e4 h, Parse_weekly], e4 h⟩
  · rintro (h | h)
    · exact ⟨by rw [e5 h, Parse_daily], e5 h⟩
    · exact ⟨by rw [e6 h, Parse_daily], e6 h⟩
  · intro h
    exact ⟨by rw [e7 h, Parse_hourly], e7 h⟩

/-- Witness of C9 on `@annually` with fuel for two lookups. -/
theorem Parse_named_witness :
    Parse 2 "@annually" = Parse 2 "0 0 1 1 *" ∧
      Parse 2 "@annually" = .ok (some ⟨1, 1, 1, 1, 127⟩, none) :=
  (Parse_named "@annually" "@annually" (by decide) 2 (by decide)).2.1 (Or.inr rfl)

theorem fieldsLoop_spaces (l : List Char) (h : ∀ c ∈ l, isSpace c = true) : fieldsLoop l [] = [] := by
  induction l with
  | nil => rfl
  | cons c t ih =>
    have hc := h c (List.mem_cons_self _ _)
    simp only [fieldsLoop, hc, if_true, List.isEmpty_nil]
    exact ih fun c hc => h c (List.mem_cons_of_mem _ hc)

/-- A name that stands for another name never yields the field-count error. -/
theorem Parse_alias_name (fuel : Nat) :
    (∀ sched n, Parse fuel "@yearly" ≠ .ok (sched, some (.fieldCount n))) ∧
    (∀ sched n, Parse fuel "@daily" ≠ .ok (sched, some (.fieldCount n))) := by
  cases fuel with
  | zero =>
    constructor <;> intro sched n h
    · rw [@Parse_single_zero "@yearly" "@yearly" (by decide), lookup_names] at h
      simp at h
    · rw [@Parse_single_zero "@daily" "@daily" (by decide), lookup_names] at h
      simp at h
  | succ k =>
    constructor <;> intro sched n h
    · rw [@Parse_single "@yearly" "@yearly" (by decide), lookup_names] at h
      simp only [if_true, Option.elim] at h
      rw [Parse_yearly] at h
      simp at h
    · rw [@Parse_single "@daily" "@daily" (by decide), lookup_names] at h
      simp only [String.reduceEq, if_false, if_true, Option.elim] at h
      rw [Parse_daily] at h
      simp at h

/-- C8: for every expression, with `n` the number of its tokens between white
space: when `n` is neither 1 nor 5 (as for the empty expression and for one of
white space alone, where `n = 0`), `Parse` fails with the field-count error
that names `n`; and when `n` is 1 or 5, `Parse` does not return the field-count
error. -/
theorem Parse_field_count (fuel : Nat) (e : String) :
    ((Fields e).length ≠ 1 ∧ (Fields e).length ≠ 5 →
      Parse fuel e = .ok (none, some (.fieldCount (Fields e).length))) ∧
    ((∀ c ∈ e.data, isSpace c = true) → Parse fuel e = .ok (none, some (.fieldCount 0))) ∧
    ((Fields e).length = 1 ∨ (Fields e).length = 5 →
      ∀ sched n, Parse fuel e ≠ .ok (sched, some (.fieldCount n))) := by
  obtain ⟨parse, hp⟩ := Parse_eq_parseBody fuel e
  have h1 : (Fields e).length ≠ 1 ∧ (Fields e).length ≠ 5 →
      Parse fuel e = .ok (none, some (.fieldCount (Fields e).length)) := by
    intro h
    rw [hp]
    simp only [parseBody, h, ne_eq, not_false_eq_true, and_self, if_true]
  refine ⟨h1, fun hs => ?_, ?_⟩
  · have hf : Fields e = [] := fieldsLoop_spaces _ hs
    have := h1 (by rw [hf]; decide)
    rw [hf] at this
    exact this
  · rintro (h | h) sched n hr
    · obtain ⟨tok, ht⟩ := List.length_eq_one.mp h
      cases fuel with
      | zero =>
        rw [Parse_single_zero ht] at hr
        cases hl : names.lookup tok <;> rw [hl] at hr <;> simp at hr
      | succ k =>
        rw [Parse_single ht, lookup_names] at hr
        split_ifs at hr <;> simp only [Option.elim] at hr
        · rw [Parse_yearly] at hr; simp at hr
        · exact (Parse_alias_name k).1 _ _ hr
        · rw [Parse_monthly] at hr; simp at hr
        · rw [Parse_weekly] at hr; simp at hr
        · rw [Parse_daily] at hr; simp at hr
        · exact (Parse_alias_name k).2 _ _ hr
        · rw [Parse_hourly] at hr; simp at hr
        · simp at hr
    · obtain ⟨f0, f1, f2, f3, f4, hf⟩ : ∃ f0 f1 f2 f3 f4, Fields e = [f0, f1, f2, f3, f4] := by
        match hF : Fields e, h with
        | [f0, f1, f2, f3, f4], _ => exact ⟨f0, f1, f2, f3, f4, rfl⟩
      cases h0 : parseField f0 spec.minute with
      | error f => rw [hp] at hr; simp [parseBody, hf, h0, bind, Except.bind] at hr
      | ok r0 =>
      cases h1 : parseField f1 spec.hour with
      | error f => rw [hp] at hr; simp [parseBody, hf, h0, h1, bind, Except.bind] at hr
      | ok r1 =>
      cases h2 : parseField f2 spec.dom with
      | error f => rw [hp] at hr; simp [parseBody, hf, h0, h1, h2, bind, Except.bind] at hr
      | ok r2 =>
      cases h3 : parseField f3 spec.month with
      | error f => rw [hp] at hr; simp [parseBody, hf, h0, h1, h2, h3, bind, Except.bind] at hr
      | ok r3 =>
      cases h4 : parseField f4 spec.dow with
      | error f =>
        rw [hp] at hr; simp [parseBody, hf, h0, h1, h2, h3, h4, bind, Except.bind] at hr
      | ok r4 =>
        rw [Parse_five hf h0 h1 h2 h3 h4] at hr
        cases h5 : r4.2 with
        | none => simp [h5] at hr
        | some err =>
          simp [h5] at hr
          exact @parseField_error f4 spec.dow r4.1 err (by rw [h4, ← h5]) n hr.2

/-- Witness of C8 on an expression of six fields. -/
theorem Parse_field_count_witness :
    Parse 0 "* * * * * *" = .ok (none, some (.fieldCount (Fields "* * * * * *").length)) :=
  (Parse_field_count 0 "* * * * * *").1 (by decide)

/-! ### The matcher, piece by piece -/

theorem mem_run_lit {c : Char} {s : List Char} {m : List (List Char) × List Char} :
    m ∈ (Re.lit c).run s ↔ s = c :: m.2 ∧ m.1 = [] := by
  obtain ⟨g, t⟩ := m
  cases s with
  | nil => simp [Re.run]
  | cons x r =>
    by_cases hx : x = c
    · simp [Re.run, hx, eq_comm, and_comm]
    · simp [Re.run, hx]

theorem mem_run_cls {p : Char → Bool} {s : List Char} {m : List (List Char) × List Char} :
    m ∈ (Re.cls p).run s ↔ ∃ x, p x = true ∧ s = x :: m.2 ∧ m.1 = [] := by
  obtain ⟨g, t⟩ := m
  cases s with
  | nil => simp [Re.run]
  | cons x r =>
    by_cases hx : p x = true
    · simp only [Re.run, hx, if_true, List.mem_singleton, Prod.mk.injEq, List.cons.injEq]
      constructor
      · rintro ⟨rfl, rfl⟩
        exact ⟨x, hx, ⟨rfl, rfl⟩, rfl⟩
      · rintro ⟨y, -, ⟨rfl, rfl⟩, rfl⟩
        exact ⟨rfl, rfl⟩
    · simp only [Re.run, hx]
      constructor
      · intro h
        simp at h
      · rintro ⟨y, hy, h1, -⟩
        simp only [List.cons.injEq] at h1
        rw [← h1.1] at hy
        exact absurd hy hx

theorem mem_run_cat {a b : Re} {s : List Char} {m : List (List Char) × List Char} :
    m ∈ (Re.cat a b).run s ↔
      ∃ m1 ∈ a.run s, ∃ m2 ∈ b.run m1.2, m = (m1.1 ++ m2.1, m2.2) := by
  simp only [Re.run, List.mem_flatMap, List.mem_map]
  constructor
  · rintro ⟨m1, h1, m2, h2, rfl⟩
    exact ⟨m1, h1, m2, h2, rfl⟩
  · rintro ⟨m1, h1, m2, h2, rfl⟩
    exact ⟨m1, h1, m2, h2, rfl⟩

theorem mem_run_alt {a b : Re} {s : List Char} {m : List (List Char) × List Char} :
    m ∈ (Re.alt a b).run s ↔ m ∈ a.run s ∨ m ∈ b.run s := by
  simp [Re.run]

theorem mem_run_group {a : Re} {s : List Char} {m : List (List Char) × List Char} :
    m ∈ (Re.group a).run s ↔
      ∃ m1 ∈ a.run s, m = (s.take (s.length - m1.2.length) :: m1.1, m1.2) := by
  simp only [Re.run, List.mem_map]
  constructor
  · rintro ⟨m1, h1, rfl⟩
    exact ⟨m1, h1, rfl⟩
  · rintro ⟨m1, h1, rfl⟩
    exact ⟨m1, h1, rfl⟩

/-- The matches of `singleOrDoubleDigit`: one or two digits off the front, captured. -/
theorem mem_run_sod {s : List Char} {m : List (List Char) × List Char} :
    m ∈ singleOrDoubleDigit.run s ↔ ∃ a, digits12 a ∧ s = a ++ m.2 ∧ m.1 = [a] := by
  obtain ⟨g, t⟩ := m
  simp only [singleOrDoubleDigit, Re.rep12, mem_run_group, mem_run_alt, mem_run_cat, mem_run_cls]
  constructor
  · rintro ⟨m1, (⟨m2, ⟨x, hx, h1, h2⟩, m3, ⟨y, hy, h3, h4⟩, rfl⟩ | ⟨x, hx, h1, h2⟩), h⟩
    · simp only [Prod.mk.injEq] at h
      obtain ⟨rfl, rfl⟩ := h
      have e : m3.2.length + 1 + 1 - m3.2.length = 2 := by omega
      refine ⟨[x, y], Or.inr ⟨x, y, rfl, hx, hy⟩, ?_, ?_⟩
      · simp [h1, h3]
      · simp [h1, h3, h2, h4, e]
    · simp only [Prod.mk.injEq] at h
      obtain ⟨rfl, rfl⟩ := h
      refine ⟨[x], Or.inl ⟨x, rfl, hx⟩, ?_, ?_⟩
      · simp [h1]
      · simp [h1, h2]
  · rintro ⟨a, (⟨x, rfl, hx⟩ | ⟨x, y, rfl, hx, hy⟩), rfl, rfl⟩
    · exact ⟨([], t), Or.inr ⟨x, hx, rfl, rfl⟩, by simp⟩
    · have e : t.length + 1 + 1 - t.length = 2 := by omega
      exact ⟨([], t), Or.inl ⟨([], y :: t), ⟨x, hx, rfl, rfl⟩, ([], t), ⟨y, hy, rfl, rfl⟩, rfl⟩,
        by simp [e]⟩

theorem MatchString_iff {re : Re} {s : String} :
    re.MatchString s = true ↔ ∃ g, (g, []) ∈ re.run s.data := by
  simp only [Re.MatchString, List.any_eq_true, List.isEmpty_iff]
  constructor
  · rintro ⟨⟨g, t⟩, h1, h2⟩
    simp only at h2
    subst h2
    exact ⟨g, h1⟩
  · rintro ⟨g, h⟩
    exact ⟨(g, []), h, rfl⟩

/-! ### Comma lists -/

theorem mem_starLoop_zero (f : List Char → List (List (List Char) × List Char)) (n : Nat)
    (s : List Char) : ([], s) ∈ starLoop f n s := by
  cases n <;> simp [starLoop]

theorem mem_starLoop_succ {f : List Char → List (List (List Char) × List Char)} {n : Nat}
    {s : List Char} {m r : List (List Char) × List Char} (h1 : m ∈ f s)
    (h2 : m.2.length < s.length) (h3 : r ∈ starLoop f n m.2) : r ∈ starLoop f (n + 1) s := by
  simp only [starLoop, List.mem_append, List.mem_flatMap]
  exact Or.inl ⟨m, h1, by rw [if_pos h2]; exact h3⟩

/-- The pattern `\s*` can take all of a run of white space. -/
theorem spaces_run (ws t : List Char) (h : ∀ c ∈ ws, isReSpace c = true) :
    ([], t) ∈ (Re.star (Re.cls isReSpace)).run (ws ++ t) := by
  have key : ∀ (ws : List Char) (n : Nat), (∀ c ∈ ws, isReSpace c = true) → ws.length ≤ n →
      ([], t) ∈ starLoop (fun u => (Re.cls isReSpace).run u) n (ws ++ t) := by
    intro ws
    induction ws with
    | nil => intro n _ _; exact mem_starLoop_zero _ _ _
    | cons c r ih =>
      intro n hc hn
      obtain ⟨k, rfl⟩ : ∃ k, n = k + 1 := ⟨n - 1, by simp at hn; omega⟩
      refine mem_starLoop_succ (m := ([], r ++ t)) ?_ (by simp) ?_
      · exact mem_run_cls.mpr ⟨c, hc c (List.mem_cons_self _ _), rfl, rfl⟩
      · exact ih k (fun c h => hc c (List.mem_cons_of_mem _ h)) (by simpa using hn)
  simp only [Re.run]
  exact key ws _ h (by simp)

/-- The pattern `list` matches a list text. -/
theorem list_run (a0 : List Char) (items : List (List Char × List Char)) (h0 : digits12 a0)
    (hi : ∀ it ∈ items, (∀ c ∈ it.1, isReSpace c = true) ∧ digits12 it.2) :
    ∃ g, (g, []) ∈ list.run (listText a0 items) := by
  have key : ∀ (items : List (List Char × List Char)) (n : Nat),
      (∀ it ∈ items, (∀ c ∈ it.1, isReSpace c = true) ∧ digits12 it.2) →
      (items.flatMap fun it => ',' :: (it.1 ++ it.2)).length ≤ n →
      ([], []) ∈ starLoop
        (fun u => (Re.cat (.lit ',') (.cat (.star (.cls isReSpace)) singleOrDoubleDigit)).run u)
        n (items.flatMap fun it => ',' :: (it.1 ++ it.2)) := by
    intro items
    induction items with
    | nil => intro n _ _; exact mem_starLoop_zero _ _ _
    | cons it r ih =>
      intro n hc hn
      obtain ⟨k, rfl⟩ : ∃ k, n = k + 1 := ⟨n - 1, by simp at hn; omega⟩
      obtain ⟨hws, hd⟩ := hc it (List.mem_cons_self _ _)
      simp only [List.flatMap_cons, List.cons_append, List.append_assoc]
      refine mem_starLoop_succ
        (m := ([it.2], r.flatMap fun it => ',' :: (it.1 ++ it.2))) ?_ (by simp; omega) ?_
      · refine mem_run_cat.mpr ⟨([], it.1 ++ (it.2 ++ _)), mem_run_lit.mpr ⟨rfl, rfl⟩, _,
          mem_run_cat.mpr ⟨([], it.2 ++ _), spaces_run _ _ hws, ([it.2], _),
            mem_run_sod.mpr ⟨it.2, hd, rfl, rfl⟩, rfl⟩, rfl⟩
      · refine ih k (fun it h => hc it (List.mem_cons_of_mem _ h)) ?_
        simp at hn ⊢
        omega
  refine ⟨[a0], ?_⟩
  unfold list listText
  refine mem_run_cat.mpr ⟨([a0], _), mem_run_sod.mpr ⟨a0, h0, rfl, rfl⟩, ([], []), ?_, rfl⟩
  simp only [Re.run]
  exact key items _ hi (le_refl _)

theorem digits12_all {a : List Char} (h : digits12 a) : ∀ c ∈ a, isDigit c = true := by
  rcases h with ⟨x, rfl, hx⟩ | ⟨x, y, rfl, hx, hy⟩ <;> simp [hx, *]

theorem digits12_head {a : List Char} (h : digits12 a) :
    ∃ x t, a = x :: t ∧ isDigit x = true := by
  rcases h with ⟨x, rfl, hx⟩ | ⟨x, y, rfl, hx, hy⟩
  · exact ⟨x, [], rfl, hx⟩
  · exact ⟨x, [y], rfl, hx⟩

/-- A text of digits followed by a character that is no digit is read in one way. -/
theorem digits12_unique {a a' r r' : List Char} {c d : Char} (ha : digits12 a)
    (ha' : digits12 a') (hc : isDigit c = false) (hd : isDigit d = false)
    (h : a ++ c :: r = a' ++ d :: r') : a = a' ∧ c = d ∧ r = r' := by
  rcases ha with ⟨x, rfl, hx⟩ | ⟨x, y, rfl, hx, hy⟩ <;>
  rcases ha' with ⟨u, rfl, hu⟩ | ⟨u, v, rfl, hu, hv⟩ <;>
  simp only [List.cons_append, List.nil_append, List.cons.injEq] at h
  · obtain ⟨rfl, rfl, rfl⟩ := h
    exact ⟨rfl, rfl, rfl⟩
  · obtain ⟨-, rfl, -⟩ := h
    rw [hv] at hc
    exact absurd hc (by decide)
  · obtain ⟨-, rfl, -⟩ := h
    rw [hy] at hd
    exact absurd hd (by decide)
  · obtain ⟨rfl, rfl, rfl, rfl⟩ := h
    exact ⟨rfl, rfl, rfl⟩

/-- How a text that begins with a digit fares with the patterns that begin otherwise. -/
theorem not_match_of_digit {x : Char} {t : List Char} (hx : isDigit x = true) :
    Pattern.Every.MatchString (String.mk (x :: t)) = false ∧
    Pattern.EveryStep.MatchString (String.mk (x :: t)) = false ∧
    Pattern.Alias.MatchString (String.mk (x :: t)) = false := by
  have h1 : x ≠ '*' := isDigit_ne hx (by decide)
  refine ⟨?_, ?_, ?_⟩ <;> rw [Bool.eq_false_iff] <;> intro h <;>
    obtain ⟨g, hg⟩ := MatchString_iff.mp h
  · have := (mem_run_lit.mp hg).1
    simp only [List.cons.injEq] at this
    exact h1 this.1
  · obtain ⟨m1, hm1, -⟩ := mem_run_cat.mp hg
    have := (mem_run_lit.mp hm1).1
    simp only [List.cons.injEq] at this
    exact h1 this.1
  · obtain ⟨m1, hm1, -⟩ := mem_run_group.mp hg
    obtain ⟨m2, hm2, -⟩ := mem_run_cat.mp hm1
    obtain ⟨y, hy, h2, -⟩ := mem_run_cls.mp hm2
    simp only [List.cons.injEq] at h2
    rw [← h2.1] at hy
    have := isAlpha_not_isDigit hy
    rw [hx] at this
    exact absurd this (by decide)

/-- How a number followed by a character that is neither a digit nor a dash
fares with the patterns that begin with a number. -/
theorem not_match_of_sep {a r : List Char} {c : Char} (ha : digits12 a)
    (hc : isDigit c = false) (hc2 : c ≠ '-') :
    Pattern.SingleOrDoubleDigit.MatchString (String.mk (a ++ c :: r)) = false ∧
    Pattern.Range.MatchString (String.mk (a ++ c :: r)) = false ∧
    Pattern.RangeStep.MatchString (String.mk (a ++ c :: r)) = false := by
  have hdash : isDigit '-' = false := by decide
  refine ⟨?_, ?_, ?_⟩ <;> rw [Bool.eq_false_iff] <;> intro h <;>
    obtain ⟨g, hg⟩ := MatchString_iff.mp h
  · obtain ⟨b, hb, h1, -⟩ := mem_run_sod.mp hg
    simp only [List.append_nil] at h1
    have := digits12_all hb c (by rw [← h1]; simp)
    rw [hc] at this
    exact absurd this (by decide)
  · obtain ⟨m1, hm1, m2, hm2, -⟩ := mem_run_cat.mp hg
    obtain ⟨b, hb, h1, -⟩ := mem_run_sod.mp hm1
    obtain ⟨m3, hm3, -⟩ := mem_run_cat.mp hm2
    have h3 := (mem_run_lit.mp hm3).1
    rw [h3] at h1
    exact hc2 (digits12_unique ha hb hc hdash h1).2.1
  · obtain ⟨m0, hm0, -⟩ := mem_run_cat.mp hg
    obtain ⟨m1, hm1, m2, hm2, -⟩ := mem_run_cat.mp hm0
    obtain ⟨b, hb, h1, -⟩ := mem_run_sod.mp hm1
    obtain ⟨m3, hm3, -⟩ := mem_run_cat.mp hm2
    have h3 := (mem_run_lit.mp hm3).1
    rw [h3] at h1
    exact hc2 (digits12_unique ha hb hc hdash h1).2.1

/-- Dispatch of a comma list of two or more numbers. -/
theorem parseField_list {a0 : List Char} {items : List (List Char × List Char)}
    (h0 : digits12 a0) (hne : items ≠ [])
    (hi : ∀ it ∈ items, (∀ c ∈ it.1, isReSpace c = true) ∧ digits12 it.2) (fs : FieldSpec) :
    parseField (String.mk (listText a0 items)) fs =
      .ok (parseList (String.mk (listText a0 items)) fs) := by
  obtain ⟨it, r, rfl⟩ : ∃ it r, items = it :: r := by
    cases items with
    | nil => exact absurd rfl hne
    | cons it r => exact ⟨it, r, rfl⟩
  have hl := MatchString_iff.mpr (list_run a0 (it :: r) h0 hi)
  have ht : listText a0 (it :: r) =
      a0 ++ ',' :: (it.1 ++ it.2 ++ r.flatMap fun it => ',' :: (it.1 ++ it.2)) := by
    simp [listText]
  obtain ⟨x, t, hxt, hx⟩ := digits12_head h0
  have hA := not_match_of_digit (t := t ++ ',' :: (it.1 ++ it.2 ++
    r.flatMap fun it => ',' :: (it.1 ++ it.2))) hx
  have hB := not_match_of_sep (r := it.1 ++ it.2 ++ r.flatMap fun it => ',' :: (it.1 ++ it.2))
    h0 (c := ',') (by decide) (by decide)
  have ht2 : listText a0 (it :: r) =
      x :: (t ++ ',' :: (it.1 ++ it.2 ++ r.flatMap fun it => ',' :: (it.1 ++ it.2))) := by
    rw [ht, hxt]; rfl
  have e1 := hA.1
  have e2 := hA.2.1
  have e3 := hA.2.2
  rw [← ht2] at e1 e2 e3
  have e4 := hB.1
  have e5 := hB.2.1
  have e6 := hB.2.2
  rw [← ht] at e4 e5 e6
  unfold parseField
  rw [e1, e2, e3, e4, e5, e6]
  simp only [Bool.false_eq_true, if_false]
  rw [show Pattern.List.MatchString (String.mk (listText a0 (it :: r))) = true from hl]
  simp

theorem splitComma_single (w : List Char) (h : ∀ c ∈ w, c ≠ ',') : splitComma w = [w] := by
  induction w with
  | nil => rfl
  | cons c t ih =>
    have hc := h c (List.mem_cons_self _ _)
    simp only [splitComma, hc, if_false, ih fun c hc => h c (List.mem_cons_of_mem _ hc)]

theorem splitComma_append (w rest : List Char) (h : ∀ c ∈ w, c ≠ ',') :
    splitComma (w ++ ',' :: rest) = w :: splitComma rest := by
  induction w with
  | nil => simp [splitComma]
  | cons c t ih =>
    have hc := h c (List.mem_cons_self _ _)
    rw [List.cons_append, splitComma, if_neg hc, ih fun c hc => h c (List.mem_cons_of_mem _ hc)]

theorem isDigit_not_comma {c : Char} (h : isDigit c = true) : c ≠ ',' :=
  isDigit_ne h (by decide)

theorem isReSpace_not_comma {c : Char} (h : isReSpace c = true) : c ≠ ',' := by
  rintro rfl
  exact absurd h (by decide)

theorem isReSpace_isSpace {c : Char} (h : isReSpace c = true) : isSpace c = true := by
  simp only [isReSpace, Bool.or_eq_true, beq_iff_eq] at h
  simp only [isSpace, Bool.or_eq_true, Bool.and_eq_true, decide_eq_true_eq, beq_iff_eq]
  omega

theorem isDigit_not_isSpace {c : Char} (h : isDigit c = true) : isSpace c = false := by
  simp only [isDigit, Bool.and_eq_true, decide_eq_true_eq] at h
  rw [Bool.eq_false_iff]
  intro hs
  simp only [isSpace, Bool.or_eq_true, Bool.and_eq_true, decide_eq_true_eq, beq_iff_eq] at hs
  omega

/-- The pieces of a list text. -/
theorem splitComma_listText (a0 : List Char) (items : List (List Char × List Char))
    (h0 : digits12 a0)
    (hi : ∀ it ∈ items, (∀ c ∈ it.1, isReSpace c = true) ∧ digits12 it.2) :
    splitComma (listText a0 items) = a0 :: items.map fun it => it.1 ++ it.2 := by
  have key : ∀ (items : List (List Char × List Char)) (w : List Char), (∀ c ∈ w, c ≠ ',') →
      (∀ it ∈ items, (∀ c ∈ it.1, isReSpace c = true) ∧ digits12 it.2) →
      splitComma (w ++ items.flatMap fun it => ',' :: (it.1 ++ it.2)) =
        w :: items.map fun it => it.1 ++ it.2 := by
    intro items
    induction items with
    | nil => intro w hw _; simpa using splitComma_single w hw
    | cons it r ih =>
      intro w hw hc
      obtain ⟨hws, hd⟩ := hc it (List.mem_cons_self _ _)
      simp only [List.flatMap_cons, List.cons_append, List.map_cons]
      rw [splitComma_append w _ hw, ih (it.1 ++ it.2) ?_ fun it h => hc it (List.mem_cons_of_mem _ h)]
      intro c hcm
      rcases List.mem_append.mp hcm with h | h
      · exact isReSpace_not_comma (hws c h)
      · exact isDigit_not_comma (digits12_all hd c h)
  exact key items a0 (fun c h => isDigit_not_comma (digits12_all h0 c h)) hi

/-- White space before a number is trimmed away. -/
theorem TrimSpace_digits (ws a : List Char) (hws : ∀ c ∈ ws, isReSpace c = true)
    (ha : digits12 a) : TrimSpace (ws ++ a) = a := by
  have h1 : (ws ++ a).dropWhile isSpace = a := by
    induction ws with
    | nil =>
      obtain ⟨x, t, rfl, hx⟩ := digits12_head ha
      simp [List.dropWhile, isDigit_not_isSpace hx]
    | cons c r ih =>
      have := isReSpace_isSpace (hws c (List.mem_cons_self _ _))
      simp only [List.cons_append, List.dropWhile, this]
      exact ih fun c h => hws c (List.mem_cons_of_mem _ h)
  unfold TrimSpace
  rw [h1]
  rcases ha with ⟨x, rfl, hx⟩ | ⟨x, y, rfl, hx, hy⟩ <;>
    simp [List.dropWhile, isDigit_not_isSpace, *]

/-- The loop of `parseList` over pieces that are numbers after trimming: it
stops at the first number out of range, and otherwise sets the bits of all. -/
theorem parseListLoop_digits (fs : FieldSpec) :
    ∀ (parts : List (List Char)) (values : List Nat),
      (∀ p ∈ parts, digits12 (TrimSpace p)) →
      parseListLoop fs parts values =
        match parts.find? fun p => !fs.InRange (num (TrimSpace p)) with
        | some p => (0, some (.notInRange (num (TrimSpace p)) fs.Min fs.Max))
        | none =>
          (listField (values ++ parts.map fun p => offset fs (num (TrimSpace p))), none) := by
  intro parts
  induction parts with
  | nil => intro values _; simp [parseListLoop]
  | cons p rest ih =>
    intro values hp
    have hd := hp p (List.mem_cons_self _ _)
    unfold parseListLoop
    simp only [(ParseUint_digits12 hd).1, num_lt_256 hd, Option.isSome_none, Bool.false_eq_true,
      if_false, List.find?_cons]
    cases hin : fs.InRange (num (TrimSpace p))
    · simp
    · simp only [Bool.not_true, Bool.false_eq_true, if_false]
      rw [ih _ fun q hq => hp q (List.mem_cons_of_mem _ hq)]
      simp

/-- A list text with a number out of range is refused with the range error of
its first such number. -/
theorem parseList_out_of_range {fs : FieldSpec} {a0 : List Char}
    {items : List (List Char × List Char)} (h0 : digits12 a0)
    (hi : ∀ it ∈ items, (∀ c ∈ it.1, isReSpace c = true) ∧ digits12 it.2)
    {v : List Char} (hv : a0 = v ∨ ∃ it ∈ items, it.2 = v) (hout : fs.InRange (num v) = false) :
    ∃ n, fs.InRange n = false ∧
      parseList (String.mk (listText a0 items)) fs = (0, some (.notInRange n fs.Min fs.Max)) := by
  have hparts : ∀ p ∈ a0 :: items.map (fun it => it.1 ++ it.2), digits12 (TrimSpace p) ∧
      ∃ it : List Char × List Char, (p = it.1 ++ it.2) ∧ TrimSpace p = it.2 ∧
        (it = ([], a0) ∨ it ∈ items) := by
    intro p hp
    rcases List.mem_cons.mp hp with rfl | hp
    · have := TrimSpace_digits [] p (by simp) h0
      simp only [List.nil_append] at this
      exact ⟨by rw [this]; exact h0, ([], p), rfl, this, Or.inl rfl⟩
    · obtain ⟨it, hit, rfl⟩ := List.mem_map.mp hp
      obtain ⟨hws, hd⟩ := hi it hit
      have := TrimSpace_digits it.1 it.2 hws hd
      exact ⟨by rw [this]; exact hd, it, rfl, this, Or.inr hit⟩
  unfold parseList
  rw [show (String.mk (listText a0 items)).data = listText a0 items from rfl,
    splitComma_listText a0 items h0 hi, parseListLoop_digits fs _ _ fun p hp => (hparts p hp).1]
  cases hf : List.find? (fun p => !fs.InRange (num (TrimSpace p)))
      (a0 :: items.map fun it => it.1 ++ it.2) with
  | some p =>
    have := List.find?_some hf
    exact ⟨_, by simpa using this, rfl⟩
  | none =>
    exfalso
    rw [List.find?_eq_none] at hf
    rcases hv with rfl | ⟨it, hit, rfl⟩
    · have h1 := hf a0 (List.mem_cons_self _ _)
      have h2 := TrimSpace_digits [] a0 (by simp) h0
      simp only [List.nil_append] at h2
      rw [h2, hout] at h1
      simp at h1
    · have h1 := hf (it.1 ++ it.2) (List.mem_cons_of_mem _ (List.mem_map.mpr ⟨it, hit, rfl⟩))
      rw [TrimSpace_digits it.1 it.2 (hi it hit).1 (hi it hit).2, hout] at h1
      simp at h1

/-- C10: for every field domain and every text `v` of one or two digits whose
value lies outside the domain, `parseField` returns the mask 0 and an
out-of-range error when `v` is the whole field, when `v` is either end of a
range or of a stepped range whose other parts are any texts of one or two
digits, and when `v` is any element of a comma list of two or more such texts;
and `InRange` is true exactly from `Min` to `Max`. -/
theorem out_of_domain_rejected (fs : FieldSpec) (v : List Char) (hv : digits12 v)
    (hout : fs.InRange (num v) = false) :
    parseField (String.mk v) fs = .ok (0, some (.notInRange (num v) fs.Min fs.Max)) ∧
    (∀ w, digits12 w →
      (∃ n, fs.InRange n = false ∧
        parseField (String.mk (v ++ '-' :: w)) fs = .ok (0, some (.notInRange n fs.Min fs.Max))) ∧
      (∃ n, fs.InRange n = false ∧
        parseField (String.mk (w ++ '-' :: v)) fs
          = .ok (0, some (.notInRange n fs.Min fs.Max)))) ∧
    (∀ w s, digits12 w → digits12 s →
      (∃ n, fs.InRange n = false ∧
        parseField (String.mk (v ++ '-' :: (w ++ '/' :: s))) fs
          = .ok (0, some (.notInRange n fs.Min fs.Max))) ∧
      (∃ n, fs.InRange n = false ∧
        parseField (String.mk (w ++ '-' :: (v ++ '/' :: s))) fs
          = .ok (0, some (.notInRange n fs.Min fs.Max)))) ∧
    (∀ a0 items, digits12 a0 → items ≠ [] →
      (∀ it ∈ items, (∀ c ∈ it.1, isReSpace c = true) ∧ digits12 it.2) →
      (a0 = v ∨ ∃ it ∈ items, it.2 = v) →
      ∃ n, fs.InRange n = false ∧
        parseField (String.mk (listText a0 items)) fs
          = .ok (0, some (.notInRange n fs.Min fs.Max))) ∧
    (∀ n, fs.InRange n = true ↔ fs.Min ≤ n ∧ n ≤ fs.Max) := by
  refine ⟨?_, fun w hw => ⟨?_, ?_⟩, fun w s hw hs => ⟨?_, ?_⟩, ?_, ?_⟩
  · rw [parseField_digits hv, parseSingleOrDoubleDigit_digits hv, hout]
    rfl
  · refine ⟨num v, hout, ?_⟩
    rw [parseField_range hv hw, parseRange_digits hv hw, hout]
    rfl
  · rw [parseField_range hw hv, parseRange_digits hw hv, hout]
    cases hin : fs.InRange (num w)
    · exact ⟨num w, hin, rfl⟩
    · exact ⟨num v, hout, rfl⟩
  · refine ⟨num v, hout, ?_⟩
    rw [parseField_rangeStep hv hw hs, parseRangeStep_digits hv hw hs, hout]
    rfl
  · rw [parseField_rangeStep hw hv hs, parseRangeStep_digits hw hv hs, hout]
    cases hin : fs.InRange (num w)
    · exact ⟨num w, hin, rfl⟩
    · exact ⟨num v, hout, rfl⟩
  · intro a0 items h0 hne hi hmem
    obtain ⟨n, hn, hp⟩ := parseList_out_of_range h0 hi hmem hout
    exact ⟨n, hn, by rw [parseField_list h0 hne hi, hp]⟩
  · intro n
    simp only [FieldSpec.InRange, Bool.or_eq_true, decide_eq_true_eq]
    split_ifs with h <;> simp <;> omega

/-- Witness of C10 on the text `60` in the minutes. -/
theorem out_of_domain_rejected_witness :
    parseField (String.mk ['6', '0']) spec.minute
      = .ok (0, some (.notInRange (num ['6', '0']) spec.minute.Min spec.minute.Max)) :=
  (out_of_domain_rejected spec.minute ['6', '0'] (Or.inr ⟨'6', '0', rfl, by decide, by decide⟩)
    (by decide)).1

/-! ### Masks that are not zero -/

theorem InRange_iff (fs : FieldSpec) (n : Nat) :
    fs.InRange n = true ↔ fs.Min ≤ n ∧ n ≤ fs.Max := by
  simp only [FieldSpec.InRange, Bool.or_eq_true, decide_eq_true_eq]
  split_ifs with h <;> simp <;> omega

theorem bit_ne_zero {p : Nat} (h1 : 1 ≤ p) (h2 : p ≤ 64) : bit p ≠ 0 := by
  rw [bit_eq h1 h2]
  exact Nat.pos_iff_ne_zero.mp (by positivity)

theorem ne_zero_of_testBit {m j : Nat} (h : m.testBit j = true) : m ≠ 0 := by
  rintro rfl
  simp at h

/-- The loop of `stepField` keeps the bits it has. -/
theorem stepLoop_mono (to' step : Nat) :
    ∀ (n i value m : Nat), stepLoop to' step n i value = .ok m →
      ∀ j, value.testBit j = true → m.testBit j = true := by
  intro n
  induction n with
  | zero => intro i value m h; simp [stepLoop] at h
  | succ n ih =>
    intro i value m h j hj
    unfold stepLoop at h
    split_ifs at h
    · exact ih _ _ _ h j (by rw [Nat.testBit_or, hj]; rfl)
    · simp only [Except.ok.injEq] at h
      rw [← h]; exact hj

theorem stepField_ne_zero {p q step m : Nat} (h1 : 1 ≤ p) (h2 : p ≤ q) (h3 : q ≤ 64)
    (h : stepField p q step = .ok m) : m ≠ 0 := by
  unfold stepField at h
  rw [show (256 : Nat) = 255 + 1 from rfl, stepLoop, if_pos h2] at h
  refine ne_zero_of_testBit (j := p - 1) (stepLoop_mono _ _ _ _ _ _ h _ ?_)
  rw [Nat.testBit_or, testBit_bit h1 (by omega)]
  simp
  omega

theorem rangeField_ne_zero {p q : Nat} (h1 : 1 ≤ p) (h2 : p ≤ q) (h3 : q ≤ 64) :
    rangeField p q ≠ 0 := by
  refine ne_zero_of_testBit (j := p - 1) ?_
  rw [testBit_rangeField h1 h2 h3]
  simp
  omega

theorem listField_testBit (values : List Nat) (j : Nat) :
    (listField values).testBit j = true ↔ ∃ v ∈ values, (bit v).testBit j = true := by
  have key : ∀ (values : List Nat) (init : Nat),
      (values.foldl (fun value val => value ||| bit val) init).testBit j = true ↔
        init.testBit j = true ∨ ∃ v ∈ values, (bit v).testBit j = true := by
    intro values
    induction values with
    | nil => intro init; simp
    | cons v r ih =>
      intro init
      rw [List.foldl_cons, ih, Nat.testBit_or, Bool.or_eq_true]
      simp only [List.mem_cons, exists_eq_or_imp]
      tauto
  simpa [listField] using key values 0

/-- A text that `Range` matches is two numbers with a dash between. -/
theorem Range_inv {s : String} (h : Pattern.Range.MatchString s = true) :
    ∃ a b, digits12 a ∧ digits12 b ∧ s = String.mk (a ++ '-' :: b) := by
  obtain ⟨g, hg⟩ := MatchString_iff.mp h
  obtain ⟨m1, hm1, m2, hm2, h0⟩ := mem_run_cat.mp hg
  obtain ⟨a, ha, h1, -⟩ := mem_run_sod.mp hm1
  obtain ⟨m3, hm3, m4, hm4, rfl⟩ := mem_run_cat.mp hm2
  have h3 := (mem_run_lit.mp hm3).1
  obtain ⟨b, hb, h4, -⟩ := mem_run_sod.mp hm4
  have e : m4.2 = [] := (Prod.mk.inj h0).2.symm
  rw [e, List.append_nil] at h4
  refine ⟨a, b, ha, hb, ?_⟩
  apply String.ext
  rw [h1, h3, h4]

/-- A text that `RangeStep` matches is a range, a slash and a number. -/
theorem RangeStep_inv {s : String} (h : Pattern.RangeStep.MatchString s = true) :
    ∃ a b c, digits12 a ∧ digits12 b ∧ digits12 c ∧
      s = String.mk (a ++ '-' :: (b ++ '/' :: c)) := by
  obtain ⟨g, hg⟩ := MatchString_iff.mp h
  obtain ⟨m0, hm0, n0, hn0, h0⟩ := mem_run_cat.mp hg
  obtain ⟨m1, hm1, m2, hm2, rfl⟩ := mem_run_cat.mp hm0
  obtain ⟨a, ha, h1, -⟩ := mem_run_sod.mp hm1
  obtain ⟨m3, hm3, m4, hm4, rfl⟩ := mem_run_cat.mp hm2
  have h3 := (mem_run_lit.mp hm3).1
  obtain ⟨b, hb, h4, -⟩ := mem_run_sod.mp hm4
  obtain ⟨n1, hn1, n2, hn2, rfl⟩ := mem_run_cat.mp hn0
  have h8 := (mem_run_lit.mp hn1).1
  obtain ⟨c, hc, h9, -⟩ := mem_run_sod.mp hn2
  have e : n2.2 = [] := (Prod.mk.inj h0).2.symm
  rw [e, List.append_nil] at h9
  simp only at h8
  refine ⟨a, b, c, ha, hb, hc, ?_⟩
  apply String.ext
  rw [h1, h3, h4, h8, h9]

theorem lookup_mem_values {k : String} {v : Nat} :
    ∀ (l : List (String × Nat)), l.lookup k = some v → v ∈ l.map Prod.snd := by
  intro l
  induction l with
  | nil => intro h; simp [List.lookup] at h
  | cons p r ih =>
    intro h
    obtain ⟨k', v'⟩ := p
    simp only [List.lookup] at h
    split at h
    · simp only [Option.some.injEq] at h
      simp [h]
    · simp [ih h]

/-- The values of the alias tables lie in their domains. -/
theorem Unalias_in_domain {fs : FieldSpec} (hfs : fs ∈ spec.toList) {name : String}
    (h : (fs.Unalias name).2 = none) :
    fs.Min ≤ (fs.Unalias name).1 ∧ (fs.Unalias name).1 ≤ fs.Max ∧
      ¬ (fs = spec.dow ∧ (fs.Unalias name).1 = 7) := by
  simp only [fields.toList, List.mem_cons, List.mem_singleton, List.not_mem_nil, or_false] at hfs
  rcases hfs with rfl | rfl | rfl | rfl | rfl
  · simp [FieldSpec.Unalias, spec] at h
  · simp [FieldSpec.Unalias, spec] at h
  · simp [FieldSpec.Unalias, spec] at h
  · simp only [FieldSpec.Unalias, spec] at h ⊢
    split at h
    · simp at h
    · next hl =>
      have := lookup_mem_values _ hl
      simp only [hl]
      simp at this
      refine ⟨by omega, by omega, ?_⟩
      rintro ⟨h1, -⟩
      exact absurd h1 (by decide)
  · simp only [FieldSpec.Unalias, spec] at h ⊢
    split at h
    · simp at h
    · next hl =>
      have := lookup_mem_values _ hl
      simp only [hl]
      simp at this
      refine ⟨by omega, by omega, ?_⟩
      rintro ⟨-, h1⟩
      omega

theorem field_offset_ne_zero {fs : FieldSpec} (hfs : fs ∈ spec.toList) {v : Nat}
    (h : fs.InRange v = true) : field (offset fs v) ≠ 0 := by
  obtain ⟨h1, h2⟩ := (InRange_iff fs v).mp h
  obtain ⟨o1, o2, -⟩ := offset_spec hfs h1 h2
  exact bit_ne_zero o1 (by omega)

theorem parseListLoop_ne_zero {fs : FieldSpec} (hfs : fs ∈ spec.toList) {m : Nat} :
    ∀ (parts : List (List Char)) (values : List Nat),
      parseListLoop fs parts values = (m, none) →
      (∀ v ∈ values, 1 ≤ v ∧ v ≤ 64) → (parts ≠ [] ∨ values ≠ []) → m ≠ 0 := by
  intro parts
  induction parts with
  | nil =>
    intro values h hv hne
    simp only [parseListLoop, Prod.mk.injEq, and_true] at h
    obtain ⟨v, r, rfl⟩ : ∃ v r, values = v :: r := by
      cases values with
      | nil => simp at hne
      | cons v r => exact ⟨v, r, rfl⟩
    obtain ⟨v1, v2⟩ := hv v (List.mem_cons_self _ _)
    rw [← h]
    refine ne_zero_of_testBit (j := v - 1) ((listField_testBit _ _).mpr ⟨v, List.mem_cons_self _ _, ?_⟩)
    rw [testBit_bit v1 v2]
    simp
    omega
  | cons p rest ih =>
    intro values h hv _
    unfold parseListLoop at h
    simp only at h
    split_ifs at h with h1 h2
    · simp only [Prod.mk.injEq] at h
      rw [h.2] at h1
      simp at h1
    · simp at h
    · refine ih _ h ?_ (Or.inr (by simp))
      intro v hvm
      rcases List.mem_append.mp hvm with hvm | hvm
      · exact hv v hvm
      · simp only [List.mem_singleton] at hvm
        subst hvm
        simp only [Bool.not_eq_true', Bool.not_eq_false] at h2
        obtain ⟨h3, h4⟩ := (InRange_iff _ _).mp h2
        obtain ⟨o1, o2, -⟩ := offset_spec hfs h3 h4
        exact ⟨o1, by omega⟩

theorem spec_min_le_max {fs : FieldSpec} (hfs : fs ∈ spec.toList) : fs.Min ≤ fs.Max := by
  simp only [fields.toList, List.mem_cons, List.mem_singleton, List.not_mem_nil, or_false] at hfs
  rcases hfs with rfl | rfl | rfl | rfl | rfl <;> decide

/-- What `regular` asks of a field. -/
theorem regular_spec {value : String} {fs : FieldSpec} (h : regular value fs = true) :
    (∃ mask, parseField value fs = .ok (mask, none)) ∧
    (Pattern.Alias.MatchString value = true → (fs.Unalias value).2 = none) ∧
    (∀ a b, digits12 a → digits12 b → value = String.mk (a ++ '-' :: b) → num a ≤ num b) ∧
    (∀ a b c, digits12 a → digits12 b → digits12 c →
      value = String.mk (a ++ '-' :: (b ++ '/' :: c)) → num a ≤ num b) := by
  simp only [regular, Bool.and_eq_true, Bool.or_eq_true, Bool.not_eq_true',
    Option.isNone_iff_eq_none] at h
  obtain ⟨⟨⟨h1, h2⟩, h3⟩, h4⟩ := h
  refine ⟨?_, ?_, ?_, ?_⟩
  · split at h1
    · next mask hm => exact ⟨mask, hm⟩
    · simp at h1
  · intro ha
    rcases h2 with h2 | h2
    · rw [ha] at h2; simp at h2
    · exact h2
  · rintro a b ha hb rfl
    rw [range_sub ha hb] at h3
    simpa using h3
  · rintro a b c ha hb hc rfl
    rw [rangeStep_sub ha hb hc] at h4
    simpa using h4

/-- A regular field of one of the five domains compiles to a mask that is not zero. -/
theorem parseField_ne_zero {fs : FieldSpec} (hfs : fs ∈ spec.toList) {value : String}
    (hreg : regular value fs = true) {m : Nat} (h : parseField value fs = .ok (m, none)) :
    m ≠ 0 := by
  obtain ⟨-, hal, hra, hrs⟩ := regular_spec hreg
  have hmm := spec_min_le_max hfs
  obtain ⟨p1, p2, -⟩ := offset_spec hfs (le_refl fs.Min) hmm
  obtain ⟨q1, q2, -⟩ := offset_spec hfs hmm (le_refl fs.Max)
  have hpq := offset_mono hfs (le_refl fs.Min) hmm (le_refl fs.Max)
  unfold parseField at h
  split_ifs at h with hE hS hES hR hRS hA hL
  · simp only [parseEvery, Except.ok.injEq, Prod.mk.injEq, and_true] at h
    rw [← h]
    exact rangeField_ne_zero p1 hpq (by omega)
  · simp only [Except.ok.injEq] at h
    unfold parseSingleOrDoubleDigit at h
    simp only at h
    split_ifs at h with h1 h2
    · simp only [Prod.mk.injEq] at h
      rw [h.2] at h1
      simp at h1
    · simp at h
    · simp only [Prod.mk.injEq, and_true] at h
      rw [← h]
      exact field_offset_ne_zero hfs (by simpa using h2)
  · simp only [parseEveryStep, bind, Except.bind, pure, Except.pure] at h
    split at h
    · simp at h
    · split_ifs at h with h1
      · simp only [Except.ok.injEq, Prod.mk.injEq] at h
        rw [h.2] at h1
        simp at h1
      · split at h
        · simp at h
        · next mask hm =>
          simp only [Except.ok.injEq, Prod.mk.injEq, and_true] at h
          rw [← h]
          exact stepField_ne_zero p1 hpq (by omega) hm
  · obtain ⟨a, b, ha, hb, rfl⟩ := Range_inv hR
    rw [parseRange_digits ha hb] at h
    simp only [Except.ok.injEq] at h
    split_ifs at h with h1 h2
    · simp at h
    · simp at h
    · simp only [Prod.mk.injEq, and_true] at h
      simp only [Bool.not_eq_true', Bool.not_eq_false] at h1 h2
      obtain ⟨a1, a2⟩ := (InRange_iff _ _).mp h1
      obtain ⟨b1, b2⟩ := (InRange_iff _ _).mp h2
      obtain ⟨o1, -⟩ := offset_spec hfs a1 a2
      obtain ⟨-, o2, -⟩ := offset_spec hfs b1 b2
      rw [← h]
      exact rangeField_ne_zero o1 (offset_mono hfs a1 (hra a b ha hb rfl) b2) (by omega)
  · obtain ⟨a, b, c, ha, hb, hc, rfl⟩ := RangeStep_inv hRS
    rw [parseRangeStep_digits ha hb hc] at h
    split_ifs at h with h1 h2
    · simp at h
    · simp at h
    · simp only [Bool.not_eq_true', Bool.not_eq_false] at h1 h2
      obtain ⟨a1, a2⟩ := (InRange_iff _ _).mp h1
      obtain ⟨b1, b2⟩ := (InRange_iff _ _).mp h2
      obtain ⟨o1, -⟩ := offset_spec hfs a1 a2
      obtain ⟨-, o2, -⟩ := offset_spec hfs b1 b2
      cases hm : stepField (offset fs (num a)) (offset fs (num b)) (num c) with
      | error f => rw [hm] at h; simp [Except.map] at h
      | ok mask =>
        rw [hm] at h
        simp only [Except.map, Except.ok.injEq, Prod.mk.injEq, and_true] at h
        rw [← h]
        exact stepField_ne_zero o1 (offset_mono hfs a1 (hrs a b c ha hb hc rfl) b2) (by omega) hm
  · have hu := hal hA
    obtain ⟨u1, u2, -⟩ := Unalias_in_domain hfs hu
    simp only [parseAlias, Except.ok.injEq, Prod.mk.injEq, and_true] at h
    rw [← h]
    exact field_offset_ne_zero hfs ((InRange_iff _ _).mpr ⟨u1, u2⟩)
  · simp only [Except.ok.injEq] at h
    exact parseListLoop_ne_zero hfs _ _ h (by simp) (Or.inl (by
      cases hs : splitComma value.data with
      | nil =>
        exfalso
        cases hd : value.data with
        | nil => rw [hd] at hs; simp [splitComma] at hs
        | cons c t =>
          rw [hd] at hs
          unfold splitComma at hs
          split_ifs at hs
          split at hs <;> simp at hs
      | cons p r => simp))
  · simp at h

/-- The schedules of the named expressions. -/
theorem Parse_single_sched {e tok : String} (h : Fields e = [tok]) {fuel : Nat} {sched : BitCron}
    (hP : Parse fuel e = .ok (some sched, none)) :
    sched ∈ [(⟨1, 1, 1, 1, 127⟩ : BitCron), ⟨1, 1, 1, 4095, 127⟩, ⟨1, 1, 2147483647, 4095, 1⟩,
      ⟨1, 1, 2147483647, 4095, 127⟩, ⟨1, 16777215, 2147483647, 4095, 127⟩] := by
  have hy : ∀ k s, Parse k "@yearly" = .ok (some s, none) → s = ⟨1, 1, 1, 1, 127⟩ := by
    intro k s hs
    cases k with
    | zero =>
      rw [@Parse_single_zero "@yearly" "@yearly" (by decide), lookup_names] at hs
      simp [Option.elim] at hs
    | succ k =>
      rw [@Parse_single "@yearly" "@yearly" (by decide), lookup_names] at hs
      simp only [if_true, Option.elim] at hs
      rw [Parse_yearly] at hs
      simpa using hs.symm
  have hd : ∀ k s, Parse k "@daily" = .ok (some s, none) → s = ⟨1, 1, 2147483647, 4095, 127⟩ := by
    intro k s hs
    cases k with
    | zero =>
      rw [@Parse_single_zero "@daily" "@daily" (by decide), lookup_names] at hs
      simp [Option.elim] at hs
    | succ k =>
      rw [@Parse_single "@daily" "@daily" (by decide), lookup_names] at hs
      simp only [String.reduceEq, if_false, if_true, Option.elim] at hs
      rw [Parse_daily] at hs
      simpa using hs.symm
  cases fuel with
  | zero =>
    rw [Parse_single_zero h] at hP
    cases hl : names.lookup tok <;> rw [hl] at hP <;> simp at hP
  | succ k =>
    rw [Parse_single h, lookup_names] at hP
    split_ifs at hP <;> simp only [Option.elim] at hP
    · rw [Parse_yearly] at hP; simp at hP; simp [← hP]
    · simp [hy k sched hP]
    · rw [Parse_monthly] at hP; simp at hP; simp [← hP]
    · rw [Parse_weekly] at hP; simp at hP; simp [← hP]
    · rw [Parse_daily] at hP; simp at hP; simp [← hP]
    · simp [hd k sched hP]
    · rw [Parse_hourly] at hP; simp at hP; simp [← hP]
    · simp at hP

/-- C7 (as the code has it): on every expression of a single token on which
`Parse` succeeds each of the five masks of the schedule is not zero; and so it
is on every expression of five fields on which `Parse` succeeds and whose fields
are regular: each compiles without error, a token of three letters is an alias
of its domain, and no range or stepped range has its ends in reverse order. -/
theorem masks_nonzero (fuel : Nat) (e : String) (sched : BitCron)
    (h : Parse fuel e = .ok (some sched, none)) :
    ((Fields e).length = 1 →
      sched.minute ≠ 0 ∧ sched.hour ≠ 0 ∧ sched.dom ≠ 0 ∧ sched.month ≠ 0 ∧ sched.dow ≠ 0) ∧
    (∀ f0 f1 f2 f3 f4, Fields e = [f0, f1, f2, f3, f4] →
      regular f0 spec.minute = true → regular f1 spec.hour = true →
      regular f2 spec.dom = true → regular f3 spec.month = true →
      regular f4 spec.dow = true →
      sched.minute ≠ 0 ∧ sched.hour ≠ 0 ∧ sched.dom ≠ 0 ∧ sched.month ≠ 0 ∧ sched.dow ≠ 0) := by
  constructor
  · intro h1
    obtain ⟨tok, ht⟩ := List.length_eq_one.mp h1
    have := Parse_single_sched ht h
    simp only [List.mem_cons, List.mem_singleton, List.not_mem_nil, or_false] at this
    rcases this with rfl | rfl | rfl | rfl | rfl <;> decide
  · intro f0 f1 f2 f3 f4 hf g0 g1 g2 g3 g4
    obtain ⟨m0, h0⟩ := (regular_spec g0).1
    obtain ⟨m1, h1⟩ := (regular_spec g1).1
    obtain ⟨m2, h2⟩ := (regular_spec g2).1
    obtain ⟨m3, h3⟩ := (regular_spec g3).1
    obtain ⟨m4, h4⟩ := (regular_spec g4).1
    rw [Parse_five hf h0 h1 h2 h3 h4] at h
    simp only [Option.isSome_none, Bool.false_eq_true, if_false, Except.ok.injEq, Prod.mk.injEq,
      Option.some.injEq, and_true] at h
    subst h
    exact ⟨parseField_ne_zero (by decide) g0 h0, parseField_ne_zero (by decide) g1 h1,
      parseField_ne_zero (by decide) g2 h2, parseField_ne_zero (by decide) g3 h3,
      parseField_ne_zero (by decide) g4 h4⟩

/-- Witness of C7 on an expression with a step, a range, a list and two aliases. -/
theorem masks_nonzero_witness :
    Parse 0 "*/4 9-17 1,15 jan mon"
      = .ok (some ⟨76861433640456465, 261632, 16385, 1, 2⟩, none) ∧
    (BitCron.mk 76861433640456465 261632 16385 1 2).minute ≠ 0 ∧
    (BitCron.mk 76861433640456465 261632 16385 1 2).hour ≠ 0 ∧
    (BitCron.mk 76861433640456465 261632 16385 1 2).dom ≠ 0 ∧
    (BitCron.mk 76861433640456465 261632 16385 1 2).month ≠ 0 ∧
    (BitCron.mk 76861433640456465 261632 16385 1 2).dow ≠ 0 :=
  ⟨by decide,
    (masks_nonzero 0 "*/4 9-17 1,15 jan mon" ⟨76861433640456465, 261632, 16385, 1, 2⟩
      (by decide)).2 "*/4" "9-17" "1,15" "jan" "mon" (by decide) (by decide) (by decide)
      (by decide) (by decide) (by decide)⟩

/-- C7 as the spec states it fails: a range whose ends are in reverse order and
next to each other, or a stepped range in reverse order, compiles to the mask 0
without error, and `Parse` returns a schedule with that mask. -/
theorem masks_nonzero_counterexample :
    parseField "5-4" spec.minute = .ok (0, none) ∧
    Parse 0 "5-4 * * * *" = .ok (some ⟨0, 16777215, 2147483647, 4095, 127⟩, none) ∧
    Parse 0 "* * * * 5-2/1" = .ok (some ⟨1152921504606846975, 16777215, 2147483647, 4095, 0⟩,
      none) := by
  decide

/-- C6 (the code at failing inputs): `Unalias` reports the unknown alias, and
`parseAlias` drops the error: `parseField` returns the mask of the number 0 of
`Unalias` and no error. -/
theorem parseAlias_drops_error :
    spec.minute.Unalias "abc" = (0, some .noAliases) ∧
    parseField "abc" spec.minute = .ok (1, none) ∧
    parseField "abc" spec.dom = .ok (0, none) ∧
    spec.dow.Unalias "xyz" = (0, some (.notAlias "xyz")) ∧
    parseField "xyz" spec.dow = .ok (1, none) ∧
    parseField "xyz" spec.month = .ok (0, none) := by
  decide

/-- What the code does with every token of three letters that `Unalias` does
not know, in every domain: the error is dropped. -/
theorem parseField_unknown_alias (fs : FieldSpec) (x y z : Char) (hx : isAlpha x = true)
    (hy : isAlpha y = true) (hz : isAlpha z = true) (err : Error)
    (h : fs.Unalias (String.mk [x, y, z]) = (0, some err)) :
    parseField (String.mk [x, y, z]) fs = .ok (field (offset fs 0), none) := by
  rw [parseField_alias hx hy hz, parseAlias, h]

/-! ### The bound on the loop of `stepField` -/

/-- More tests of the condition do not change a result of the loop. -/
theorem stepLoop_fuel (to' step : Nat) :
    ∀ (n k i value m : Nat), stepLoop to' step n i value = .ok m →
      stepLoop to' step (n + k) i value = .ok m := by
  intro n
  induction n with
  | zero => intro k i value m h; simp [stepLoop] at h
  | succ n ih =>
    intro k i value m h
    rw [show n + 1 + k = (n + k) + 1 by omega]
    unfold stepLoop at h ⊢
    split_ifs at h ⊢
    · exact ih _ _ _ _ h
    · exact h

/-- The loop runs out of its `n` tests exactly when its counter stays at or
below `to'` for `n` rounds. -/
theorem stepLoop_error_iff (to' step : Nat) :
    ∀ (n i value : Nat), i < 256 →
      (stepLoop to' step n i value = .error .nonTermination ↔
        ∀ k, k < n → (i + k * step) % 256 ≤ to') := by
  intro n
  induction n with
  | zero => intro i value _; simp [stepLoop]
  | succ n ih =>
    intro i value hi
    unfold stepLoop
    by_cases hle : i ≤ to'
    · rw [if_pos hle, ih _ _ (Nat.mod_lt _ (by norm_num))]
      constructor
      · intro h k hk
        cases k with
        | zero => simpa [Nat.mod_eq_of_lt hi] using hle
        | succ k =>
          have := h k (by omega)
          rw [Nat.mod_add_mod] at this
          rw [show i + (k + 1) * step = i + step + k * step by ring]
          exact this
      · intro h k hk
        have := h (k + 1) (by omega)
        rw [Nat.mod_add_mod, show i + step + k * step = i + (k + 1) * step by ring]
        exact this
    · rw [if_neg hle]
      constructor
      · intro h; simp at h
      · intro h
        have := h 0 (by omega)
        simp [Nat.mod_eq_of_lt hi] at this
        exact absurd this hle

/-- The bound of 256 tests in `stepField` loses nothing: when the loop has not
ended within them it does not end within any number of tests. -/
theorem stepField_nonTermination {i to' step : Nat} (hi : i < 256)
    (h : stepField i to' step = .error .nonTermination) :
    ∀ n value, stepLoop to' step n i value = .error .nonTermination := by
  intro n value
  have h256 := (stepLoop_error_iff to' step 256 i 0 hi).mp h
  rw [stepLoop_error_iff to' step n i value hi]
  intro k _
  have := h256 (k % 256) (Nat.mod_lt _ (by norm_num))
  have e : (i + k * step) % 256 = (i + k % 256 * step) % 256 := by
    conv_lhs => rw [← Nat.div_add_mod k 256]
    rw [Nat.add_mul, Nat.mul_assoc, ← Nat.add_assoc, Nat.add_right_comm,
      Nat.add_mul_mod_self_left]
  rw [e]
  exact this

/-! ### The texts of the seven patterns -/

theorem Every_iff {s : String} : Pattern.Every.MatchString s = true ↔ s.data = ['*'] := by
  rw [MatchString_iff]
  constructor
  · rintro ⟨g, hg⟩
    exact (mem_run_lit.mp hg).1
  · intro h
    exact ⟨[], mem_run_lit.mpr ⟨h, rfl⟩⟩

theorem SingleOrDoubleDigit_iff {s : String} :
    Pattern.SingleOrDoubleDigit.MatchString s = true ↔ digits12 s.data := by
  rw [MatchString_iff]
  constructor
  · rintro ⟨g, hg⟩
    obtain ⟨a, ha, h1, -⟩ := mem_run_sod.mp hg
    rw [h1, List.append_nil]
    exact ha
  · intro h
    exact ⟨[s.data], mem_run_sod.mpr ⟨s.data, h, by simp, rfl⟩⟩

theorem EveryStep_iff {s : String} :
    Pattern.EveryStep.MatchString s = true ↔ ∃ c, digits12 c ∧ s.data = '*' :: '/' :: c := by
  rw [MatchString_iff]
  constructor
  · rintro ⟨g, hg⟩
    obtain ⟨m1, hm1, m2, hm2, h0⟩ := mem_run_cat.mp hg
    have h1 := (mem_run_lit.mp hm1).1
    obtain ⟨m3, hm3, m4, hm4, rfl⟩ := mem_run_cat.mp hm2
    have h3 := (mem_run_lit.mp hm3).1
    obtain ⟨c, hc, h4, -⟩ := mem_run_sod.mp hm4
    have e : m4.2 = [] := (Prod.mk.inj h0).2.symm
    rw [e, List.append_nil] at h4
    exact ⟨c, hc, by rw [h1, h3, h4]⟩
  · rintro ⟨c, hc, h⟩
    refine ⟨[c], ?_⟩
    rw [h]
    exact mem_run_cat.mpr ⟨([], '/' :: c), mem_run_lit.mpr ⟨rfl, rfl⟩, ([c], []),
      mem_run_cat.mpr ⟨([], c), mem_run_lit.mpr ⟨rfl, rfl⟩, ([c], []),
        mem_run_sod.mpr ⟨c, hc, by simp, rfl⟩, rfl⟩, rfl⟩

theorem Range_iff {s : String} :
    Pattern.Range.MatchString s = true ↔
      ∃ a b, digits12 a ∧ digits12 b ∧ s.data = a ++ '-' :: b := by
  constructor
  · intro h
    obtain ⟨a, b, ha, hb, rfl⟩ := Range_inv h
    exact ⟨a, b, ha, hb, rfl⟩
  · rintro ⟨a, b, ha, hb, h⟩
    have e : s = String.mk (a ++ '-' :: b) := String.ext h
    rw [e, MatchString_iff]
    refine ⟨[a, b], ?_⟩
    exact mem_run_cat.mpr ⟨([a], '-' :: b), mem_run_sod.mpr ⟨a, ha, rfl, rfl⟩, ([b], []),
      mem_run_cat.mpr ⟨([], b), mem_run_lit.mpr ⟨rfl, rfl⟩, ([b], []),
        mem_run_sod.mpr ⟨b, hb, by simp, rfl⟩, rfl⟩, rfl⟩

theorem RangeStep_iff {s : String} :
    Pattern.RangeStep.MatchString s = true ↔
      ∃ a b c, digits12 a ∧ digits12 b ∧ digits12 c ∧ s.data = a ++ '-' :: (b ++ '/' :: c) := by
  constructor
  · intro h
    obtain ⟨a, b, c, ha, hb, hc, rfl⟩ := RangeStep_inv h
    exact ⟨a, b, c, ha, hb, hc, rfl⟩
  · rintro ⟨a, b, c, ha, hb, hc, h⟩
    have e : s = String.mk (a ++ '-' :: (b ++ '/' :: c)) := String.ext h
    rw [e, MatchString_iff]
    refine ⟨[a, b, c], ?_⟩
    exact mem_run_cat.mpr ⟨([a, b], '/' :: c),
      mem_run_cat.mpr ⟨([a], '-' :: (b ++ '/' :: c)), mem_run_sod.mpr ⟨a, ha, rfl, rfl⟩,
        ([b], '/' :: c),
        mem_run_cat.mpr ⟨([], b ++ '/' :: c), mem_run_lit.mpr ⟨rfl, rfl⟩, ([b], '/' :: c),
          mem_run_sod.mpr ⟨b, hb, rfl, rfl⟩, rfl⟩, rfl⟩,
      ([c], []),
      mem_run_cat.mpr ⟨([], c), mem_run_lit.mpr ⟨rfl, rfl⟩, ([c], []),
        mem_run_sod.mpr ⟨c, hc, by simp, rfl⟩, rfl⟩, rfl⟩

theorem Alias_iff {s : String} :
    Pattern.Alias.MatchString s = true ↔
      ∃ x y z, isAlpha x = true ∧ isAlpha y = true ∧ isAlpha z = true ∧ s.data = [x, y, z] := by
  rw [MatchString_iff]
  constructor
  · rintro ⟨g, hg⟩
    obtain ⟨m0, hm0, h0⟩ := mem_run_group.mp hg
    obtain ⟨m1, hm1, m2, hm2, rfl⟩ := mem_run_cat.mp hm0
    obtain ⟨x, hx, h1, -⟩ := mem_run_cls.mp hm1
    obtain ⟨m3, hm3, m4, hm4, rfl⟩ := mem_run_cat.mp hm2
    obtain ⟨y, hy, h3, -⟩ := mem_run_cls.mp hm3
    obtain ⟨z, hz, h4, -⟩ := mem_run_cls.mp hm4
    have e : m4.2 = [] := (Prod.mk.inj h0).2.symm
    rw [e] at h4
    exact ⟨x, y, z, hx, hy, hz, by rw [h1, h3, h4]⟩
  · rintro ⟨x, y, z, hx, hy, hz, h⟩
    rw [h]
    refine ⟨[[x, y, z]], ?_⟩
    refine mem_run_group.mpr ⟨([], []), ?_, by simp⟩
    exact mem_run_cat.mpr ⟨([], [y, z]), mem_run_cls.mpr ⟨x, hx, rfl, rfl⟩, ([], []),
      mem_run_cat.mpr ⟨([], [z]), mem_run_cls.mpr ⟨y, hy, rfl, rfl⟩, ([], []),
        mem_run_cls.mpr ⟨z, hz, rfl, rfl⟩, rfl⟩, rfl⟩

theorem starLoop_spaces_inv :
    ∀ (n : Nat) (s : List Char) (m : List (List Char) × List Char),
      m ∈ starLoop (fun u => (Re.cls isReSpace).run u) n s →
      ∃ ws, (∀ c ∈ ws, isReSpace c = true) ∧ s = ws ++ m.2 := by
  intro n
  induction n with
  | zero =>
    intro s m h
    simp only [starLoop, List.mem_singleton] at h
    exact ⟨[], by simp, by rw [h]; rfl⟩
  | succ n ih =>
    intro s m h
    simp only [starLoop, List.mem_append, List.mem_flatMap, List.mem_singleton] at h
    rcases h with ⟨m1, hm1, h2⟩ | h
    · obtain ⟨x, hx, h1, -⟩ := mem_run_cls.mp hm1
      split_ifs at h2
      · obtain ⟨ws, hws, e⟩ := ih _ _ h2
        refine ⟨x :: ws, ?_, by rw [h1, e]; rfl⟩
        intro c hc
        rcases List.mem_cons.mp hc with rfl | hc
        · exact hx
        · exact hws c hc
      · simp at h2
    · exact ⟨[], by simp, by rw [h]; rfl⟩

/-- A match of one further element of a list: a comma, white space and a number. -/
theorem item_run_inv {s : List Char} {m : List (List Char) × List Char}
    (h : m ∈ (Re.cat (.lit ',') (.cat (.star (.cls isReSpace)) singleOrDoubleDigit)).run s) :
    ∃ ws a, (∀ c ∈ ws, isReSpace c = true) ∧ digits12 a ∧ s = ',' :: (ws ++ a) ++ m.2 := by
  obtain ⟨m1, hm1, m2, hm2, rfl⟩ := mem_run_cat.mp h
  have h1 := (mem_run_lit.mp hm1).1
  obtain ⟨m3, hm3, m4, hm4, rfl⟩ := mem_run_cat.mp hm2
  simp only [Re.run] at hm3
  obtain ⟨ws, hws, e⟩ := starLoop_spaces_inv _ _ _ hm3
  obtain ⟨a, ha, h4, -⟩ := mem_run_sod.mp hm4
  exact ⟨ws, a, hws, ha, by rw [h1, e, h4]; simp⟩

theorem starLoop_items_inv :
    ∀ (n : Nat) (s : List Char) (m : List (List Char) × List Char),
      m ∈ starLoop (fun u =>
        (Re.cat (.lit ',') (.cat (.star (.cls isReSpace)) singleOrDoubleDigit)).run u) n s →
      ∃ items : List (List Char × List Char),
        (∀ it ∈ items, (∀ c ∈ it.1, isReSpace c = true) ∧ digits12 it.2) ∧
        s = (items.flatMap fun it => ',' :: (it.1 ++ it.2)) ++ m.2 := by
  intro n
  induction n with
  | zero =>
    intro s m h
    simp only [starLoop, List.mem_singleton] at h
    exact ⟨[], by simp, by rw [h]; rfl⟩
  | succ n ih =>
    intro s m h
    simp only [starLoop, List.mem_append, List.mem_flatMap, List.mem_singleton] at h
    rcases h with ⟨m1, hm1, h2⟩ | h
    · obtain ⟨ws, a, hws, ha, e1⟩ := item_run_inv hm1
      split_ifs at h2
      · obtain ⟨items, hi, e⟩ := ih _ _ h2
        refine ⟨(ws, a) :: items, ?_, ?_⟩
        · intro it hit
          rcases List.mem_cons.mp hit with rfl | hit
          · exact ⟨hws, ha⟩
          · exact hi it hit
        · rw [e1, e]
          simp
      · simp at h2
    · exact ⟨[], by simp, by rw [h]; rfl⟩

theorem List_iff {s : String} :
    Pattern.List.MatchString s = true ↔
      ∃ a0 items, digits12 a0 ∧
        (∀ it ∈ items, (∀ c ∈ it.1, isReSpace c = true) ∧ digits12 it.2) ∧
        s.data = listText a0 items := by
  constructor
  · intro h
    obtain ⟨g, hg⟩ := MatchString_iff.mp h
    obtain ⟨m1, hm1, m2, hm2, h0⟩ := mem_run_cat.mp hg
    obtain ⟨a0, ha0, h1, -⟩ := mem_run_sod.mp hm1
    simp only [Re.run] at hm2
    obtain ⟨items, hi, e⟩ := starLoop_items_inv _ _ _ hm2
    have e2 : m2.2 = [] := (Prod.mk.inj h0).2.symm
    rw [e2, List.append_nil] at e
    exact ⟨a0, items, ha0, hi, by rw [h1, e]; rfl⟩
  · rintro ⟨a0, items, h0, hi, h⟩
    rw [MatchString_iff, h]
    exact list_run a0 items h0 hi

/-! ### Malformed fields -/

/-- Dispatch of a text that no pattern matches. -/
theorem parseField_noPattern {value : String} (fs : FieldSpec)
    (h1 : Pattern.Every.MatchString value = false)
    (h2 : Pattern.SingleOrDoubleDigit.MatchString value = false)
    (h3 : Pattern.EveryStep.MatchString value = false)
    (h4 : Pattern.Range.MatchString value = false)
    (h5 : Pattern.RangeStep.MatchString value = false)
    (h6 : Pattern.Alias.MatchString value = false)
    (h7 : Pattern.List.MatchString value = false) :
    parseField value fs = .ok (0, some (.noPattern value)) := by
  simp [parseField, h1, h2, h3, h4, h5, h6, h7]

/-- C11: for every field domain and every text that has none of the seven
shapes (the wildcard, a number of one or two digits, a stepped wildcard, a
range, a stepped range, three letters, a comma list of numbers of one or two
digits, white space allowed after a comma as in the pattern), `parseField`
returns the mask 0 and the error that no pattern matches; so it does on
`1,2,3,` and on `123`, `**` and `a,1,2,3`. -/
theorem parseField_malformed (fs : FieldSpec) (value : String) :
    (value.data ≠ ['*'] → ¬ digits12 value.data →
      (¬ ∃ c, digits12 c ∧ value.data = '*' :: '/' :: c) →
      (¬ ∃ a b, digits12 a ∧ digits12 b ∧ value.data = a ++ '-' :: b) →
      (¬ ∃ a b c, digits12 a ∧ digits12 b ∧ digits12 c ∧
        value.data = a ++ '-' :: (b ++ '/' :: c)) →
      (¬ ∃ x y z, isAlpha x = true ∧ isAlpha y = true ∧ isAlpha z = true ∧
        value.data = [x, y, z]) →
      (¬ ∃ a0 items, digits12 a0 ∧
        (∀ it ∈ items, (∀ c ∈ it.1, isReSpace c = true) ∧ digits12 it.2) ∧
        value.data = listText a0 items) →
      parseField value fs = .ok (0, some (.noPattern value))) ∧
    parseField "1,2,3," fs = .ok (0, some (.noPattern "1,2,3,")) ∧
    parseField "123" fs = .ok (0, some (.noPattern "123")) ∧
    parseField "**" fs = .ok (0, some (.noPattern "**")) ∧
    parseField "a,1,2,3" fs = .ok (0, some (.noPattern "a,1,2,3")) := by
  refine ⟨fun h1 h2 h3 h4 h5 h6 h7 => ?_, ?_, ?_, ?_, ?_⟩
  · apply parseField_noPattern
    · rw [Bool.eq_false_iff]; exact fun h => h1 (Every_iff.mp h)
    · rw [Bool.eq_false_iff]; exact fun h => h2 (SingleOrDoubleDigit_iff.mp h)
    · rw [Bool.eq_false_iff]; exact fun h => h3 (EveryStep_iff.mp h)
    · rw [Bool.eq_false_iff]; exact fun h => h4 (Range_iff.mp h)
    · rw [Bool.eq_false_iff]; exact fun h => h5 (RangeStep_iff.mp h)
    · rw [Bool.eq_false_iff]; exact fun h => h6 (Alias_iff.mp h)
    · rw [Bool.eq_false_iff]; exact fun h => h7 (List_iff.mp h)
  · exact parseField_noPattern fs (by decide) (by decide) (by decide) (by decide) (by decide)
      (by decide) (by decide)
  · exact parseField_noPattern fs (by decide) (by decide) (by decide) (by decide) (by decide)
      (by decide) (by decide)
  · exact parseField_noPattern fs (by decide) (by decide) (by decide) (by decide) (by decide)
      (by decide) (by decide)
  · exact parseField_noPattern fs (by decide) (by decide) (by decide) (by decide) (by decide)
      (by decide) (by decide)

/-- Witness of C11 on the text `1-2-3` in the hours. -/
theorem parseField_malformed_witness :
    parseField "1-2-3" spec.hour = .ok (0, some (.noPattern "1-2-3")) :=
  (parseField_malformed spec.hour "1-2-3").1
    (by decide)
    (fun h => absurd (SingleOrDoubleDigit_iff.mpr h) (by decide))
    (fun h => absurd (EveryStep_iff.mpr h) (by decide))
    (fun h => absurd (Range_iff.mpr h) (by decide))
    (fun h => absurd (RangeStep_iff.mpr h) (by decide))
    (fun h => absurd (Alias_iff.mpr h) (by decide))
    (fun h => absurd (List_iff.mpr h) (by decide))

/-! ### Lists, aliases and steps of one -/

/-- A list text whose numbers are all in the domain compiles to the bits of their offsets. -/
theorem parseList_in_range {fs : FieldSpec} {a0 : List Char}
    {items : List (List Char × List Char)} (h0 : digits12 a0)
    (hi : ∀ it ∈ items, (∀ c ∈ it.1, isReSpace c = true) ∧ digits12 it.2)
    (hin : ∀ a ∈ a0 :: items.map Prod.snd, fs.InRange (num a) = true) :
    parseList (String.mk (listText a0 items)) fs =
      (listField ((a0 :: items.map Prod.snd).map fun a => offset fs (num a)), none) := by
  have ht0 : TrimSpace a0 = a0 := by
    have := TrimSpace_digits [] a0 (by simp) h0
    simpa using this
  have hparts : ∀ p ∈ a0 :: items.map (fun it => it.1 ++ it.2), digits12 (TrimSpace p) ∧
      fs.InRange (num (TrimSpace p)) = true := by
    intro p hp
    rcases List.mem_cons.mp hp with rfl | hp
    · rw [ht0]
      exact ⟨h0, hin p (List.mem_cons_self _ _)⟩
    · obtain ⟨it, hit, rfl⟩ := List.mem_map.mp hp
      obtain ⟨hws, hd⟩ := hi it hit
      rw [TrimSpace_digits it.1 it.2 hws hd]
      exact ⟨hd, hin it.2 (List.mem_cons_of_mem _ (List.mem_map.mpr ⟨it, hit, rfl⟩))⟩
  unfold parseList
  rw [show (String.mk (listText a0 items)).data = listText a0 items from rfl,
    splitComma_listText a0 items h0 hi, parseListLoop_digits fs _ _ fun p hp => (hparts p hp).1]
  have hnone : List.find? (fun p => !fs.InRange (num (TrimSpace p)))
      (a0 :: items.map fun it => it.1 ++ it.2) = none := by
    rw [List.find?_eq_none]
    intro p hp
    simp [(hparts p hp).2]
  rw [hnone]
  simp only [List.nil_append, List.map_cons, List.map_map, ht0]
  congr 3
  apply List.map_congr_left
  intro it hit
  simp only [Function.comp]
  rw [TrimSpace_digits it.1 it.2 (hi it hit).1 (hi it hit).2]

theorem foldl_or_testBit (f : List Char → Nat) (l : List (List Char)) (init j : Nat) :
    (l.foldl (fun acc a => acc ||| f a) init).testBit j = true ↔
      init.testBit j = true ∨ ∃ a ∈ l, (f a).testBit j = true := by
  induction l generalizing init with
  | nil => simp
  | cons a r ih =>
    rw [List.foldl_cons, ih, Nat.testBit_or, Bool.or_eq_true]
    simp only [List.mem_cons, exists_eq_or_imp]
    tauto

/-- C12: for each of the five domains and every comma list of two or more
numbers of the domain, `parseList` (to which `parseField` sends the text)
returns the bitwise OR of the masks of its elements as single values: bit
position `k` is set exactly when some element has offset `k`. So a list with
the same elements, in another order or with repetitions, has the same mask. -/
theorem parseList_union (fs : FieldSpec) (hfs : fs ∈ spec.toList) (a0 : List Char)
    (items : List (List Char × List Char)) (h0 : digits12 a0) (hne : items ≠ [])
    (hi : ∀ it ∈ items, (∀ c ∈ it.1, isReSpace c = true) ∧ digits12 it.2)
    (hin : ∀ a ∈ a0 :: items.map Prod.snd, fs.InRange (num a) = true) :
    ∃ mask, parseList (String.mk (listText a0 items)) fs = (mask, none) ∧
      parseField (String.mk (listText a0 items)) fs = .ok (mask, none) ∧
      (∀ j, mask.testBit j = true ↔
        ∃ a ∈ a0 :: items.map Prod.snd, j + 1 = offset fs (num a)) ∧
      mask = (a0 :: items.map Prod.snd).foldl
        (fun acc a => acc ||| (parseSingleOrDoubleDigit (String.mk a) fs).1) 0 ∧
      (∀ b0 others, digits12 b0 → others ≠ [] →
        (∀ it ∈ others, (∀ c ∈ it.1, isReSpace c = true) ∧ digits12 it.2) →
        (∀ a, a ∈ b0 :: others.map Prod.snd ↔ a ∈ a0 :: items.map Prod.snd) →
        parseField (String.mk (listText b0 others)) fs = .ok (mask, none)) := by
  have bits : ∀ (b0 : List Char) (others : List (List Char × List Char)),
      (∀ a ∈ b0 :: others.map Prod.snd, fs.InRange (num a) = true) → ∀ j,
      (listField ((b0 :: others.map Prod.snd).map fun a => offset fs (num a))).testBit j = true ↔
        ∃ a ∈ b0 :: others.map Prod.snd, j + 1 = offset fs (num a) := by
    intro b0 others hb j
    rw [listField_testBit]
    constructor
    · rintro ⟨v, hv, hbit⟩
      obtain ⟨a, ha, rfl⟩ := List.mem_map.mp hv
      obtain ⟨h1, h2⟩ := (InRange_iff _ _).mp (hb a ha)
      obtain ⟨o1, o2, -⟩ := offset_spec hfs h1 h2
      rw [testBit_bit o1 (by omega)] at hbit
      exact ⟨a, ha, by simpa using hbit⟩
    · rintro ⟨a, ha, hj⟩
      obtain ⟨h1, h2⟩ := (InRange_iff _ _).mp (hb a ha)
      obtain ⟨o1, o2, -⟩ := offset_spec hfs h1 h2
      refine ⟨_, List.mem_map.mpr ⟨a, ha, rfl⟩, ?_⟩
      rw [testBit_bit o1 (by omega)]
      simpa using hj
  have hsingle : ∀ a ∈ a0 :: items.map Prod.snd,
      (parseSingleOrDoubleDigit (String.mk a) fs).1 = bit (offset fs (num a)) := by
    intro a ha
    have hd : digits12 a := by
      rcases List.mem_cons.mp ha with rfl | ha
      · exact h0
      · obtain ⟨it, hit, rfl⟩ := List.mem_map.mp ha
        exact (hi it hit).2
    rw [parseSingleOrDoubleDigit_digits hd, hin a ha]
    rfl
  refine ⟨_, parseList_in_range h0 hi hin, ?_, bits a0 items hin, ?_, ?_⟩
  · rw [parseField_list h0 hne hi, parseList_in_range h0 hi hin]
  · apply Nat.eq_of_testBit_eq
    intro j
    rw [Bool.eq_iff_iff, bits a0 items hin j, foldl_or_testBit]
    simp only [Nat.zero_testBit, Bool.false_eq_true, false_or]
    constructor
    · rintro ⟨a, ha, hj⟩
      obtain ⟨h1, h2⟩ := (InRange_iff _ _).mp (hin a ha)
      obtain ⟨o1, o2, -⟩ := offset_spec hfs h1 h2
      refine ⟨a, ha, ?_⟩
      rw [hsingle a ha, testBit_bit o1 (by omega)]
      simpa using hj
    · rintro ⟨a, ha, hj⟩
      obtain ⟨h1, h2⟩ := (InRange_iff _ _).mp (hin a ha)
      obtain ⟨o1, o2, -⟩ := offset_spec hfs h1 h2
      rw [hsingle a ha, testBit_bit o1 (by omega)] at hj
      exact ⟨a, ha, by simpa using hj⟩
  · intro b0 others hb0 hone hbi hsame
    have hbin : ∀ a ∈ b0 :: others.map Prod.snd, fs.InRange (num a) = true :=
      fun a ha => hin a ((hsame a).mp ha)
    rw [parseField_list hb0 hone hbi, parseList_in_range hb0 hbi hbin]
    congr 2
    apply Nat.eq_of_testBit_eq
    intro j
    rw [Bool.eq_iff_iff, bits b0 others hbin j, bits a0 items hin j]
    constructor
    · rintro ⟨a, ha, hj⟩
      exact ⟨a, (hsame a).mp ha, hj⟩
    · rintro ⟨a, ha, hj⟩
      exact ⟨a, (hsame a).mpr ha, hj⟩

/-- Witness of C12 on the list `1, 2, 3` in the days of the month, a case of the tests. -/
theorem parseList_union_witness :
    ∃ mask, parseList (String.mk (listText ['1'] [([' '], ['2']), ([' '], ['3'])])) spec.dom
        = (mask, none) ∧
      parseField (String.mk (listText ['1'] [([' '], ['2']), ([' '], ['3'])])) spec.dom
        = .ok (mask, none) ∧
      (∀ j, mask.testBit j = true ↔
        ∃ a ∈ ['1'] :: [([' '], ['2']), ([' '], ['3'])].map Prod.snd,
          j + 1 = offset spec.dom (num a)) ∧
      mask = (['1'] :: [([' '], ['2']), ([' '], ['3'])].map Prod.snd).foldl
        (fun acc a => acc ||| (parseSingleOrDoubleDigit (String.mk a) spec.dom).1) 0 ∧
      (∀ b0 others, digits12 b0 → others ≠ [] →
        (∀ it ∈ others, (∀ c ∈ it.1, isReSpace c = true) ∧ digits12 it.2) →
        (∀ a, a ∈ b0 :: others.map Prod.snd ↔
          a ∈ ['1'] :: [([' '], ['2']), ([' '], ['3'])].map Prod.snd) →
        parseField (String.mk (listText b0 others)) spec.dom = .ok (mask, none)) :=
  parseList_union spec.dom (by decide) ['1'] [([' '], ['2']), ([' '], ['3'])]
    (Or.inl ⟨'1', rfl, by decide⟩) (by decide)
    (by
      intro it hit
      simp only [List.mem_cons, List.mem_singleton, List.not_mem_nil, or_false] at hit
      rcases hit with rfl | rfl
      · exact ⟨by decide, Or.inl ⟨'2', rfl, by decide⟩⟩
      · exact ⟨by decide, Or.inl ⟨'3', rfl, by decide⟩⟩)
    (by decide)

/-- C13: in the month and in the day of the week, every name of the alias table
stands for a number of the domain, and `parseField` on the name returns the
mask that it returns on the decimal text of that number: the single bit at the
offset of the number. -/
theorem alias_as_number (fs : FieldSpec) (hfs : fs ∈ [spec.month, spec.dow])
    (p : String × Nat) (hp : p ∈ fs.Aliases.getD []) :
    fs.Min ≤ p.2 ∧ p.2 ≤ fs.Max ∧
    parseField p.1 fs = .ok (field (offset fs p.2), none) ∧
    parseField (toString p.2) fs = .ok (field (offset fs p.2), none) := by
  have key : ∀ fs ∈ [spec.month, spec.dow], ∀ p ∈ fs.Aliases.getD [],
      fs.Min ≤ p.2 ∧ p.2 ≤ fs.Max ∧
      parseField p.1 fs = .ok (field (offset fs p.2), none) ∧
      parseField (toString p.2) fs = .ok (field (offset fs p.2), none) := by
    decide
  exact key fs hfs p hp

/-- Witness of C13 on `mon` in the day of the week. -/
theorem alias_as_number_witness :
    spec.dow.Min ≤ 1 ∧ 1 ≤ spec.dow.Max ∧
    parseField "mon" spec.dow = .ok (field (offset spec.dow 1), none) ∧
    parseField (toString 1) spec.dow = .ok (field (offset spec.dow 1), none) :=
  alias_as_number spec.dow (by decide) ("mon", 1) (by decide)

/-- The stride of step 1 between two positions in order is the range. -/
theorem stepField_one {p q : Nat} (h1 : 1 ≤ p) (h2 : p ≤ q) (h3 : q ≤ 64) :
    stepField p q 1 = .ok (rangeField p q) := by
  obtain ⟨mask, hm, hb⟩ := @stepField_ok p q 1 (le_refl 1) (by norm_num) h1 h3
  rw [hm]
  congr 1
  apply Nat.eq_of_testBit_eq
  intro j
  rw [hb j, testBit_rangeField h1 h2 h3]
  simp

/-- C14 (as the code has it): for each of the five domains and all values
`a ≤ b` of the domain, the stepped range with step 1 compiles to the mask of
the plain range, and `*/1` compiles to the mask of `*`. -/
theorem step_one_is_range (fs : FieldSpec) (hfs : fs ∈ spec.toList) (a b : Nat)
    (hmin : fs.Min ≤ a) (hab : a ≤ b) (hmax : b ≤ fs.Max) :
    parseRangeStep (toString a ++ "-" ++ toString b ++ "/" ++ "1") fs
      = parseRange (toString a ++ "-" ++ toString b) fs ∧
    (∃ mask, parseRange (toString a ++ "-" ++ toString b) fs = .ok (mask, none)) ∧
    parseField (toString a ++ "-" ++ toString b ++ "/" ++ "1") fs
      = parseField (toString a ++ "-" ++ toString b) fs ∧
    parseEveryStep "*/1" fs = .ok (parseEvery fs) ∧
    parseField "*/1" fs = parseField "*" fs := by
  obtain ⟨a1, a2, hva, hina, -, -⟩ := offset_spec hfs hmin (hab.trans hmax)
  obtain ⟨b1, b2, hvb, hinb, -, -⟩ := offset_spec hfs (hmin.trans hab) hmax
  obtain ⟨hda, hna⟩ := toString_digits12 a hva
  obtain ⟨hdb, hnb⟩ := toString_digits12 b hvb
  have hd1 : digits12 ['1'] := Or.inl ⟨'1', rfl, by decide⟩
  have hn1 : num ['1'] = 1 := by decide
  have hmono := offset_mono hfs hmin hab hmax
  have hr : parseRange (toString a ++ "-" ++ toString b) fs =
      .ok (rangeField (offset fs a) (offset fs b), none) := by
    rw [range_text, parseRange_digits hda hdb, hna, hnb, hina, hinb]; rfl
  have hs : parseRangeStep (toString a ++ "-" ++ toString b ++ "/" ++ "1") fs =
      .ok (rangeField (offset fs a) (offset fs b), none) := by
    rw [rangeStep_text, show ("1" : String).data = ['1'] from rfl,
      parseRangeStep_digits hda hdb hd1, hna, hnb, hn1, hina, hinb,
      stepField_one a1 hmono (by omega)]
    rfl
  have hmm := spec_min_le_max hfs
  obtain ⟨p1, -⟩ := offset_spec hfs (le_refl fs.Min) hmm
  obtain ⟨-, q2, -⟩ := offset_spec hfs hmm (le_refl fs.Max)
  have he : parseEveryStep "*/1" fs = .ok (parseEvery fs) := by
    rw [show ("*/1" : String) = String.mk ('*' :: '/' :: ['1']) from rfl,
      parseEveryStep_digits hd1, hn1,
      stepField_one p1 (offset_mono hfs (le_refl fs.Min) hmm (le_refl fs.Max)) (by omega)]
    rfl
  refine ⟨by rw [hs, hr], ⟨_, hr⟩, ?_, he, ?_⟩
  · rw [rangeStep_text, show ("1" : String).data = ['1'] from rfl,
      parseField_rangeStep hda hdb hd1, ← show ("1" : String).data = ['1'] from rfl,
      ← rangeStep_text, hs, range_text, parseField_range hda hdb, ← range_text, hr]
  · rw [parseField_every, show ("*/1" : String) = String.mk ('*' :: '/' :: ['1']) from rfl,
      parseField_everyStep hd1, ← show ("*/1" : String) = String.mk ('*' :: '/' :: ['1']) from rfl,
      he]

/-- Witness of C14 on the minutes from 3 to 5. -/
theorem step_one_is_range_witness :
    parseRangeStep (toString 3 ++ "-" ++ toString 5 ++ "/" ++ "1") spec.minute
      = parseRange (toString 3 ++ "-" ++ toString 5) spec.minute :=
  (step_one_is_range spec.minute (by decide) 3 5 (by decide) (by decide) (by decide)).1

/-- C14 as the spec states it fails for values in reverse order: the stepped
range `5-2/1` is empty and the range `5-2` is not. -/
theorem step_one_is_range_counterexample :
    parseRangeStep "5-2/1" spec.minute = .ok (0, none) ∧
    parseRange "5-2" spec.minute = .ok (24, none) ∧
    parseField "5-2/1" spec.minute = .ok (0, none) ∧
    parseField "5-2" spec.minute = .ok (24, none) := by
  decide

/-! ### The width of the masks -/

theorem bit_zero_eq : bit 0 = 0 := by decide

theorem offset_le_width {fs : FieldSpec} (hfs : fs ∈ spec.toList) {v : Nat} (h1 : fs.Min ≤ v)
    (h2 : v ≤ fs.Max) :
    1 ≤ offset fs v ∧ offset fs v ≤ fs.Max - fs.Min + 1 ∧ fs.Max - fs.Min + 1 ≤ 60 := by
  obtain ⟨o1, o2, -, -, ho, ho7⟩ := offset_spec hfs h1 h2
  have hw : fs.Max - fs.Min + 1 ≤ 60 := by
    simp only [fields.toList, List.mem_cons, List.mem_singleton, List.not_mem_nil,
      or_false] at hfs
    rcases hfs with rfl | rfl | rfl | rfl | rfl <;> decide
  refine ⟨o1, ?_, hw⟩
  by_cases h : fs = spec.dow ∧ v = 7
  · rw [ho7 h.1 h.2]
    obtain ⟨rfl, -⟩ := h
    decide
  · rw [ho h]
    omega

/-- The loop of `stepField` sets no bit above the position `to'`. -/
theorem stepLoop_upper (to' step : Nat) (ht : to' ≤ 64) :
    ∀ (n i value m : Nat), stepLoop to' step n i value = .ok m →
      ∀ j, m.testBit j = true → value.testBit j = true ∨ j + 1 ≤ to' := by
  intro n
  induction n with
  | zero => intro i value m h; simp [stepLoop] at h
  | succ n ih =>
    intro i value m h j hj
    unfold stepLoop at h
    split_ifs at h with hle
    · rcases ih _ _ _ h j hj with h1 | h1
      · rw [Nat.testBit_or, Bool.or_eq_true] at h1
        rcases h1 with h1 | h1
        · exact Or.inl h1
        · right
          by_cases hi : i = 0
          · rw [hi, bit_zero_eq] at h1
            simp at h1
          · rw [testBit_bit (by omega) (by omega)] at h1
            simp only [decide_eq_true_eq] at h1
            omega
      · exact Or.inr h1
    · simp only [Except.ok.injEq] at h
      rw [← h] at hj
      exact Or.inl hj

theorem stepField_upper {p q step m : Nat} (hq : q ≤ 64) (h : stepField p q step = .ok m)
    {j : Nat} (hj : m.testBit j = true) : j + 1 ≤ q := by
  rcases stepLoop_upper q step hq _ _ _ _ h j hj with h1 | h1
  · simp at h1
  · exact h1

theorem rangeField_upper {p q w : Nat} (hp1 : 1 ≤ p) (hp : p ≤ w) (hq : q ≤ w) (hw : w ≤ 64)
    {j : Nat} (hj : (rangeField p q).testBit j = true) : j + 1 ≤ w := by
  unfold rangeField at hj
  split_ifs at hj with h
  · rw [field, testBit_bit hp1 (by omega)] at hj
    simp only [decide_eq_true_eq] at hj
    omega
  · have hm : (p + 255) % 256 = p - 1 := by omega
    rw [hm, Nat.testBit_xor, testBit_bits (by omega), testBit_bits (by omega)] at hj
    by_contra hc
    have e1 : decide (j + 1 ≤ q) = false := by simp; omega
    have e2 : decide (j + 1 ≤ p - 1) = false := by simp; omega
    rw [e1, e2] at hj
    simp at hj

theorem field_offset_upper {fs : FieldSpec} (hfs : fs ∈ spec.toList) {v : Nat}
    (h : fs.InRange v = true) {j : Nat} (hj : (field (offset fs v)).testBit j = true) :
    j + 1 ≤ fs.Max - fs.Min + 1 := by
  obtain ⟨h1, h2⟩ := (InRange_iff fs v).mp h
  obtain ⟨o1, o2, o3⟩ := offset_le_width hfs h1 h2
  rw [field, testBit_bit o1 (by omega)] at hj
  simp only [decide_eq_true_eq] at hj
  omega

/-- The number that `Unalias` returns is that of an alias, or 0 with an error. -/
theorem Unalias_cases (fs : FieldSpec) (name : String) :
    (fs.Unalias name).2 = none ∨ (fs.Unalias name).1 = 0 := by
  unfold FieldSpec.Unalias
  cases fs.Aliases with
  | none => exact Or.inr rfl
  | some m =>
    simp only
    cases m.lookup name with
    | none => exact Or.inr rfl
    | some n => exact Or.inl rfl

theorem field_offset_zero_upper {fs : FieldSpec} (hfs : fs ∈ spec.toList) {j : Nat}
    (hj : (field (offset fs 0)).testBit j = true) : j + 1 ≤ fs.Max - fs.Min + 1 := by
  simp only [fields.toList, List.mem_cons, List.mem_singleton, List.not_mem_nil,
    or_false] at hfs
  have h01 : ∀ m : Nat, (m = 0 ∨ m = 1) → m.testBit j = true → j = 0 := by
    rintro m (rfl | rfl) h
    · simp at h
    · by_contra hne
      rw [show (1 : Nat) = 2 ^ 0 from rfl, Nat.testBit_two_pow] at h
      simp at h
      exact hne h.symm
  rcases hfs with rfl | rfl | rfl | rfl | rfl
  · have := h01 _ (Or.inr (by decide)) hj; subst this; decide
  · have := h01 _ (Or.inr (by decide)) hj; subst this; decide
  · have := h01 _ (Or.inl (by decide)) hj; subst this; decide
  · have := h01 _ (Or.inl (by decide)) hj; subst this; decide
  · have := h01 _ (Or.inr (by decide)) hj; subst this; decide

theorem parseListLoop_upper {fs : FieldSpec} (hfs : fs ∈ spec.toList) {m : Nat}
    {err : Option Error} :
    ∀ (parts : List (List Char)) (values : List Nat),
      parseListLoop fs parts values = (m, err) →
      (∀ v ∈ values, 1 ≤ v ∧ v ≤ fs.Max - fs.Min + 1) →
      ∀ j, m.testBit j = true → j + 1 ≤ fs.Max - fs.Min + 1 := by
  have hw : fs.Max - fs.Min + 1 ≤ 60 :=
    (offset_le_width hfs (le_refl _) (spec_min_le_max hfs)).2.2
  intro parts
  induction parts with
  | nil =>
    intro values h hv j hj
    simp only [parseListLoop, Prod.mk.injEq] at h
    rw [← h.1] at hj
    obtain ⟨v, hvm, hb⟩ := (listField_testBit _ _).mp hj
    obtain ⟨v1, v2⟩ := hv v hvm
    rw [testBit_bit v1 (by omega)] at hb
    simp only [decide_eq_true_eq] at hb
    omega
  | cons p rest ih =>
    intro values h hv j hj
    unfold parseListLoop at h
    simp only at h
    split_ifs at h with h1 h2
    · simp only [Prod.mk.injEq] at h
      rw [← h.1] at hj
      simp at hj
    · simp only [Prod.mk.injEq] at h
      rw [← h.1] at hj
      simp at hj
    · refine ih _ h ?_ j hj
      intro v hvm
      rcases List.mem_append.mp hvm with hvm | hvm
      · exact hv v hvm
      · simp only [List.mem_singleton] at hvm
        subst hvm
        simp only [Bool.not_eq_true', Bool.not_eq_false] at h2
        obtain ⟨h3, h4⟩ := (InRange_iff _ _).mp h2
        obtain ⟨o1, o2, -⟩ := offset_le_width hfs h3 h4
        exact ⟨o1, o2⟩

/-- The bits of a mask that `parseField` returns lie within the width of the domain. -/
theorem parseField_upper {fs : FieldSpec} (hfs : fs ∈ spec.toList) {value : String} {m : Nat}
    {err : Option Error} (h : parseField value fs = .ok (m, err)) {j : Nat}
    (hj : m.testBit j = true) : j + 1 ≤ fs.Max - fs.Min + 1 := by
  have hmm := spec_min_le_max hfs
  obtain ⟨p1, p2, hw⟩ := offset_le_width hfs (le_refl fs.Min) hmm
  obtain ⟨q1, q2, -⟩ := offset_le_width hfs hmm (le_refl fs.Max)
  unfold parseField at h
  split_ifs at h with hE hS hES hR hRS hA hL
  · simp only [parseEvery, Except.ok.injEq, Prod.mk.injEq] at h
    rw [← h.1] at hj
    exact rangeField_upper p1 p2 q2 (by omega) hj
  · simp only [Except.ok.injEq] at h
    unfold parseSingleOrDoubleDigit at h
    simp only at h
    split_ifs at h with h1 h2
    · simp only [Prod.mk.injEq] at h
      rw [← h.1] at hj
      simp at hj
    · simp only [Prod.mk.injEq] at h
      rw [← h.1] at hj
      simp at hj
    · simp only [Prod.mk.injEq] at h
      rw [← h.1] at hj
      exact field_offset_upper hfs (by simpa using h2) hj
  · simp only [parseEveryStep, bind, Except.bind, pure, Except.pure] at h
    split at h
    · simp at h
    · split_ifs at h with h1
      · simp only [Except.ok.injEq, Prod.mk.injEq] at h
        rw [← h.1] at hj
        simp at hj
      · split at h
        · simp at h
        · next mask hm =>
          simp only [Except.ok.injEq, Prod.mk.injEq] at h
          rw [← h.1] at hj
          have := stepField_upper (by omega) hm hj
          omega
  · obtain ⟨a, b, ha, hb, rfl⟩ := Range_inv hR
    rw [parseRange_digits ha hb] at h
    simp only [Except.ok.injEq] at h
    split_ifs at h with h1 h2
    · simp only [Prod.mk.injEq] at h
      rw [← h.1] at hj
      simp at hj
    · simp only [Prod.mk.injEq] at h
      rw [← h.1] at hj
      simp at hj
    · simp only [Prod.mk.injEq] at h
      simp only [Bool.not_eq_true', Bool.not_eq_false] at h1 h2
      obtain ⟨a1, a2⟩ := (InRange_iff _ _).mp h1
      obtain ⟨b1, b2⟩ := (InRange_iff _ _).mp h2
      obtain ⟨o1, o2, -⟩ := offset_le_width hfs a1 a2
      obtain ⟨-, o4, -⟩ := offset_le_width hfs b1 b2
      rw [← h.1] at hj
      exact rangeField_upper o1 o2 o4 (by omega) hj
  · obtain ⟨a, b, c, ha, hb, hc, rfl⟩ := RangeStep_inv hRS
    rw [parseRangeStep_digits ha hb hc] at h
    split_ifs at h with h1 h2
    · simp only [Except.ok.injEq, Prod.mk.injEq] at h
      rw [← h.1] at hj
      simp at hj
    · simp only [Except.ok.injEq, Prod.mk.injEq] at h
      rw [← h.1] at hj
      simp at hj
    · simp only [Bool.not_eq_true', Bool.not_eq_false] at h1 h2
      obtain ⟨b1, b2⟩ := (InRange_iff _ _).mp h2
      obtain ⟨-, o4, -⟩ := offset_le_width hfs b1 b2
      cases hm : stepField (offset fs (num a)) (offset fs (num b)) (num c) with
      | error f => rw [hm] at h; simp [Except.map] at h
      | ok mask =>
        rw [hm] at h
        simp only [Except.map, Except.ok.injEq, Prod.mk.injEq] at h
        rw [← h.1] at hj
        have := stepField_upper (by omega) hm hj
        omega
  · simp only [parseAlias, Except.ok.injEq, Prod.mk.injEq] at h
    rw [← h.1] at hj
    rcases Unalias_cases fs value with hu | hu
    · obtain ⟨u1, u2, -⟩ := Unalias_in_domain hfs hu
      exact field_offset_upper hfs ((InRange_iff _ _).mpr ⟨u1, u2⟩) hj
    · rw [hu] at hj
      exact field_offset_zero_upper hfs hj
  · simp only [Except.ok.injEq] at h
    exact parseListLoop_upper hfs _ _ h (by simp) j hj
  · simp only [Except.ok.injEq, Prod.mk.injEq] at h
    rw [← h.1] at hj
    simp at hj

/-- C16: for every field text and each of the five domains, the mask that
`parseField` returns, with or without an error, has no bit set above position
`Max - Min + 1` of the domain, so none above position 60, and is at most
`bits (Max - Min + 1)`. -/
theorem mask_width (fs : FieldSpec) (hfs : fs ∈ spec.toList) (value : String) (m : Nat)
    (err : Option Error) (h : parseField value fs = .ok (m, err)) :
    (∀ j, m.testBit j = true → j + 1 ≤ fs.Max - fs.Min + 1) ∧
    (∀ j, m.testBit j = true → j + 1 ≤ 60) ∧
    m ≤ bits (fs.Max - fs.Min + 1) := by
  have hw : fs.Max - fs.Min + 1 ≤ 60 :=
    (offset_le_width hfs (le_refl _) (spec_min_le_max hfs)).2.2
  have h1 : ∀ j, m.testBit j = true → j + 1 ≤ fs.Max - fs.Min + 1 :=
    fun j hj => parseField_upper hfs h hj
  refine ⟨h1, fun j hj => (h1 j hj).trans hw, ?_⟩
  rw [bits_eq (by omega)]
  have hlt : m < 2 ^ (fs.Max - fs.Min + 1) := by
    apply Nat.lt_pow_two_of_testBit
    intro i hi
    by_contra hc
    have := h1 i (by simpa using hc)
    omega
  omega

/-- Witness of C16 on the wildcard in the day of the week. -/
theorem mask_width_witness :
    parseField "*" spec.dow = .ok (127, none) ∧
    (∀ j, Nat.testBit 127 j = true → j + 1 ≤ spec.dow.Max - spec.dow.Min + 1) ∧
    (∀ j, Nat.testBit 127 j = true → j + 1 ≤ 60) ∧
    127 ≤ bits (spec.dow.Max - spec.dow.Min + 1) :=
  ⟨by decide, mask_width spec.dow (by decide) "*" 127 none (by decide)⟩

/-! ### A step of zero -/

/-- With a step of 0 and a start not above the end the loop of `stepField`
never ends. -/
theorem stepField_zero {p q : Nat} (hp : p < 256) (hpq : p ≤ q) :
    stepField p q 0 = .error .nonTermination ∧
    ∀ n value, stepLoop q 0 n p value = .error .nonTermination := by
  have h : stepField p q 0 = .error .nonTermination := by
    unfold stepField
    rw [stepLoop_error_iff q 0 256 p 0 hp]
    intro k _
    simp only [Nat.mul_zero, Nat.add_zero, Nat.mod_eq_of_lt hp]
    exact hpq
  exact ⟨h, stepField_nonTermination hp h⟩

/-- What the code does with a step of 0 in every domain: `parseField` does not
return, on the stepped wildcard and on every stepped range in order. -/
theorem parseField_step_zero (fs : FieldSpec) (hfs : fs ∈ spec.toList) :
    parseField "*/0" fs = .error .nonTermination ∧
    parseField "*/00" fs = .error .nonTermination ∧
    ∀ a b, fs.Min ≤ a → a ≤ b → b ≤ fs.Max →
      parseField (toString a ++ "-" ++ toString b ++ "/" ++ "0") fs
        = .error .nonTermination := by
  have hmm := spec_min_le_max hfs
  obtain ⟨p1, p2, -⟩ := offset_spec hfs (le_refl fs.Min) hmm
  have hpq := offset_mono hfs (le_refl fs.Min) hmm (le_refl fs.Max)
  have hz := (stepField_zero (p := offset fs fs.Min) (q := offset fs fs.Max) (by omega) hpq).1
  have hd0 : digits12 ['0'] := Or.inl ⟨'0', rfl, by decide⟩
  have hd00 : digits12 ['0', '0'] := Or.inr ⟨'0', '0', rfl, by decide, by decide⟩
  have hn0 : num ['0'] = 0 := by decide
  have hn00 : num ['0', '0'] = 0 := by decide
  refine ⟨?_, ?_, ?_⟩
  · rw [show ("*/0" : String) = String.mk ('*' :: '/' :: ['0']) from rfl,
      parseField_everyStep hd0, parseEveryStep_digits hd0, hn0, hz]
    rfl
  · rw [show ("*/00" : String) = String.mk ('*' :: '/' :: ['0', '0']) from rfl,
      parseField_everyStep hd00, parseEveryStep_digits hd00, hn00, hz]
    rfl
  · intro a b hmin hab hmax
    obtain ⟨a1, a2, hva, hina, -, -⟩ := offset_spec hfs hmin (hab.trans hmax)
    obtain ⟨-, -, hvb, hinb, -, -⟩ := offset_spec hfs (hmin.trans hab) hmax
    obtain ⟨hda, hna⟩ := toString_digits12 a hva
    obtain ⟨hdb, hnb⟩ := toString_digits12 b hvb
    have hz2 := (stepField_zero (p := offset fs a) (q := offset fs b) (by omega)
      (offset_mono hfs hmin hab hmax)).1
    rw [rangeStep_text, show ("0" : String).data = ['0'] from rfl,
      parseField_rangeStep hda hdb hd0, parseRangeStep_digits hda hdb hd0, hna, hnb, hn0, hina,
      hinb, hz2]
    rfl

/-- C17 (the code at failing inputs): on a step of 0 the loop of `stepField`
never ends, whatever the number of rounds allowed, and `parseField` returns
neither an error nor a mask. -/
theorem step_zero_hangs :
    (∀ n value, stepLoop 60 0 n 1 value = .error .nonTermination) ∧
    stepField 1 60 0 = .error .nonTermination ∧
    parseField "*/0" spec.minute = .error .nonTermination ∧
    parseField "*/00" spec.minute = .error .nonTermination ∧
    parseField "1-5/0" spec.dom = .error .nonTermination :=
  ⟨(stepField_zero (p := 1) (q := 60) (by decide) (by decide)).2,
    (stepField_zero (p := 1) (q := 60) (by decide) (by decide)).1,
    (parseField_step_zero spec.minute (by decide)).1,
    (parseField_step_zero spec.minute (by decide)).2.1,
    (parseField_step_zero spec.dom (by decide)).2.2 1 5 (by decide) (by decide) (by decide)⟩

/-! ### The last error -/

theorem parseListLoop_error_mask {fs : FieldSpec} {m : Nat} {err : Error} :
    ∀ (parts : List (List Char)) (values : List Nat),
      parseListLoop fs parts values = (m, some err) → m = 0 := by
  intro parts
  induction parts with
  | nil => intro values h; simp [parseListLoop] at h
  | cons p rest ih =>
    intro values h
    unfold parseListLoop at h
    simp only at h
    split_ifs at h
    · simp only [Prod.mk.injEq] at h; exact h.1.symm
    · simp only [Prod.mk.injEq] at h; exact h.1.symm
    · exact ih _ h

/-- An error of `parseField` comes with the mask 0. -/
theorem parseField_error_mask {v : String} {fs : FieldSpec} {m : Nat} {err : Error}
    (h : parseField v fs = .ok (m, some err)) : m = 0 := by
  unfold parseField at h
  split_ifs at h
  · simp [parseEvery] at h
  · simp only [Except.ok.injEq] at h
    unfold parseSingleOrDoubleDigit at h
    simp only at h
    split_ifs at h
    · simp only [Prod.mk.injEq] at h; exact h.1.symm
    · simp only [Prod.mk.injEq] at h; exact h.1.symm
    · simp at h
  · simp only [parseEveryStep, bind, Except.bind, pure, Except.pure] at h
    split at h
    · simp at h
    · split_ifs at h
      · simp only [Except.ok.injEq, Prod.mk.injEq] at h; exact h.1.symm
      · split at h <;> simp at h
  · simp only [parseRange, bind, Except.bind, pure, Except.pure] at h
    split at h
    · simp at h
    · split at h
      · simp at h
      · split_ifs at h
        · simp only [Except.ok.injEq, Prod.mk.injEq] at h; exact h.1.symm
        · simp only [Except.ok.injEq, Prod.mk.injEq] at h; exact h.1.symm
        · simp only [Except.ok.injEq, Prod.mk.injEq] at h; exact h.1.symm
        · simp at h
  · simp only [parseRangeStep, bind, Except.bind, pure, Except.pure] at h
    split at h
    · simp at h
    · split at h
      · simp at h
      · split at h
        · simp at h
        · split_ifs at h
          · simp only [Except.ok.injEq, Prod.mk.injEq] at h; exact h.1.symm
          · simp only [Except.ok.injEq, Prod.mk.injEq] at h; exact h.1.symm
          · simp only [Except.ok.injEq, Prod.mk.injEq] at h; exact h.1.symm
          · split at h <;> simp at h
  · simp [parseAlias] at h
  · exact parseListLoop_error_mask _ _ (Except.ok.inj h)
  · simp only [Except.ok.injEq, Prod.mk.injEq] at h; exact h.1.symm

/-- What C19 says of `Parse`, on the expressions whose five fields return from
`parseField`: `Parse` fails exactly when the day-of-week field fails, with the
error of that field; the errors of the other fields are lost, and when the
day-of-week field compiles the schedule has the mask 0 for each field that
failed. -/
theorem Parse_last_error (fuel : Nat) (e f0 f1 f2 f3 f4 : String)
    (h : Fields e = [f0, f1, f2, f3, f4]) (r0 r1 r2 r3 r4 : Res)
    (h0 : parseField f0 spec.minute = .ok r0) (h1 : parseField f1 spec.hour = .ok r1)
    (h2 : parseField f2 spec.dom = .ok r2) (h3 : parseField f3 spec.month = .ok r3)
    (h4 : parseField f4 spec.dow = .ok r4) :
    ((∃ err, Parse fuel e = .ok (none, some err)) ↔ ∃ err, r4.2 = some err) ∧
    (∀ sched err, Parse fuel e = .ok (sched, some err) → sched = none ∧ r4.2 = some err) ∧
    (r4.2 = none →
      Parse fuel e = .ok (some ⟨r0.1, r1.1, r2.1, r3.1, r4.1⟩, none) ∧
      (r0.2 ≠ none → r0.1 = 0) ∧ (r1.2 ≠ none → r1.1 = 0) ∧ (r2.2 ≠ none → r2.1 = 0) ∧
      (r3.2 ≠ none → r3.1 = 0)) := by
  have hp := Parse_five h h0 h1 h2 h3 h4 fuel
  have hz : ∀ {v : String} {fs : FieldSpec} {r : Res}, parseField v fs = .ok r →
      r.2 ≠ none → r.1 = 0 := by
    intro v fs r hr hne
    obtain ⟨m, er⟩ := r
    cases er with
    | none => exact absurd rfl hne
    | some x => exact parseField_error_mask hr
  refine ⟨⟨?_, ?_⟩, ?_, ?_⟩
  · rintro ⟨err, he⟩
    rw [hp] at he
    cases h5 : r4.2 with
    | none => simp [h5] at he
    | some x => exact ⟨x, rfl⟩
  · rintro ⟨err, he⟩
    exact ⟨err, by rw [hp, he]; rfl⟩
  · intro sched err hs
    rw [hp] at hs
    cases h5 : r4.2 with
    | none => simp [h5] at hs
    | some x =>
      simp [h5] at hs
      exact ⟨hs.1.symm, by rw [hs.2]⟩
  · intro h5
    exact ⟨by rw [hp, h5]; rfl, hz h0, hz h1, hz h2, hz h3⟩

/-- C19 (the code at a failing input): the day-of-week field `9` fails in
`parseField`, and `Parse` never gets to it: the minute field `*/0` comes first
and hangs in the loop of `stepField`, so `Parse` returns no error. -/
theorem Parse_hangs_before_last_error :
    Fields "*/0 * * * 9" = ["*/0", "*", "*", "*", "9"] ∧
    parseField "9" spec.dow = .ok (0, some (.notInRange 9 0 7)) ∧
    parseField "*/0" spec.minute = .error .nonTermination ∧
    ∀ fuel, Parse fuel "*/0 * * * 9" = .error .nonTermination := by
  have hm := (parseField_step_zero spec.minute (by decide)).1
  refine ⟨by decide, by decide, hm, fun fuel => ?_⟩
  obtain ⟨parse, hp⟩ := Parse_eq_parseBody fuel "*/0 * * * 9"
  rw [hp]
  have hf : Fields "*/0 * * * 9" = ["*/0", "*", "*", "*", "9"] := by decide
  simp [parseBody, hf, hm, bind, Except.bind]

/-! ### Numbers that always parse -/

theorem String_mk_data (s : String) : String.mk s.data = s := rfl

/-- The pieces of a text that `List` matches are numbers of one or two digits
after trimming. -/
theorem List_parts {value : String} (h : Pattern.List.MatchString value = true) :
    ∀ p ∈ splitComma value.data, digits12 (TrimSpace p) := by
  obtain ⟨a0, items, h0, hi, e⟩ := List_iff.mp h
  rw [e, splitComma_listText a0 items h0 hi]
  intro p hp
  rcases List.mem_cons.mp hp with rfl | hp
  · have := TrimSpace_digits [] p (by simp) h0
    simp only [List.nil_append] at this
    rw [this]; exact h0
  · obtain ⟨it, hit, rfl⟩ := List.mem_map.mp hp
    rw [TrimSpace_digits it.1 it.2 (hi it hit).1 (hi it hit).2]
    exact (hi it hit).2

/-- The errors of `parseField` are the range error and the pattern error. -/
theorem parseField_error_kind {value : String} {fs : FieldSpec} {m : Nat} {err : Error}
    (h : parseField value fs = .ok (m, some err)) :
    (∃ n, fs.InRange n = false ∧ err = .notInRange n fs.Min fs.Max) ∨
      err = .noPattern value := by
  unfold parseField at h
  split_ifs at h with hE hS hES hR hRS hA hL
  · simp [parseEvery] at h
  · have hd := SingleOrDoubleDigit_iff.mp hS
    rw [← String_mk_data value, parseSingleOrDoubleDigit_digits hd] at h
    left
    cases hin : fs.InRange (num value.data) with
    | true => rw [hin] at h; simp at h
    | false =>
      rw [hin] at h
      simp at h
      exact ⟨_, hin, h.2.symm⟩
  · obtain ⟨c, hc, e⟩ := EveryStep_iff.mp hES
    have ev : value = String.mk ('*' :: '/' :: c) := String.ext e
    rw [ev, parseEveryStep_digits hc] at h
    cases hm : stepField (offset fs fs.Min) (offset fs fs.Max) (num c) <;> rw [hm] at h <;>
      simp [Except.map] at h
  · obtain ⟨a, b, ha, hb, rfl⟩ := Range_inv hR
    rw [parseRange_digits ha hb] at h
    left
    simp only [Except.ok.injEq] at h
    split_ifs at h with h1 h2
    · simp at h; exact ⟨_, by simpa using h1, h.2.symm⟩
    · simp at h; exact ⟨_, by simpa using h2, h.2.symm⟩
    · simp at h
  · obtain ⟨a, b, c, ha, hb, hc, rfl⟩ := RangeStep_inv hRS
    rw [parseRangeStep_digits ha hb hc] at h
    left
    split_ifs at h with h1 h2
    · simp at h; exact ⟨_, by simpa using h1, h.2.symm⟩
    · simp at h; exact ⟨_, by simpa using h2, h.2.symm⟩
    · cases hm : stepField (offset fs (num a)) (offset fs (num b)) (num c) <;> rw [hm] at h <;>
        simp [Except.map] at h
  · simp [parseAlias] at h
  · left
    simp only [Except.ok.injEq] at h
    unfold parseList at h
    rw [parseListLoop_digits fs _ _ (List_parts hL)] at h
    split at h
    · next p hp =>
      have := List.find?_some hp
      simp only [Prod.mk.injEq, Option.some.injEq] at h
      exact ⟨_, by simpa using this, h.2.symm⟩
    · simp at h
  · simp at h
    exact Or.inr h.2.symm

/-- C20: the errors of `strconv.ParseUint` cannot come out of `parseField`. For
every field text and domain: when the text matches the pattern of a parser that
calls `ParseUint` (a single number, a stepped wildcard, a range, a stepped
range, a list), each text the parser hands to `ParseUint` parses without error
to a number of at most 99, which the conversion to `uint8` leaves as it is; so
an error of `parseField` is a range error or the pattern error, never a syntax
or overflow error of a number, and `256` is refused as matching no pattern. -/
theorem numeric_errors_unreachable (fs : FieldSpec) (value : String) :
    (Pattern.SingleOrDoubleDigit.MatchString value = true →
      ∃ n, ParseUint value = (n, none) ∧ n ≤ 99 ∧ n % 256 = n) ∧
    (Pattern.EveryStep.MatchString value = true →
      ∃ c n, Pattern.EveryStep.FindStringSubmatch value = some [value, c] ∧
        ParseUint c = (n, none) ∧ n ≤ 99 ∧ n % 256 = n) ∧
    (Pattern.Range.MatchString value = true →
      ∃ a b na nb, Pattern.Range.FindStringSubmatch value = some [value, a, b] ∧
        ParseUint a = (na, none) ∧ ParseUint b = (nb, none) ∧ na ≤ 99 ∧ nb ≤ 99) ∧
    (Pattern.RangeStep.MatchString value = true →
      ∃ a b c na nb nc,
        Pattern.RangeStep.FindStringSubmatch value = some [value, a, b, c] ∧
        ParseUint a = (na, none) ∧ ParseUint b = (nb, none) ∧ ParseUint c = (nc, none) ∧
        na ≤ 99 ∧ nb ≤ 99 ∧ nc ≤ 99) ∧
    (Pattern.List.MatchString value = true →
      ∀ p ∈ splitComma value.data,
        ∃ n, ParseUint (String.mk (TrimSpace p)) = (n, none) ∧ n ≤ 99 ∧ n % 256 = n) ∧
    (∀ m err, parseField value fs = .ok (m, some err) →
      ((∃ n, fs.InRange n = false ∧ err = .notInRange n fs.Min fs.Max) ∨
        err = .noPattern value) ∧
      ∀ s, err ≠ .invalidSyntax s ∧ err ≠ .valueOutOfRange s) ∧
    parseField "256" fs = .ok (0, some (.noPattern "256")) := by
  have hnum : ∀ {l : List Char}, digits12 l →
      ParseUint (String.mk l) = (num l, none) ∧ num l ≤ 99 ∧ num l % 256 = num l := by
    intro l hl
    obtain ⟨h1, h2⟩ := ParseUint_digits12 hl
    exact ⟨h1, by omega, num_lt_256 hl⟩
  refine ⟨fun h => ?_, fun h => ?_, fun h => ?_, fun h => ?_, fun h p hp => ?_,
    fun m err h => ⟨parseField_error_kind h, fun s => ?_⟩, ?_⟩
  · have hd := SingleOrDoubleDigit_iff.mp h
    exact ⟨num value.data, hnum hd⟩
  · obtain ⟨c, hc, e⟩ := EveryStep_iff.mp h
    have ev : value = String.mk ('*' :: '/' :: c) := String.ext e
    refine ⟨String.mk c, num c, ?_, hnum hc⟩
    rw [ev]
    exact everyStep_sub hc
  · obtain ⟨a, b, ha, hb, rfl⟩ := Range_inv h
    exact ⟨String.mk a, String.mk b, num a, num b, range_sub ha hb, (hnum ha).1, (hnum hb).1,
      (hnum ha).2.1, (hnum hb).2.1⟩
  · obtain ⟨a, b, c, ha, hb, hc, rfl⟩ := RangeStep_inv h
    exact ⟨String.mk a, String.mk b, String.mk c, num a, num b, num c, rangeStep_sub ha hb hc,
      (hnum ha).1, (hnum hb).1, (hnum hc).1, (hnum ha).2.1, (hnum hb).2.1, (hnum hc).2.1⟩
  · exact ⟨_, hnum (List_parts h p hp)⟩
  · rcases parseField_error_kind h with ⟨n, -, rfl⟩ | rfl <;> simp
  · exact parseField_noPattern fs (by decide) (by decide) (by decide) (by decide) (by decide)
      (by decide) (by decide)

/-- Witness of C20 on the stepped range `12-31/23`. -/
theorem numeric_errors_unreachable_witness :
    ∃ a b c na nb nc,
      Pattern.RangeStep.FindStringSubmatch "12-31/23" = some ["12-31/23", a, b, c] ∧
      ParseUint a = (na, none) ∧ ParseUint b = (nb, none) ∧ ParseUint c = (nc, none) ∧
      na ≤ 99 ∧ nb ≤ 99 ∧ nc ≤ 99 :=
  (numeric_errors_unreachable spec.dom "12-31/23").2.2.2.1 (by decide)

/-! ### Classification -/

/-- The switch of `parseField` is `classify` followed by `dispatch`. -/
theorem parseField_classify (value : String) (fs : FieldSpec) :
    parseField value fs = dispatch (classify value) value fs := by
  unfold parseField classify
  split_ifs <;> rfl

theorem star_head {value : String}
    (h : Pattern.Every.MatchString value = true ∨ Pattern.EveryStep.MatchString value = true) :
    ∃ t, value.data = '*' :: t := by
  rcases h with h | h
  · exact ⟨[], Every_iff.mp h⟩
  · obtain ⟨c, -, e⟩ := EveryStep_iff.mp h
    exact ⟨_, e⟩

theorem digit_head {value : String}
    (h : Pattern.SingleOrDoubleDigit.MatchString value = true ∨
      Pattern.Range.MatchString value = true ∨ Pattern.RangeStep.MatchString value = true ∨
      Pattern.List.MatchString value = true) :
    ∃ x t, value.data = x :: t ∧ isDigit x = true := by
  rcases h with h | h | h | h
  · exact digits12_head (SingleOrDoubleDigit_iff.mp h)
  · obtain ⟨a, b, ha, -, e⟩ := Range_iff.mp h
    obtain ⟨x, t, rfl, hx⟩ := digits12_head ha
    exact ⟨x, _, e, hx⟩
  · obtain ⟨a, b, c, ha, -, -, e⟩ := RangeStep_iff.mp h
    obtain ⟨x, t, rfl, hx⟩ := digits12_head ha
    exact ⟨x, _, e, hx⟩
  · obtain ⟨a0, items, h0, -, e⟩ := List_iff.mp h
    obtain ⟨x, t, rfl, hx⟩ := digits12_head h0
    exact ⟨x, _, e, hx⟩

theorem alpha_head {value : String} (h : Pattern.Alias.MatchString value = true) :
    ∃ x t, value.data = x :: t ∧ isAlpha x = true := by
  obtain ⟨x, y, z, hx, -, -, e⟩ := Alias_iff.mp h
  exact ⟨x, _, e, hx⟩

/-- No text has two of the heads: a star, a digit, a letter. -/
theorem heads_apart {value : String} :
    ((∃ t, value.data = '*' :: t) → (∃ x t, value.data = x :: t ∧ isDigit x = true) → False) ∧
    ((∃ t, value.data = '*' :: t) → (∃ x t, value.data = x :: t ∧ isAlpha x = true) → False) ∧
    ((∃ x t, value.data = x :: t ∧ isDigit x = true) →
      (∃ x t, value.data = x :: t ∧ isAlpha x = true) → False) := by
  refine ⟨?_, ?_, ?_⟩
  · rintro ⟨t, e⟩ ⟨x, u, e2, hx⟩
    rw [e] at e2
    simp only [List.cons.injEq] at e2
    rw [← e2.1] at hx
    exact absurd hx (by decide)
  · rintro ⟨t, e⟩ ⟨x, u, e2, hx⟩
    rw [e] at e2
    simp only [List.cons.injEq] at e2
    rw [← e2.1] at hx
    exact absurd hx (by decide)
  · rintro ⟨x, t, e, hx⟩ ⟨y, u, e2, hy⟩
    rw [e] at e2
    simp only [List.cons.injEq] at e2
    rw [← e2.1] at hy
    have := isAlpha_not_isDigit hy
    rw [hx] at this
    exact absurd this (by decide)

/-- The patterns with the same head that exclude each other. -/
theorem same_head_apart {value : String} :
    (Pattern.Every.MatchString value = true → Pattern.EveryStep.MatchString value = true →
      False) ∧
    (Pattern.SingleOrDoubleDigit.MatchString value = true →
      Pattern.Range.MatchString value = true → False) ∧
    (Pattern.SingleOrDoubleDigit.MatchString value = true →
      Pattern.RangeStep.MatchString value = true → False) ∧
    (Pattern.Range.MatchString value = true → Pattern.RangeStep.MatchString value = true →
      False) ∧
    (Pattern.Range.MatchString value = true → Pattern.List.MatchString value = true →
      False) ∧
    (Pattern.RangeStep.MatchString value = true → Pattern.List.MatchString value = true →
      False) := by
  have hdash : isDigit '-' = false := by decide
  have hslash : isDigit '/' = false := by decide
  have hSR : Pattern.SingleOrDoubleDigit.MatchString value = true →
      Pattern.Range.MatchString value = true → False := by
    intro h1 h2
    have hd := SingleOrDoubleDigit_iff.mp h1
    obtain ⟨a, b, -, -, e⟩ := Range_iff.mp h2
    have := digits12_all hd '-' (by rw [e]; simp)
    rw [hdash] at this
    exact absurd this (by decide)
  have hSRS : Pattern.SingleOrDoubleDigit.MatchString value = true →
      Pattern.RangeStep.MatchString value = true → False := by
    intro h1 h2
    have hd := SingleOrDoubleDigit_iff.mp h1
    obtain ⟨a, b, c, -, -, -, e⟩ := RangeStep_iff.mp h2
    have := digits12_all hd '-' (by rw [e]; simp)
    rw [hdash] at this
    exact absurd this (by decide)
  have hL : Pattern.List.MatchString value = true →
      Pattern.SingleOrDoubleDigit.MatchString value = true ∨
        (Pattern.Range.MatchString value = false ∧
          Pattern.RangeStep.MatchString value = false) := by
    intro h
    obtain ⟨a0, items, h0, hi, e⟩ := List_iff.mp h
    cases items with
    | nil =>
      left
      rw [SingleOrDoubleDigit_iff, e]
      simpa [listText] using h0
    | cons it r =>
      right
      have hB := not_match_of_sep
        (r := it.1 ++ it.2 ++ r.flatMap fun it => ',' :: (it.1 ++ it.2)) h0 (c := ',')
        (by decide) (by decide)
      have ev : value = String.mk
          (a0 ++ ',' :: (it.1 ++ it.2 ++ r.flatMap fun it => ',' :: (it.1 ++ it.2))) := by
        apply String.ext
        rw [e]
        simp [listText]
      rw [ev]
      exact ⟨hB.2.1, hB.2.2⟩
  refine ⟨?_, hSR, hSRS, ?_, ?_, ?_⟩
  · intro h1 h2
    have e1 := Every_iff.mp h1
    obtain ⟨c, -, e2⟩ := EveryStep_iff.mp h2
    rw [e1] at e2
    simp at e2
  · intro h1 h2
    obtain ⟨a, b, ha, hb, e1⟩ := Range_iff.mp h1
    obtain ⟨a', b', c, ha', hb', -, e2⟩ := RangeStep_iff.mp h2
    rw [e1] at e2
    obtain ⟨-, -, e3⟩ := digits12_unique ha ha' hdash hdash e2
    have := digits12_all hb '/' (by rw [e3]; simp)
    rw [hslash] at this
    exact absurd this (by decide)
  · intro h1 h2
    rcases hL h2 with h3 | h3
    · exact hSR h3 h1
    · rw [h3.1] at h1
      exact absurd h1 (by decide)
  · intro h1 h2
    rcases hL h2 with h3 | h3
    · exact hSRS h3 h1
    · rw [h3.2] at h1
      exact absurd h1 (by decide)

/-- Two different patterns match the same text only when they are the single
number and the list, on a text of one or two digits. -/
theorem two_shapes {value : String} {sh1 sh2 : Shape} (hne : sh1 ≠ sh2)
    (h1 : sh1.pattern.MatchString value = true) (h2 : sh2.pattern.MatchString value = true) :
    digits12 value.data ∧
      ((sh1 = .single ∧ sh2 = .list) ∨ (sh1 = .list ∧ sh2 = .single)) := by
  obtain ⟨x1, x2, x3⟩ := @heads_apart value
  obtain ⟨y1, y2, y3, y4, y5, y6⟩ := @same_head_apart value
  have s1 := fun h => @star_head value (Or.inl h)
  have s2 := fun h => @star_head value (Or.inr h)
  have d1 := fun h => @digit_head value (Or.inl h)
  have d2 := fun h => @digit_head value (Or.inr (Or.inl h))
  have d3 := fun h => @digit_head value (Or.inr (Or.inr (Or.inl h)))
  have d4 := fun h => @digit_head value (Or.inr (Or.inr (Or.inr h)))
  have a1 := fun h => @alpha_head value h
  have e0 : Pattern.Every.MatchString value = true →
      Pattern.SingleOrDoubleDigit.MatchString value = true → False := fun h1 h2 => x1 (s1 h1) (d1 h2)
  have e1 : Pattern.Every.MatchString value = true →
      Pattern.Range.MatchString value = true → False := fun h1 h2 => x1 (s1 h1) (d2 h2)
  have e2 : Pattern.Every.MatchString value = true →
      Pattern.RangeStep.MatchString value = true → False := fun h1 h2 => x1 (s1 h1) (d3 h2)
  have e3 : Pattern.Every.MatchString value = true →
      Pattern.List.MatchString value = true → False := fun h1 h2 => x1 (s1 h1) (d4 h2)
  have e4 : Pattern.EveryStep.MatchString value = true →
      Pattern.SingleOrDoubleDigit.MatchString value = true → False := fun h1 h2 => x1 (s2 h1) (d1 h2)
  have e5 : Pattern.EveryStep.MatchString value = true →
      Pattern.Range.MatchString value = true → False := fun h1 h2 => x1 (s2 h1) (d2 h2)
  have e6 : Pattern.EveryStep.MatchString value = true →
      Pattern.RangeStep.MatchString value = true → False := fun h1 h2 => x1 (s2 h1) (d3 h2)
  have e7 : Pattern.EveryStep.MatchString value = true →
      Pattern.List.MatchString value = true → False := fun h1 h2 => x1 (s2 h1) (d4 h2)
  have e8 : Pattern.Every.MatchString value = true →
      Pattern.Alias.MatchString value = true → False := fun h1 h2 => x2 (s1 h1) (a1 h2)
  have e9 : Pattern.EveryStep.MatchString value = true →
      Pattern.Alias.MatchString value = true → False := fun h1 h2 => x2 (s2 h1) (a1 h2)
  have e10 : Pattern.SingleOrDoubleDigit.MatchString value = true →
      Pattern.Alias.MatchString value = true → False := fun h1 h2 => x3 (d1 h1) (a1 h2)
  have e11 : Pattern.Range.MatchString value = true →
      Pattern.Alias.MatchString value = true → False := fun h1 h2 => x3 (d2 h1) (a1 h2)
  have e12 : Pattern.RangeStep.MatchString value = true →
      Pattern.Alias.MatchString value = true → False := fun h1 h2 => x3 (d3 h1) (a1 h2)
  have e13 : Pattern.List.MatchString value = true →
      Pattern.Alias.MatchString value = true → False := fun h1 h2 => x3 (d4 h1) (a1 h2)
  have e14 : Pattern.Every.MatchString value = true →
      Pattern.EveryStep.MatchString value = true → False := fun h1 h2 => y1 h1 h2
  have e15 : Pattern.SingleOrDoubleDigit.MatchString value = true →
      Pattern.Range.MatchString value = true → False := fun h1 h2 => y2 h1 h2
  have e16 : Pattern.SingleOrDoubleDigit.MatchString value = true →
      Pattern.RangeStep.MatchString value = true → False := fun h1 h2 => y3 h1 h2
  have e17 : Pattern.Range.MatchString value = true →
      Pattern.RangeStep.MatchString value = true → False := fun h1 h2 => y4 h1 h2
  have e18 : Pattern.Range.MatchString value = true →
      Pattern.List.MatchString value = true → False := fun h1 h2 => y5 h1 h2
  have e19 : Pattern.RangeStep.MatchString value = true →
      Pattern.List.MatchString value = true → False := fun h1 h2 => y6 h1 h2
  cases sh1 with
  | every =>
    cases sh2 with
    | every => exact absurd rfl hne
    | single => exact (e0 h1 h2).elim
    | everyStep => exact (e14 h1 h2).elim
    | range => exact (e1 h1 h2).elim
    | rangeStep => exact (e2 h1 h2).elim
    | alias' => exact (e8 h1 h2).elim
    | list => exact (e3 h1 h2).elim
  | single =>
    cases sh2 with
    | every => exact (e0 h2 h1).elim
    | single => exact absurd rfl hne
    | everyStep => exact (e4 h2 h1).elim
    | range => exact (e15 h1 h2).elim
    | rangeStep => exact (e16 h1 h2).elim
    | alias' => exact (e10 h1 h2).elim
    | list => exact ⟨SingleOrDoubleDigit_iff.mp h1, Or.inl ⟨rfl, rfl⟩⟩
  | everyStep =>
    cases sh2 with
    | every => exact (e14 h2 h1).elim
    | single => exact (e4 h1 h2).elim
    | everyStep => exact absurd rfl hne
    | range => exact (e5 h1 h2).elim
    | rangeStep => exact (e6 h1 h2).elim
    | alias' => exact (e9 h1 h2).elim
    | list => exact (e7 h1 h2).elim
  | range =>
    cases sh2 with
    | every => exact (e1 h2 h1).elim
    | single => exact (e15 h2 h1).elim
    | everyStep => exact (e5 h2 h1).elim
    | range => exact absurd rfl hne
    | rangeStep => exact (e17 h1 h2).elim
    | alias' => exact (e11 h1 h2).elim
    | list => exact (e18 h1 h2).elim
  | rangeStep =>
    cases sh2 with
    | every => exact (e2 h2 h1).elim
    | single => exact (e16 h2 h1).elim
    | everyStep => exact (e6 h2 h1).elim
    | range => exact (e17 h2 h1).elim
    | rangeStep => exact absurd rfl hne
    | alias' => exact (e12 h1 h2).elim
    | list => exact (e19 h1 h2).elim
  | alias' =>
    cases sh2 with
    | every => exact (e8 h2 h1).elim
    | single => exact (e10 h2 h1).elim
    | everyStep => exact (e9 h2 h1).elim
    | range => exact (e11 h2 h1).elim
    | rangeStep => exact (e12 h2 h1).elim
    | alias' => exact absurd rfl hne
    | list => exact (e13 h2 h1).elim
  | list =>
    cases sh2 with
    | every => exact (e3 h2 h1).elim
    | single => exact ⟨SingleOrDoubleDigit_iff.mp h2, Or.inr ⟨rfl, rfl⟩⟩
    | everyStep => exact (e7 h2 h1).elim
    | range => exact (e18 h2 h1).elim
    | rangeStep => exact (e19 h2 h1).elim
    | alias' => exact (e13 h1 h2).elim
    | list => exact absurd rfl hne

/-- C18: for every field text the shape that the switch of `parseField` selects
(Every, SingleOrDoubleDigit, EveryStep, Range, RangeStep, Alias, List, the first
match wins) is the shape that the priority order of the spec selects (every,
stepped-every, single value, range, stepped range, alias, list), so that
`parseField` is the dispatch on either; for the only texts that two of the seven
patterns match are the numbers of one or two digits, which SingleOrDoubleDigit
and List match, and which are a single value in both orders. -/
theorem classify_order_independent (value : String) :
    classify value = classifySpec value ∧
    (∀ fs, parseField value fs = dispatch (classify value) value fs ∧
      parseField value fs = dispatch (classifySpec value) value fs) ∧
    (∀ sh1 sh2 : Shape, sh1 ≠ sh2 → sh1.pattern.MatchString value = true →
      sh2.pattern.MatchString value = true →
      digits12 value.data ∧
        ((sh1 = .single ∧ sh2 = .list) ∨ (sh1 = .list ∧ sh2 = .single))) ∧
    (digits12 value.data →
      Pattern.SingleOrDoubleDigit.MatchString value = true ∧
      Pattern.List.MatchString value = true ∧
      classify value = some .single ∧ classifySpec value = some .single) := by
  have hS_ES : Pattern.SingleOrDoubleDigit.MatchString value = true →
      Pattern.EveryStep.MatchString value = true → False := fun h1 h2 =>
    heads_apart.1 (star_head (Or.inr h2)) (digit_head (Or.inl h1))
  have hE_S : Pattern.Every.MatchString value = true →
      Pattern.SingleOrDoubleDigit.MatchString value = true → False := fun h1 h2 =>
    heads_apart.1 (star_head (Or.inl h1)) (digit_head (Or.inl h2))
  have heq : classify value = classifySpec value := by
    unfold classify classifySpec
    split_ifs with c1 c2 c3 <;> first | rfl | exact absurd c3 (fun h => hS_ES c2 h)
  refine ⟨heq, fun fs => ⟨parseField_classify value fs, ?_⟩,
    fun sh1 sh2 hne h1 h2 => two_shapes hne h1 h2, fun hd => ?_⟩
  · rw [← heq]
    exact parseField_classify value fs
  · have hs := SingleOrDoubleDigit_iff.mpr hd
    have hl : Pattern.List.MatchString value = true :=
      List_iff.mpr ⟨value.data, [], hd, by simp, by simp [listText]⟩
    have hc : classify value = some .single := by
      unfold classify
      rw [if_neg (fun h => hE_S h hs), if_pos hs]
    exact ⟨hs, hl, hc, by rw [← heq, hc]⟩

/-- Witness of C18 on the text `12`, which two patterns match. -/
theorem classify_order_independent_witness :
    digits12 "12".data ∧
      ((Shape.list = .single ∧ Shape.single = .list) ∨
        (Shape.list = .list ∧ Shape.single = .single)) :=
  (classify_order_independent "12").2.2.1 .list .single (by decide) (by decide) (by decide)

/-! ## The next occurrence (C15) -/

theorem nextLoop_some (s : Schedule) : ∀ (n k k' : Nat), nextLoop s n k = some k' →
    k ≤ k' ∧ k' < k + n ∧ matchesMinute s k' = true ∧
      ∀ j, k ≤ j → j < k' → matchesMinute s j = false := by
  intro n
  induction n with
  | zero => intro k k' h; simp [nextLoop] at h
  | succ n ih =>
    intro k k' h
    rw [nextLoop] at h
    by_cases hm : matchesMinute s k = true
    · rw [if_pos hm] at h
      cases h
      exact ⟨le_refl _, by omega, hm, fun j h1 h2 => by omega⟩
    · rw [if_neg hm] at h
      obtain ⟨a, b, c, d⟩ := ih (k + 1) k' h
      refine ⟨by omega, by omega, c, fun j h1 h2 => ?_⟩
      by_cases hj : j = k
      · subst hj; simpa using hm
      · exact d j (by omega) h2

theorem nextLoop_none (s : Schedule) : ∀ (n k : Nat), nextLoop s n k = none →
    ∀ j, k ≤ j → j < k + n → matchesMinute s j = false := by
  intro n
  induction n with
  | zero => intro k _ j h1 h2; omega
  | succ n ih =>
    intro k h j h1 h2
    rw [nextLoop] at h
    by_cases hm : matchesMinute s k = true
    · rw [if_pos hm] at h; cases h
    · rw [if_neg hm] at h
      by_cases hj : j = k
      · subst hj; simpa using hm
      · exact ih (k + 1) h j (by omega) (by omega)

theorem Next_some (s : Schedule) (reference r : Nat) (h : Next s reference = some r) :
    ∃ k : Nat, r = k * minuteNs ∧ reference / minuteNs ≤ k ∧ k < reference / minuteNs + horizon ∧
      matchesMinute s k = true ∧
      ∀ j : Nat, reference / minuteNs ≤ j → j < k → matchesMinute s j = false := by
  unfold Next at h
  cases hn : nextLoop s horizon (reference / minuteNs) with
  | none => rw [hn] at h; cases h
  | some k =>
    rw [hn] at h
    simp only [Option.map_some', Option.some.injEq] at h
    obtain ⟨a, b, c, d⟩ := nextLoop_some s _ _ _ hn
    exact ⟨k, h.symm, a, b, c, d⟩

theorem dayOfYear_le_aux (doe : Nat) (h : doe < 146097) :
    doe - (365 * ((doe - doe / 1460 + doe / 36524 - doe / 146096) / 365) +
      (doe - doe / 1460 + doe / 36524 - doe / 146096) / 365 / 4 -
      (doe - doe / 1460 + doe / 36524 - doe / 146096) / 365 / 100) ≤ 365 := by
  have hf : doe / 36524 = 0 ∨ doe / 36524 = 1 ∨ doe / 36524 = 2 ∨ doe / 36524 = 3 ∨
      doe / 36524 = 4 := by omega
  generalize hy : (doe - doe / 1460 + doe / 36524 - doe / 146096) / 365 = yoe
  have hd : yoe / 100 = 0 ∨ yoe / 100 = 1 ∨ yoe / 100 = 2 ∨ yoe / 100 = 3 := by omega
  rcases hf with hf | hf | hf | hf | hf <;> rcases hd with hd | hd | hd | hd <;> omega

theorem dayOfYear_le (z : Nat) : dayOfYear z ≤ 365 :=
  dayOfYear_le_aux (z % 146097) (Nat.mod_lt _ (by decide))

theorem monthOf_bounds (z : Nat) : 1 ≤ monthOf z ∧ monthOf z ≤ 12 := by
  have h := dayOfYear_le z
  unfold monthOf
  simp only []
  split <;> omega

theorem dayOf_bounds (z : Nat) :
    1 ≤ dayOf z ∧ dayOf z ≤ 31 ∧ (monthOf z = 2 → dayOf z ≤ 29) := by
  have h := dayOfYear_le z
  unfold monthOf dayOf
  simp only []
  generalize dayOfYear z = doy at h
  have hm : (5 * doy + 2) / 153 ≤ 11 := by omega
  generalize hmp : (5 * doy + 2) / 153 = mp at hm
  interval_cases mp <;> simp <;> omega

theorem Next_sound (s : Schedule) (reference r : Nat) (h : Next s reference = some r) :
    r % minuteNs = 0 ∧
    ∃ t : Nat, reference ≤ t ∧ matchesInstant s t = true ∧
      (∀ u : Nat, reference ≤ u → u < t → matchesInstant s u = false) ∧
      r = t - t % minuteNs := by
  obtain ⟨k, rfl, a, -, c, d⟩ := Next_some s reference r h
  refine ⟨Nat.mul_mod_left _ _, ?_⟩
  by_cases hk : k = reference / minuteNs
  · refine ⟨reference, le_refl _, ?_, fun u h1 h2 => by omega, ?_⟩
    · rw [matchesInstant, ← hk]; exact c
    · rw [hk]; simp only [minuteNs]; omega
  · have hlt : reference / minuteNs < k := by omega
    refine ⟨k * minuteNs, ?_, ?_, fun u h1 h2 => ?_, ?_⟩
    · simp only [minuteNs] at hlt ⊢; omega
    · rw [matchesInstant, Nat.mul_div_cancel _ (by decide : 0 < minuteNs)]; exact c
    · rw [matchesInstant]
      refine d _ ?_ ?_
      · simp only [minuteNs] at h1 hlt ⊢; omega
      · simp only [minuteNs] at h1 h2 hlt ⊢; omega
    · rw [Nat.mul_mod_left]; rfl

theorem Next_none_iff (s : Schedule) (reference : Nat) :
    Next s reference = none ↔
      ∀ u : Nat, reference ≤ u → u < (reference / minuteNs + horizon) * minuteNs →
        matchesInstant s u = false := by
  constructor
  · intro h u h1 h2
    unfold Next at h
    rw [Option.map_eq_none'] at h
    rw [matchesInstant]
    refine nextLoop_none s _ _ h _ ?_ ?_
    · simp only [minuteNs] at h1 ⊢; omega
    · simp only [minuteNs, horizon] at h2 ⊢; omega
  · intro h
    cases hn : Next s reference with
    | none => rfl
    | some r =>
      exfalso
      obtain ⟨k, -, a, b, c, -⟩ := Next_some s reference r hn
      have hu := h (max reference (k * minuteNs)) (le_max_left _ _)
        (by simp only [minuteNs, horizon] at a b ⊢; omega)
      rw [matchesInstant] at hu
      have hk : max reference (k * minuteNs) / minuteNs = k := by
        simp only [minuteNs] at a ⊢; omega
      rw [hk, c] at hu
      cases hu

theorem nextLoop_eq (s : Schedule) : ∀ (n k k' : Nat), k ≤ k' → k' < k + n →
    matchesMinute s k' = true → (∀ j, k ≤ j → j < k' → matchesMinute s j = false) →
    nextLoop s n k = some k' := by
  intro n
  induction n with
  | zero => intro k k' h1 h2; omega
  | succ n ih =>
    intro k k' h1 h2 hm hn
    rw [nextLoop]
    by_cases hk : k = k'
    · subst hk; rw [if_pos hm]
    · rw [hn k (le_refl _) (by omega)]
      exact ih (k + 1) k' (by omega) (by omega) hm fun j a b => hn j (by omega) b

theorem matchesMinute_month (s : Schedule) (k : Nat)
    (h : allows s.cron.month spec.month (monthOf (daysOf k)) = false) :
    matchesMinute s k = false := by
  unfold matchesMinute
  rw [h, Bool.and_false, Bool.false_and]

theorem matchesMinute_day (s : Schedule) (k : Nat) (h : dayMatches s (daysOf k) = false) :
    matchesMinute s k = false := by
  unfold matchesMinute
  rw [h, Bool.and_false]

/-- No day from 2017-12-31 to 2018-01-31 is a day of February. -/
theorem january_not_february (z : Nat) (h1 : 736999 ≤ z) (h2 : z ≤ 737030) :
    allows 2 spec.month (monthOf z) = false := by
  interval_cases z <;> decide

/-- C15 (the claim, and the test of the repository at `* * * 2 *`): `Next` is
modelled from the spec. From 2017-12-31T23:59:00Z the schedules of `* * * * *`
and `* * * * */3` give the reference, that of `2 * * * *` gives
2018-01-01T00:02:00Z and that of `* * 1 * *` gives 2018-01-01T00:00:00Z, as the
claim and the test say; the test agrees on `* 2 * * *`, `* * 2 1 *` and
`* * * * 1` as well. For `* * * 2 *` the earliest instant the schedule admits is
2018-02-01T00:00:00Z: no instant from the reference up to it is in February.
The test expects `time.Date(2018, 2, 0, ...)` there, which is
2018-01-31T00:00:00Z, an instant of January that the month mask excludes. -/
theorem Next_february_divergence :
    (Parse 0 "* * * * *" = .ok (some ⟨1152921504606846975, 16777215, 2147483647, 4095, 127⟩,
        none) ∧
      Next (schedule ⟨1152921504606846975, 16777215, 2147483647, 4095, 127⟩ "*" "*")
        (date 2017 12 31 23 59 0 0) = some (date 2017 12 31 23 59 0 0)) ∧
    (Parse 0 "* * * * */3" = .ok (some ⟨1152921504606846975, 16777215, 2147483647, 4095, 73⟩,
        none) ∧
      Next (schedule ⟨1152921504606846975, 16777215, 2147483647, 4095, 73⟩ "*" "*/3")
        (date 2017 12 31 23 59 0 0) = some (date 2017 12 31 23 59 0 0)) ∧
    (Parse 0 "2 * * * *" = .ok (some ⟨4, 16777215, 2147483647, 4095, 127⟩, none) ∧
      Next (schedule ⟨4, 16777215, 2147483647, 4095, 127⟩ "*" "*")
        (date 2017 12 31 23 59 0 0) = some (date 2018 1 1 0 2 0 0)) ∧
    (Parse 0 "* * 1 * *" = .ok (some ⟨1152921504606846975, 16777215, 1, 4095, 127⟩, none) ∧
      Next (schedule ⟨1152921504606846975, 16777215, 1, 4095, 127⟩ "1" "*")
        (date 2017 12 31 23 59 0 0) = some (date 2018 1 1 0 0 0 0)) ∧
    (Parse 0 "* 2 * * *" = .ok (some ⟨1152921504606846975, 4, 2147483647, 4095, 127⟩, none) ∧
      Next (schedule ⟨1152921504606846975, 4, 2147483647, 4095, 127⟩ "*" "*")
        (date 2017 12 31 23 59 0 0) = some (date 2018 1 1 2 0 0 0)) ∧
    (Parse 0 "* * 2 1 *" = .ok (some ⟨1152921504606846975, 16777215, 2, 1, 127⟩, none) ∧
      Next (schedule ⟨1152921504606846975, 16777215, 2, 1, 127⟩ "2" "*")
        (date 2017 12 31 23 59 0 0) = some (date 2018 1 2 0 0 0 0)) ∧
    (Parse 0 "* * * * 1" = .ok (some ⟨1152921504606846975, 16777215, 2147483647, 4095, 2⟩,
        none) ∧
      Next (schedule ⟨1152921504606846975, 16777215, 2147483647, 4095, 2⟩ "*" "1")
        (date 2017 12 31 23 59 0 0) = some (date 2018 1 1 0 0 0 0)) ∧
    (Parse 0 "* * * 2 *" = .ok (some ⟨1152921504606846975, 16777215, 2147483647, 2, 127⟩,
        none) ∧
      Next (schedule ⟨1152921504606846975, 16777215, 2147483647, 2, 127⟩ "*" "*")
        (date 2017 12 31 23 59 0 0) = some (date 2018 2 1 0 0 0 0) ∧
      matchesInstant (schedule ⟨1152921504606846975, 16777215, 2147483647, 2, 127⟩ "*" "*")
        (date 2018 2 1 0 0 0 0) = true ∧
      (∀ u : Nat, date 2017 12 31 23 59 0 0 ≤ u → u < date 2018 2 1 0 0 0 0 →
        matchesInstant (schedule ⟨1152921504606846975, 16777215, 2147483647, 2, 127⟩ "*" "*")
          u = false) ∧
      date 2018 2 0 0 0 0 0 = date 2018 1 31 0 0 0 0 ∧
      date 2017 12 31 23 59 0 0 ≤ date 2018 2 0 0 0 0 0 ∧
      date 2018 2 0 0 0 0 0 < date 2018 2 1 0 0 0 0 ∧
      monthOf (daysOf (date 2018 2 0 0 0 0 0 / minuteNs)) = 1 ∧
      dayOf (daysOf (date 2018 2 0 0 0 0 0 / minuteNs)) = 31 ∧
      allows 2 spec.month 1 = false ∧
      matchesInstant (schedule ⟨1152921504606846975, 16777215, 2147483647, 2, 127⟩ "*" "*")
        (date 2018 2 0 0 0 0 0) = false) := by
  have hr : date 2017 12 31 23 59 0 0 = 63676799940000000000 := by decide
  have hf : date 2018 2 1 0 0 0 0 = 63679478400000000000 := by decide
  have hno : ∀ j : Nat, 1061279999 ≤ j → j < 1061324640 →
      matchesMinute (schedule ⟨1152921504606846975, 16777215, 2147483647, 2, 127⟩ "*" "*") j
        = false := fun j h1 h2 =>
    matchesMinute_month _ j (january_not_february _ (by unfold daysOf; omega)
      (by unfold daysOf; omega))
  have hyes : matchesMinute
      (schedule ⟨1152921504606846975, 16777215, 2147483647, 2, 127⟩ "*" "*") 1061324640
        = true := by decide
  have hno2 : ∀ j : Nat, 1061279999 ≤ j → j < 1061281440 →
      matchesMinute (schedule ⟨1152921504606846975, 16777215, 2, 1, 127⟩ "2" "*") j
        = false := by
    intro j h1 h2
    have hz : daysOf j = 736999 ∨ daysOf j = 737000 := by unfold daysOf; omega
    rcases hz with hz | hz
    · exact matchesMinute_month _ j (by rw [hz]; decide)
    · exact matchesMinute_day _ j (by rw [hz]; decide)
  refine ⟨⟨by decide, by decide⟩, ⟨by decide, by decide⟩, ⟨by decide, by decide⟩,
    ⟨by decide, by decide⟩, ⟨by decide, by decide⟩, ⟨by decide, ?_⟩, ⟨by decide, by decide⟩,
    by decide, ?_, by decide, ?_, by decide, by decide, by decide, by decide, by decide,
    by decide, by decide⟩
  · rw [hr]
    unfold Next
    rw [show (63676799940000000000 : Nat) / minuteNs = 1061279999 from by decide,
      nextLoop_eq _ horizon 1061279999 1061281440 (by decide) (by decide) (by decide) hno2]
    decide
  · rw [hr, hf]
    unfold Next
    rw [show (63676799940000000000 : Nat) / minuteNs = 1061279999 from by decide,
      nextLoop_eq _ horizon 1061279999 1061324640 (by decide) (by decide) hyes hno]
    rfl
  · intro u h1 h2
    rw [hr] at h1
    rw [hf] at h2
    have h1' : (63676799940000000000 : Nat) ≤ u := h1
    have h2' : u < (63679478400000000000 : Nat) := h2
    rw [matchesInstant]
    exact hno _ (by simp only [minuteNs]; omega) (by simp only [minuteNs]; omega)

/-! ## Reversed ranges (C21) -/

/-- The bits of `rangeField` between two positions in reverse order: those
strictly between the two. -/
theorem testBit_rangeField_reversed {p q : Nat} (h1 : q < p) (h2 : p ≤ 64) (j : Nat) :
    (rangeField p q).testBit j = decide (q < j + 1 ∧ j + 1 < p) := by
  unfold rangeField
  rw [if_neg (by omega)]
  have h : (p + 255) % 256 = p - 1 := by omega
  rw [h, Nat.testBit_xor, testBit_bits (by omega), testBit_bits (by omega)]
  by_cases ha : j + 1 ≤ q <;> by_cases hb : j + 1 ≤ p - 1 <;> simp [ha, hb] <;> omega

/-- C21 (amended): reversed ranges are accepted. For each of the five domains
and all values `a`, `b` of the domain with `offset fs b < offset fs a`,
`parseRange` on the text `a-b` (to which `parseField` sends that text) returns
without error the mask whose set bits are the positions strictly between
`offset fs b` and `offset fs a`, the mask 0 when the two offsets are adjacent;
and for every step from 0 to 99, the steps the pattern can take, `parseRangeStep`
on the text `a-b/step` (to which `parseField` sends it) returns the mask 0
without error. -/
theorem reversed_ranges (fs : FieldSpec) (hfs : fs ∈ spec.toList) (a b step : Nat)
    (hmina : fs.Min ≤ a) (hmaxa : a ≤ fs.Max) (hminb : fs.Min ≤ b) (hmaxb : b ≤ fs.Max)
    (hrev : offset fs b < offset fs a) (hs : step ≤ 99) :
    (∃ mask, parseRange (toString a ++ "-" ++ toString b) fs = .ok (mask, none) ∧
      parseField (toString a ++ "-" ++ toString b) fs = .ok (mask, none) ∧
      (∀ j, mask.testBit j = true ↔ offset fs b < j + 1 ∧ j + 1 < offset fs a) ∧
      (offset fs a = offset fs b + 1 → mask = 0)) ∧
    parseRangeStep (toString a ++ "-" ++ toString b ++ "/" ++ toString step) fs
      = .ok (0, none) ∧
    parseField (toString a ++ "-" ++ toString b ++ "/" ++ toString step) fs
      = .ok (0, none) := by
  obtain ⟨-, a2, hva, hina, -, -⟩ := offset_spec hfs hmina hmaxa
  obtain ⟨-, -, hvb, hinb, -, -⟩ := offset_spec hfs hminb hmaxb
  obtain ⟨hda, hna⟩ := toString_digits12 a hva
  obtain ⟨hdb, hnb⟩ := toString_digits12 b hvb
  obtain ⟨hds, hns⟩ := toString_digits12 step (by omega)
  have hr : parseRange (toString a ++ "-" ++ toString b) fs =
      .ok (rangeField (offset fs a) (offset fs b), none) := by
    rw [range_text, parseRange_digits hda hdb, hna, hnb, hina, hinb]; rfl
  have hbit : ∀ j, (rangeField (offset fs a) (offset fs b)).testBit j = true ↔
      offset fs b < j + 1 ∧ j + 1 < offset fs a := by
    intro j
    rw [testBit_rangeField_reversed hrev (by omega)]
    simp
  have hq : parseRangeStep (toString a ++ "-" ++ toString b ++ "/" ++ toString step) fs =
      .ok (0, none) := by
    rw [rangeStep_text, parseRangeStep_digits hda hdb hds, hna, hnb, hns, hina, hinb,
      stepField_reversed hrev]; rfl
  refine ⟨⟨_, hr, ?_, hbit, fun hadj => ?_⟩, hq, ?_⟩
  · rw [range_text, parseField_range hda hdb, ← range_text, hr]
  · apply Nat.eq_of_testBit_eq
    intro j
    rw [Nat.zero_testBit]
    cases hj : (rangeField (offset fs a) (offset fs b)).testBit j with
    | false => rfl
    | true =>
      have := (hbit j).1 hj
      omega
  · rw [rangeStep_text, parseField_rangeStep hda hdb hds, ← rangeStep_text, hq]

/-- Witness of C21 on the minutes from 5 back to 2, in steps of 3: the range
has the positions 4 and 5, the stepped range none. -/
theorem reversed_ranges_witness :
    (∃ mask, parseRange (toString 5 ++ "-" ++ toString 2) spec.minute = .ok (mask, none) ∧
      parseField (toString 5 ++ "-" ++ toString 2) spec.minute = .ok (mask, none) ∧
      (∀ j, mask.testBit j = true ↔ offset spec.minute 2 < j + 1 ∧ j + 1 < offset spec.minute 5) ∧
      (offset spec.minute 5 = offset spec.minute 2 + 1 → mask = 0)) ∧
    parseRangeStep (toString 5 ++ "-" ++ toString 2 ++ "/" ++ toString 3) spec.minute
      = .ok (0, none) ∧
    parseField (toString 5 ++ "-" ++ toString 2 ++ "/" ++ toString 3) spec.minute
      = .ok (0, none) :=
  reversed_ranges spec.minute (by decide) 5 2 3 (by decide) (by decide) (by decide) (by decide)
    (by decide) (by decide)

/-- C21 as the spec states it fails for the steps of three digits, which are
steps of 1 or more: `5-2/100` is no stepped range, `parseRangeStep` indexes the
nil slice of the match and `parseField` finds no pattern. The step 0, which the
claim leaves out, gives the mask 0 like the others. -/
theorem reversed_ranges_counterexample :
    offset spec.minute 2 < offset spec.minute 5 ∧
    parseRangeStep "5-2/100" spec.minute = .error .indexOutOfRange ∧
    parseField "5-2/100" spec.minute = .ok (0, some (.noPattern "5-2/100")) ∧
    parseRangeStep "5-2/0" spec.minute = .ok (0, none) ∧
    parseRange "5-2" spec.minute = .ok (24, none) ∧
    parseRange "5-4" spec.minute = .ok (0, none) := by
  decide

end Cron
